import Mathlib

/-!
The program chrom_avg: per-position coverage averaging

A shallow embedding of `chrom_avg.c` and of the functions of `utilities.c` it
calls: option parsing (`parse_options`, lines 160-327), buffer allocation
(lines 360-371), the interval reader (`read_interval`, lines 606-718), the
read/accumulate loop of `main` (lines 385-454) and the interval report loop of
`main` (lines 458-510).  The companion programs `encodachrom.c` and
`decodachrom.c` are embedded in a section of their own, one line at a time.

Modelling conventions.

* `u32` variables are natural numbers; the one subtraction that can wrap
  (`start -= o`) is written with an explicit `% 2 ^ 32`.
* The C type `double` is kept abstract: the program only adds a value to a
  sum, divides a sum by a count and compares two averages with `!=`.  These
  three operations (and the constant `0.0`) are the fields of `DoubleOps`;
  no law is assumed about them unless a theorem says so.  `ratOps` is the
  instance in which values are exact rational numbers.
* A pointer into the linked list `chromsOfInterest` is an index into a list;
  `NULL` is `none`.
* Buffers are lists; a read outside a buffer yields `0` and a write outside
  a buffer does nothing, which makes the embedding total.
* `calloc` is assumed to succeed.  Progress messages on `stderr` are not
  modelled.
* A C string is the list of its characters, the argument vector a list of
  strings.  A call of `exit` is an `.error` result that names the exit taken.
* What `sscanf` accepts and stores is not modelled: it is the parameter
  `Scanf` of the conversion functions.  `decScanf` is an instance that reads
  unsigned decimal numerals, used to evaluate the program on examples.
* The input stream is the list of its characters.  The calls of `fgets` cut
  it into buffers (`chunks`); the static variables of `read_interval` are
  passed in and returned.  The read loop of `main` is written over the list of
  records (`processAll`); `readAll` is the list of records the successive
  calls of `read_interval` return.
-/

namespace ChromAvg

/-! ## Data model -/

/-- Operations on `double` used by the program: the constant `0.0`,
`sv[ix] += val`, `sv[ix] / cv32[ix]` (the count is converted to `double`)
and the comparison `newVal != val`. -/
structure DoubleOps (V : Type) where
  zero : V
  add : V → V → V
  divCount : V → Nat → V
  ne : V → V → Bool

/-- Exact rational arithmetic as an instance of `DoubleOps`. -/
def ratOps : DoubleOps ℚ where
  zero := 0
  add := fun a b => a + b
  divCount := fun s c => s / (c : ℚ)
  ne := fun a b => decide (a ≠ b)

/-- The global `maxCount = (u32) -1`. -/
def maxCount : Nat := 2 ^ 32 - 1

/-- The struct `spec`: one chromosome of interest (the `next` pointer is the
list structure itself). -/
structure spec (V : Type) where
  chrom : String
  start : Nat
  length : Nat
  countVector : List Nat
  sumVector : List V
  batchNumber : Int

/-- One parsed input interval, as returned by `read_interval`
(`chrom`, `start`, `end`, `val`). -/
structure Interval (V : Type) where
  chrom : String
  start : Nat
  endPos : Nat
  val : V

/-- The fatal exits of `main`. -/
inductive Fatal where
  | no_length_specified (chrom : String)
  | chrom_too_short (chrom : String) (start endPos length : Nat)
  deriving DecidableEq, Repr

/-- The variables of `main` that live across iterations of the read loop:
the chromosome list, `prevChrom` and the pointer `chromSpec`. -/
structure MainState (V : Type) where
  chroms : List (spec V)
  prevChrom : String
  chromSpec : Option Nat

/-- One `printf` of the report loop in window-local terms: the values of
`start`, of the end position (`ix` or `chromSpec->length`) and of `val`. -/
structure Run (V : Type) where
  start : Nat
  endPos : Nat
  val : V

/-- The variables of the report loop: `active`, `start`, `val`, and the
lines printed so far. -/
structure EncState (V : Type) where
  active : Bool
  start : Nat
  val : V
  out : List (Run V)

/-- One output line: chromosome, the two `%d` fields and the average (the
rounding done by `%.*f` is not modelled). -/
structure OutLine (V : Type) where
  chrom : String
  start : Int
  endPos : Int
  val : V

variable {V : Type}

/-! ## Allocation (main, lines 360-371) -/

/-- The allocation loop: a spec whose length is still zero is fatal,
otherwise both vectors get `length` zero entries. -/
def allocate (D : DoubleOps V) : List (spec V) → Except Fatal (List (spec V))
  | [] => .ok []
  | cs :: rest =>
    if cs.length = 0 then .error (.no_length_specified cs.chrom)
    else
      match allocate D rest with
      | .error e => .error e
      | .ok rest' =>
        .ok ({ cs with countVector := List.replicate cs.length 0,
                       sumVector := List.replicate cs.length D.zero } :: rest')

/-! ## The read loop (main, lines 385-454) -/

/-- The function `find_chromosome_spec`: the first spec whose name equals
`chrom`, as an index. -/
def find_chromosome_spec : List (spec V) → String → Option Nat
  | [], _ => none
  | cs :: rest, chrom =>
    if chrom = cs.chrom then some 0
    else (find_chromosome_spec rest chrom).map (· + 1)

/-- The statement `chromSpec->batchNumber++` for the spec at index `k`. -/
def bumpBatch (chroms : List (spec V)) (k : Nat) : List (spec V) :=
  match chroms[k]? with
  | some cs => chroms.set k { cs with batchNumber := cs.batchNumber + 1 }
  | none => chroms

/-- Lines 393-416: when the chromosome differs from the previous line the
spec is looked up again and `prevChrom` is replaced (names read from the
1000-byte line buffer always fit `prevChrom`). -/
def resolveChrom (st : MainState V) (chrom : String) : MainState V :=
  if chrom ≠ st.prevChrom then
    match find_chromosome_spec st.chroms chrom with
    | some k => { chroms := bumpBatch st.chroms k, prevChrom := chrom, chromSpec := some k }
    | none => { chroms := st.chroms, prevChrom := chrom, chromSpec := none }
  else st

/-- Lines 421-442: the range of positions to update.  `.error` is the jump
to `chrom_too_short`, `.ok none` is `continue`, `.ok (some (adjStart, adjEnd))`
reaches the accumulation loop.  `start` is the start after `start -= o`. -/
def clipRange (cs : spec V) (chrom : String) (start endPos : Nat) :
    Except Fatal (Option (Nat × Nat)) :=
  if cs.start = 0 then
    if endPos > cs.length then .error (.chrom_too_short chrom start endPos cs.length)
    else .ok (some (start, endPos))
  else
    if endPos ≤ cs.start then .ok none
    else
      let adjEnd := endPos - cs.start
      let adjStart := if start ≤ cs.start then 0 else start - cs.start
      if adjStart ≥ cs.length then .ok none
      else .ok (some (adjStart, if adjEnd ≥ cs.length then cs.length else adjEnd))

/-- The body of the accumulation loop (lines 448-452) at position `ix`. -/
def accumulateAt (D : DoubleOps V) (val : V) (cs : spec V) (ix : Nat) : spec V :=
  if cs.countVector.getD ix 0 < maxCount then
    { cs with
      countVector := cs.countVector.set ix (cs.countVector.getD ix 0 + 1)
      sumVector := cs.sumVector.set ix (D.add (cs.sumVector.getD ix D.zero) val) }
  else cs

/-- The accumulation loop `for (ix=adjStart ; ix<adjEnd ; ix++)`. -/
def accumulate (D : DoubleOps V) (val : V) (cs : spec V) (adjStart adjEnd : Nat) : spec V :=
  (List.range' adjStart (adjEnd - adjStart)).foldl (accumulateAt D val) cs

/-- Lines 420-453 for a record whose chromosome resolved to `cs`. -/
def applyToSpec (D : DoubleOps V) (o : Nat) (cs : spec V) (r : Interval V) :
    Except Fatal (spec V) :=
  match clipRange cs r.chrom ((r.start + 2 ^ 32 - o) % 2 ^ 32) r.endPos with
  | .error e => .error e
  | .ok none => .ok cs
  | .ok (some (adjStart, adjEnd)) => .ok (accumulate D r.val cs adjStart adjEnd)

/-- One iteration of the read loop for an interval that was read: the lookup
step, the test `chromSpec == NULL`, then lines 420-453 on the spec the pointer
designates.  The pointer always designates an element of the list; the branch
for an index outside the list only makes the function total. -/
def processInterval (D : DoubleOps V) (o : Nat) (st : MainState V) (r : Interval V) :
    Except Fatal (MainState V) :=
  let st1 := resolveChrom st r.chrom
  match st1.chromSpec with
  | none => .ok st1
  | some k =>
    match st1.chroms[k]? with
    | none => .ok st1
    | some cs =>
      match applyToSpec D o cs r with
      | .error e => .error e
      | .ok cs' => .ok { st1 with chroms := st1.chroms.set k cs' }

/-- The read loop over all intervals of the input. -/
def processAll (D : DoubleOps V) (o : Nat) : MainState V → List (Interval V) →
    Except Fatal (MainState V)
  | st, [] => .ok st
  | st, r :: rs =>
    match processInterval D o st r with
    | .error e => .error e
    | .ok st' => processAll D o st' rs

/-- The state in which the read loop is entered (lines 382-383). -/
def mainInit (chroms : List (spec V)) : MainState V :=
  { chroms := chroms, prevChrom := "", chromSpec := none }

/-! ## The report loop (main, lines 458-510) -/

/-- The body of the loop over positions (lines 478-503). -/
def encodeStep (D : DoubleOps V) (cv : List Nat) (sv : List V)
    (st : EncState V) (ix : Nat) : EncState V :=
  if cv.getD ix 0 = 0 then
    { active := false, start := 0, val := D.zero,
      out := if st.active = true ∧ ix ≠ st.start
             then st.out ++ [⟨st.start, ix, st.val⟩] else st.out }
  else
    let newVal := D.divCount (sv.getD ix D.zero) (cv.getD ix 0)
    if st.active = false then
      { active := true, start := ix, val := newVal, out := st.out }
    else if D.ne newVal st.val = true then
      { active := true, start := ix, val := newVal,
        out := if ix ≠ st.start then st.out ++ [⟨st.start, ix, st.val⟩] else st.out }
    else st

/-- The state before the first position (lines 473-475). -/
def encodeInit (D : DoubleOps V) : EncState V :=
  { active := false, start := 0, val := D.zero, out := [] }

/-- The state after positions `0 .. n-1` have been visited. -/
def encodeLoop (D : DoubleOps V) (cv : List Nat) (sv : List V) (n : Nat) : EncState V :=
  (List.range n).foldl (encodeStep D cv sv) (encodeInit D)

/-- The final test after the loop (lines 506-509). -/
def encodeFinish (length : Nat) (st : EncState V) : List (Run V) :=
  if st.active = true ∧ length ≠ st.start
  then st.out ++ [⟨st.start, length, st.val⟩] else st.out

/-- The runs reported for one chromosome, in window-local positions. -/
def encode (D : DoubleOps V) (cs : spec V) : List (Run V) :=
  encodeFinish cs.length (encodeLoop D cs.countVector cs.sumVector cs.length)

/-- The conversion `%d` applied to a `u32` value. -/
def printf_d (x : Nat) : Int :=
  if x % 2 ^ 32 < 2 ^ 31 then ((x % 2 ^ 32 : Nat) : Int)
  else ((x % 2 ^ 32 : Nat) : Int) - 2 ^ 32

/-- The arguments of `printf` for one run: `chromSpec->start+start+o` and
`chromSpec->start+ix` in `u32` arithmetic. -/
def printRun (o : Nat) (cs : spec V) (r : Run V) : OutLine V :=
  { chrom := cs.chrom
    start := printf_d ((cs.start + r.start + o) % 2 ^ 32)
    endPos := printf_d ((cs.start + r.endPos) % 2 ^ 32)
    val := r.val }

/-- The output lines for one chromosome. -/
def reportSpec (D : DoubleOps V) (o : Nat) (cs : spec V) : List (OutLine V) :=
  (encode D cs).map (printRun o cs)

/-- The report loop over all chromosomes, in list order. -/
def reportAll (D : DoubleOps V) (o : Nat) : List (spec V) → List (OutLine V)
  | [] => []
  | cs :: rest => reportSpec D o cs ++ reportAll D o rest

/-- The program after option parsing: allocate, read and accumulate, report.
`originOne` gives `o` (lines 377-378). -/
def chrom_avg (D : DoubleOps V) (originOne : Bool) (chroms : List (spec V))
    (input : List (Interval V)) : Except Fatal (List (OutLine V)) :=
  match allocate D chroms with
  | .error e => .error e
  | .ok alloc =>
    match processAll D (if originOne then 1 else 0) (mainInit alloc) input with
    | .error e => .error e
    | .ok st => .ok (reportAll D (if originOne then 1 else 0) st.chroms)

/-! ## Observers used in the statements -/

/-- The entry `cv32[i]` of the spec at index `k`. -/
def countAt (st : MainState V) (k i : Nat) : Nat :=
  match st.chroms[k]? with
  | some cs => cs.countVector.getD i 0
  | none => 0

/-- The entry `sv[i]` of the spec at index `k`. -/
def sumAt (D : DoubleOps V) (st : MainState V) (k i : Nat) : V :=
  match st.chroms[k]? with
  | some cs => cs.sumVector.getD i D.zero
  | none => D.zero

/-! ## Predicates used in the statements -/

/-- Whether the accumulation loop visits window-local position `i` of the
chromosome `cs` for the record `r`: the record is not fatal, not skipped, and
`adjStart <= i < adjEnd`. -/
def covers (cs : spec V) (o : Nat) (r : Interval V) (i : Nat) : Bool :=
  match clipRange cs r.chrom ((r.start + 2 ^ 32 - o) % 2 ^ 32) r.endPos with
  | .ok (some (adjStart, adjEnd)) => decide (adjStart ≤ i ∧ i < adjEnd)
  | _ => false

/-- The records of the input that name the chromosome `cs` and whose range
of updated positions contains `i`, in input order. -/
def coveringRecords (cs : spec V) (o : Nat) (rs : List (Interval V)) (i : Nat) :
    List (Interval V) :=
  rs.filter (fun r => decide (r.chrom = cs.chrom) && covers cs o r i)

/-- The sum of a list of values as the program forms it: starting from `0.0`
and adding one value after the other. -/
def sumValues (D : DoubleOps V) (vals : List V) : V :=
  vals.foldl D.add D.zero

/-- One contribution to a position as the loop body performs it on the pair
(count, sum). -/
def satStep (D : DoubleOps V) (p : Nat × V) (v : V) : Nat × V :=
  if p.1 < maxCount then (p.1 + 1, D.add p.2 v) else p

/-- The cached lookup of the read loop is consistent: `chromSpec` is what
`find_chromosome_spec` returns for `prevChrom`, or no line has been read yet. -/
def CacheOK (st : MainState V) : Prop :=
  st.chromSpec = find_chromosome_spec st.chroms st.prevChrom ∨
  (st.prevChrom = "" ∧ st.chromSpec = none)

/-- The average the report loop computes at position `i`. -/
def avgAt (D : DoubleOps V) (cv : List Nat) (sv : List V) (i : Nat) : V :=
  D.divCount (sv.getD i D.zero) (cv.getD i 0)

/-- The relation between two printed runs, the first printed earlier: they
do not overlap, and when they touch the later average compared unequal to
the earlier one. -/
def RunOrder (D : DoubleOps V) (a b : Run V) : Prop :=
  a.endPos ≤ b.start ∧ (a.endPos = b.start → D.ne b.val a.val = true)

/-- The invariant of the report loop after positions `0 .. k-1`. -/
structure EncInv (D : DoubleOps V) (cv : List Nat) (sv : List V) (k : Nat)
    (st : EncState V) : Prop where
  wf : ∀ r ∈ st.out, r.start < r.endPos ∧ r.endPos ≤ k
  act : st.active = true → st.start < k
  before : st.active = true → ∀ r ∈ st.out, r.endPos ≤ st.start
  gap : st.active = false → ∀ r ∈ st.out, r.endPos < k
  ord : st.out.Pairwise (RunOrder D)
  touch : st.active = true → ∀ r ∈ st.out, r.endPos = st.start → D.ne st.val r.val = true
  cover : ∀ j, j < k → (cv.getD j 0 ≠ 0 ↔
    ((∃ r ∈ st.out, r.start ≤ j ∧ j < r.endPos) ∨ (st.active = true ∧ st.start ≤ j)))
  runVal : ∀ r ∈ st.out, r.val = avgAt D cv sv r.start ∧
    ∀ j, r.start < j → j < r.endPos → D.ne (avgAt D cv sv j) r.val = false
  curVal : st.active = true → st.val = avgAt D cv sv st.start ∧
    ∀ j, st.start < j → j < k → D.ne (avgAt D cv sv j) st.val = false

/-- What the report loop guarantees about the runs printed for a buffer pair
of `n` positions. -/
structure EncodeSpec (D : DoubleOps V) (cv : List Nat) (sv : List V) (n : Nat)
    (res : List (Run V)) : Prop where
  wf : ∀ r ∈ res, r.start < r.endPos ∧ r.endPos ≤ n
  ord : res.Pairwise (RunOrder D)
  cover : ∀ j, j < n → (cv.getD j 0 ≠ 0 ↔ ∃ r ∈ res, r.start ≤ j ∧ j < r.endPos)
  runVal : ∀ r ∈ res, r.val = avgAt D cv sv r.start ∧
    ∀ j, r.start < j → j < r.endPos → D.ne (avgAt D cv sv j) r.val = false

/-! ## Strings and number conversions (utilities.c)

A C string is the list of its characters up to the terminating NUL.  The
conversions of `utilities.c` rest on `sscanf`; what `sscanf` accepts is a
parameter (`Scanf`), and so is `string_to_unitized_int`, which in addition
goes through `float` arithmetic. -/

/-- The function `isspace` of the C library in the "C" locale: space, tab,
newline, vertical tab, form feed, carriage return. -/
def isspace (c : Char) : Bool :=
  c = ' ' || c = '\t' || c = '\n' || c = Char.ofNat 11 || c = Char.ofNat 12 || c = '\r'

/-- The function `skip_whitespace`. -/
def skip_whitespace (s : List Char) : List Char :=
  s.dropWhile isspace

/-- The function `skip_darkspace`. -/
def skip_darkspace (s : List Char) : List Char :=
  s.dropWhile (fun c => !isspace c)

/-- The string that starts where `s` starts and ends where `skip_darkspace s`
starts: what a field pointer designates once `*mark = 0` has been executed. -/
def darkField (s : List Char) : List Char :=
  s.takeWhile (fun c => !isspace c)

/-- The loop `while ((*ss == ' ') || (*ss == '\t') || (*ss == '\n')) ss++`
of the conversion functions. -/
def skipBlanks (s : List Char) : List Char :=
  s.dropWhile (fun c => c = ' ' || c = '\t' || c = '\n')

/-- The failure exits of the conversion functions. -/
inductive ConvError where
  | empty_string
  | not_a_number (s : List Char)
  | out_of_range (s : List Char)
  deriving DecidableEq, Repr

/-- What the C library does in the calls `sscanf (s, "%u%c", &v, &extra)`,
`sscanf (s, "%d%c", ...)` and `sscanf (s, "%lf%c", ...)`: `some v` when the
call returns 1 and stores `v`, `none` otherwise.  `float_branch` is the part
of `string_to_unitized_int` that goes through `float` (the second `sscanf`,
the overflow tests on `vf*mult` and the rounding), applied to the text and
the multiplier. -/
structure Scanf (V : Type) where
  scan_u : List Char → Option Nat
  scan_d : List Char → Option Int
  scan_lf : List Char → Option V
  float_branch : List Char → Int → Except ConvError Int

/-- The function `string_to_u32`; the value is a `u32`. -/
def string_to_u32 (S : Scanf V) (s : List Char) : Except ConvError Nat :=
  let ss := skipBlanks s
  if ss = [] then .error .empty_string
  else if ss.head? = some '-' then .error (.not_a_number s)
  else
    match S.scan_u ss with
    | none => .error (.not_a_number s)
    | some v => .ok (v % 2 ^ 32)

/-- The function `string_to_int`. -/
def string_to_int (S : Scanf V) (s : List Char) : Except ConvError Int :=
  let ss := skipBlanks s
  if ss = [] then .error .empty_string
  else
    match S.scan_d ss with
    | none => .error (.not_a_number s)
    | some v =>
      if v < 0 ∧ ss.head? ≠ some '-' then .error (.out_of_range s)
      else if v > 0 ∧ ss.head? = some '-' then .error (.out_of_range s)
      else .ok v

/-- The constant `INT_MAX`. -/
def INT_MAX : Int := 2 ^ 31 - 1

/-- The multiplier `string_to_unitized_int` takes from the last character
of a text shorter than its 20-byte buffer. -/
def unitMultiplier (s : List Char) (byThousands : Bool) : Int :=
  if s.length ≥ 20 then 1
  else
    match s.getLast? with
    | some c =>
      if c = 'K' ∨ c = 'k' then (if byThousands then 1000 else 1024)
      else if c = 'M' ∨ c = 'm' then (if byThousands then 1000000 else 1024 * 1024)
      else if c = 'G' ∨ c = 'g' then (if byThousands then 1000000000 else 1024 * 1024 * 1024)
      else 1
    | none => 1

/-- The function `string_to_unitized_int`. -/
def string_to_unitized_int (S : Scanf V) (s : List Char) (byThousands : Bool) :
    Except ConvError Int :=
  let mult := unitMultiplier s byThousands
  let parseMe := if mult ≠ 1 then s.dropLast else s
  match S.scan_d parseMe with
  | none => S.float_branch parseMe mult
  | some v =>
    if mult ≠ 1 then
      if v > 0 ∧ v > INT_MAX / mult then .error (.out_of_range s)
      else if v < 0 ∧ -v > INT_MAX / mult then .error (.out_of_range s)
      else .ok (v * mult)
    else .ok v

/-- The function `string_to_double` (the scan starts at `s`, not after the
blanks). -/
def string_to_double (S : Scanf V) (s : List Char) : Except ConvError V :=
  let ss := skipBlanks s
  if ss = [] then .error .empty_string
  else
    match S.scan_lf s with
    | none => .error (.not_a_number s)
    | some v => .ok v

/-- The split of a string at the first occurrence of `c` (`strchr` followed
by writing a NUL over the character found): the text before and the text
after. -/
def splitAtChar (c : Char) : List Char → Option (List Char × List Char)
  | [] => none
  | x :: xs =>
    if x = c then some ([], xs)
    else
      match splitAtChar c xs with
      | none => none
      | some (a, b) => some (x :: a, b)

/-! ## Option parsing (parse_options, lines 160-327) -/

/-- The messages of `chastise`. -/
inductive Chastise where
  | negative_length
  | value_column_zero
  | value_column_negative
  | value_column_small
  | negative_precision
  | unknown_option (arg : String)
  | more_than_once (chrom : String)
  | no_chromosome
  deriving DecidableEq, Repr

/-- The ways `parse_options` ends the process. -/
inductive Exit where
  | usage (message : Chastise)
  | version
  | conversion (e : ConvError)
  deriving DecidableEq, Repr

/-- The global option variables together with the local `allChromLength`. -/
structure Options (V : Type) where
  chromsOfInterest : List (spec V)
  valColumn : Int
  precision : Int
  originOne : Bool
  reportBatches : Bool
  reportChroms : Bool
  allChromLength : Nat

/-- The initial values of the option variables. -/
def optionsInit : Options V :=
  { chromsOfInterest := [], valColumn := 4 - 1, precision := 0, originOne := false,
    reportBatches := false, reportChroms := false, allChromLength := 0 }

/-- The text after the first `=` of an argument (`argVal`); only used when
the argument contains one. -/
def argVal (arg : List Char) : List Char :=
  match splitAtChar '=' arg with
  | some (_, v) => v
  | none => []

/-- Lines 262-283: the name, `chromStart` and `chromLength` of a chromosome
argument. -/
def parseChromArg (S : Scanf V) (arg : List Char) : Except Exit (List Char × Nat × Nat) :=
  match splitAtChar ':' arg with
  | none => .ok (arg, 0, 0)
  | some (name, rest) =>
    match splitAtChar ':' rest with
    | none =>
      match string_to_u32 S rest with
      | .error e => .error (.conversion e)
      | .ok len => .ok (name, 0, len)
    | some (s, e) =>
      match string_to_u32 S s with
      | .error err => .error (.conversion err)
      | .ok chromStart =>
        match string_to_u32 S e with
        | .error err => .error (.conversion err)
        | .ok v => .ok (name, chromStart, (v + 2 ^ 32 - chromStart) % 2 ^ 32)

/-- Lines 285-302: the scan for a spec of the same name, then the new spec
appended at the tail of the list. -/
def registerChrom (chroms : List (spec V)) (name : String) (chromStart chromLength : Nat) :
    Except Exit (List (spec V)) :=
  if chroms.any (fun cs => name = cs.chrom) then .error (.usage (.more_than_once name))
  else .ok (chroms ++ [⟨name, chromStart, chromLength, [], [], 0⟩])

/-- Whether `str2` is a prefix of `str1` (`strcmp_prefix (str1, str2) == 0`). -/
def hasPrefix (str1 : String) (str2 : String) : Bool :=
  str2.data.isPrefixOf str1.data

/-- The body of the argument loop for one argument (lines 183-302). -/
def parseArg (S : Scanf V) (st : Options V) (arg : String) : Except Exit (Options V) :=
  if hasPrefix arg "L=" || hasPrefix arg "--L=" then
    match string_to_unitized_int S (argVal arg.data) true with
    | .error e => .error (.conversion e)
    | .ok tempInt =>
      if tempInt < 0 then .error (.usage .negative_length)
      else
        let allChromLength := tempInt.toNat % 2 ^ 32
        .ok { st with allChromLength := if allChromLength = 0 then 2 ^ 32 - 1 else allChromLength }
  else if hasPrefix arg "--value=" then
    match string_to_int S (argVal arg.data) with
    | .error e => .error (.conversion e)
    | .ok v =>
      if v - 1 = -1 then .error (.usage .value_column_zero)
      else if v - 1 < 0 then .error (.usage .value_column_negative)
      else if v - 1 < 3 then .error (.usage .value_column_small)
      else .ok { st with valColumn := v - 1 }
  else if hasPrefix arg "--precision=" then
    match string_to_int S (argVal arg.data) with
    | .error e => .error (.conversion e)
    | .ok v =>
      if v < 0 then .error (.usage .negative_precision)
      else .ok { st with precision := v }
  else if arg = "--origin=one" ∨ arg = "--origin=1" then .ok { st with originOne := true }
  else if arg = "--origin=zero" ∨ arg = "--origin=0" then .ok { st with originOne := false }
  else if arg = "--progress" then .ok { st with reportBatches := true }
  else if arg = "--progress=chromosome" ∨ arg = "--progress=chromosomes" then
    .ok { st with reportChroms := true }
  else if arg = "--version" then .error .version
  else if hasPrefix arg "--" then .error (.usage (.unknown_option arg))
  else
    match parseChromArg S arg.data with
    | .error e => .error e
    | .ok (name, chromStart, chromLength) =>
      match registerChrom st.chromsOfInterest (String.mk name) chromStart chromLength with
      | .error e => .error e
      | .ok chroms => .ok { st with chromsOfInterest := chroms }

/-- The argument loop (lines 181-307). -/
def parseArgs (S : Scanf V) : Options V → List String → Except Exit (Options V)
  | st, [] => .ok st
  | st, arg :: rest =>
    match parseArg S st arg with
    | .error e => .error e
    | .ok st' => parseArgs S st' rest

/-- Lines 320-323: the length given to chromosomes that have none. -/
def defaultLength (allChromLength : Nat) : Nat :=
  if allChromLength = 0 then 250 * 1000 * 1000
  else if allChromLength = 2 ^ 32 - 1 then 0
  else allChromLength

/-- Lines 325-326. -/
def assignDefaultLength (allChromLength : Nat) (cs : spec V) : spec V :=
  if cs.length = 0 then { cs with length := allChromLength } else cs

/-- The function `parse_options` on the arguments after the program name:
the argument loop, the test for an empty list, the default lengths. -/
def parse_options (S : Scanf V) (argv : List String) : Except Exit (Options V) :=
  match parseArgs S optionsInit argv with
  | .error e => .error e
  | .ok st =>
    match st.chromsOfInterest with
    | [] => .error (.usage .no_chromosome)
    | c :: cs =>
      .ok { st with
        chromsOfInterest := (c :: cs).map (assignDefaultLength (defaultLength st.allChromLength))
        allChromLength := defaultLength st.allChromLength }

/-! ## The interval reader (read_interval, lines 606-718)

The stream `f` is the list of characters not yet read.  Since every call of
`fgets` in the program has the same buffer length, the reader is written
over the list of buffers that the successive calls deliver (`chunks`). -/

/-- The characters `fgets` stores when it may store `n` more: it stops after
a newline, at the end of the stream, or when `n` characters are stored.  The
second component is the rest of the stream. -/
def fgetsAux : Nat → List Char → List Char × List Char
  | 0, f => ([], f)
  | _ + 1, [] => ([], [])
  | n + 1, c :: f =>
    if c = '\n' then ([c], f)
    else ((fgetsAux n f).1.cons c, (fgetsAux n f).2)

/-- The call `fgets (buffer, bufferLen, f)`: `none` is the result `NULL` at
the end of the stream. -/
def fgets (bufferLen : Nat) (f : List Char) : Option (List Char × List Char) :=
  if f = [] then none else some (fgetsAux (bufferLen - 1) f)

/-- The buffers delivered by at most `fuel` successive calls of `fgets`. -/
def chunksAux (bufferLen : Nat) : Nat → List Char → List (List Char)
  | 0, _ => []
  | fuel + 1, f =>
    match fgets bufferLen f with
    | none => []
    | some (buffer, rest) => buffer :: chunksAux bufferLen fuel rest

/-- The buffers delivered by the successive calls of `fgets` until it
returns `NULL` (every call takes at least one character when
`bufferLen >= 2`, so `f.length` calls suffice). -/
def chunks (bufferLen : Nat) (f : List Char) : List (List Char) :=
  chunksAux bufferLen f.length f

/-- The C string held by a buffer: the characters before the first NUL. -/
def cstr (buffer : List Char) : List Char :=
  buffer.takeWhile (fun c => c ≠ Char.ofNat 0)

/-- The labels `missing_eol`, `no_chrom`, `no_start`, `no_end`, `no_value`. -/
inductive Problem where
  | missing_eol
  | no_chrom
  | no_start
  | no_end
  | no_value
  deriving DecidableEq, Repr

/-- The failure exits taken inside `read_interval`: one of its own labels
with the number it prints (`lineNumber-1` under `%u`), or the exit of a
conversion function. -/
inductive ReadFatal where
  | problem (p : Problem) (line : Nat)
  | conversion (e : ConvError)
  deriving DecidableEq, Repr

/-- What lines 645-688 do with the C string in the buffer. -/
inductive LineResult (V : Type) where
  | skip
  | record (r : Interval V)
  | problem (p : Problem)
  | conversion (e : ConvError)

/-- The loop `for (col=3 ; col<=valCol ; col++)` (lines 669-675) with the
number of iterations left, on the variables `field` and `scan`; the result
is the final `field`, or `none` for the jump to `no_value`. -/
def valueLoop : Nat → List Char → List Char → Option (List Char)
  | 0, field, _ => some field
  | n + 1, _, scan =>
    if scan = [] then none
    else valueLoop n scan (skip_whitespace (skip_darkspace scan))

/-- Lines 645-688 on the C string `buffer`.  A field that has been
terminated by `*mark = 0` is the `darkField` of the place where it starts. -/
def parseLine (S : Scanf V) (valCol : Int) (buffer : List Char) : LineResult V :=
  let scan0 := skip_whitespace buffer
  if scan0 = [] then .skip
  else if scan0.head? = some '#' then .skip
  else if buffer.head? = some ' ' then .problem .no_chrom
  else
    let scan1 := skip_whitespace (skip_darkspace buffer)
    if scan1 = [] then .problem .no_start
    else
      let scan2 := skip_whitespace (skip_darkspace scan1)
      match string_to_u32 S (darkField scan1) with
      | .error e => .conversion e
      | .ok start =>
        if scan2 = [] then .problem .no_end
        else
          let scan3 := skip_whitespace (skip_darkspace scan2)
          match string_to_u32 S (darkField scan2) with
          | .error e => .conversion e
          | .ok endPos =>
            match valueLoop (valCol - 2).toNat scan2 scan3 with
            | none => .problem .no_value
            | some field =>
              match string_to_double S (darkField field) with
              | .error e => .conversion e
              | .ok val => .record ⟨String.mk (darkField buffer), start, endPos, val⟩

/-- The value of `missingEol` after lines 639-641. -/
def nextMissingEol (missingEol : Bool) (buffer : List Char) : Bool :=
  match (cstr buffer).getLast? with
  | some c => decide (c ≠ '\n')
  | none => missingEol

/-- The value of `lineNumber` after `lineNumber++`. -/
def nextLineNumber (lineNumber : Nat) : Nat :=
  (lineNumber + 1) % 2 ^ 32

/-- The number printed by the failure exits: `lineNumber-1` as a `u32`. -/
def reportedLine (lineNumber : Nat) : Nat :=
  (lineNumber + 2 ^ 32 - 1) % 2 ^ 32

/-- The result of one call of `read_interval`: `false` at the end of the
stream, `true` with the record, or a failure exit.  The first two carry the
stream and the static variables `lineNumber` and `missingEol` as the call
leaves them. -/
inductive ReadResult (V : Type) where
  | eof (lineNumber : Nat) (missingEol : Bool)
  | record (r : Interval V) (rest : List (List Char)) (lineNumber : Nat) (missingEol : Bool)
  | fatal (e : ReadFatal)

/-- The function `read_interval` on the buffers still to come and the static
variables `lineNumber` and `missingEol`; `goto try_again` is the recursive
call. -/
def read_interval (S : Scanf V) (valCol : Int) :
    List (List Char) → Nat → Bool → ReadResult V
  | [], lineNumber, missingEol => .eof lineNumber missingEol
  | buffer :: rest, lineNumber, missingEol =>
    if missingEol then .fatal (.problem .missing_eol (reportedLine (nextLineNumber lineNumber)))
    else
      match parseLine S valCol (cstr buffer) with
      | .skip =>
        read_interval S valCol rest (nextLineNumber lineNumber) (nextMissingEol missingEol buffer)
      | .record r =>
        .record r rest (nextLineNumber lineNumber) (nextMissingEol missingEol buffer)
      | .problem p => .fatal (.problem p (reportedLine (nextLineNumber lineNumber)))
      | .conversion e => .fatal (.conversion e)

/-- The records returned by the successive calls of `read_interval` in the
read loop of `main`, and the failure exit that ended the calls, if any. -/
def readAll (S : Scanf V) (valCol : Int) :
    List (List Char) → Nat → Bool → List (Interval V) × Option ReadFatal
  | [], _, _ => ([], none)
  | buffer :: rest, lineNumber, missingEol =>
    if missingEol then
      ([], some (.problem .missing_eol (reportedLine (nextLineNumber lineNumber))))
    else
      match parseLine S valCol (cstr buffer) with
      | .skip =>
        readAll S valCol rest (nextLineNumber lineNumber) (nextMissingEol missingEol buffer)
      | .record r =>
        ((readAll S valCol rest (nextLineNumber lineNumber)
            (nextMissingEol missingEol buffer)).1.cons r,
         (readAll S valCol rest (nextLineNumber lineNumber)
            (nextMissingEol missingEol buffer)).2)
      | .problem p => ([], some (.problem p (reportedLine (nextLineNumber lineNumber))))
      | .conversion e => ([], some (.conversion e))

/-- The size of `lineBuffer` in `main`. -/
def lineBufferLen : Nat := 1000

/-! ## A concrete `sscanf` for evaluating examples -/

/-- The value of a decimal digit. -/
def digitValue (c : Char) : Option Nat :=
  if '0' ≤ c ∧ c ≤ '9' then some (c.toNat - 48) else none

/-- The value of a string of decimal digits read after the value `acc`;
`none` when a character is not a digit. -/
def decimalFrom : Nat → List Char → Option Nat
  | acc, [] => some acc
  | acc, c :: s =>
    match digitValue c with
    | none => none
    | some d => decimalFrom (acc * 10 + d) s

/-- The value of a non-empty string of decimal digits. -/
def decimal (s : List Char) : Option Nat :=
  if s = [] then none else decimalFrom 0 s

/-- A `sscanf` that accepts unsigned decimal numerals only, with values in
exact rational arithmetic.  On a string of digits whose value fits the
target type the C library stores the same value and returns 1. -/
def decScanf : Scanf ℚ where
  scan_u := decimal
  scan_d := fun s => (decimal s).map (fun n => (n : Int))
  scan_lf := fun s => (decimal s).map (fun n => (n : ℚ))
  float_branch := fun s _ => .error (.not_a_number s)

/-! ## Notions used in the statements about the reader -/

/-- The whitespace-separated fields of a text: its maximal runs of
characters that are not whitespace. -/
def fields : List Char → List (List Char)
  | [] => []
  | c :: s =>
    if isspace c then fields s
    else
      match s with
      | [] => [[c]]
      | d :: _ =>
        if isspace d then [c] :: fields s
        else
          match fields s with
          | f :: fs => (c :: f) :: fs
          | [] => [[c]]

/-- A line that the reader is to skip: empty, only whitespace, or with `#`
as its first character that is not whitespace. -/
def skippable (line : List Char) : Bool :=
  match line.dropWhile isspace with
  | [] => true
  | c :: _ => c = '#'

/-- A text line that one call of `fgets` with the buffer of `main` delivers
entire together with its newline: no newline and no NUL inside, at most 998
characters. -/
def FitsBuffer (line : List Char) : Prop :=
  line.length + 2 ≤ lineBufferLen ∧ '\n' ∉ line ∧ Char.ofNat 0 ∉ line

/-- The stream that consists of the given lines, each followed by a
newline. -/
def unlines : List (List Char) → List Char
  | [] => []
  | l :: ls => l ++ '\n' :: unlines ls

/-- Whether an argument is taken as a chromosome by `parse_options`: it is
neither an `L=` argument nor an argument starting with `--`. -/
def isChromArg (arg : String) : Bool :=
  !(hasPrefix arg "L=") && !(hasPrefix arg "--")

/-- Whether an argument sets the default length (`L=` or `--L=`). -/
def isLengthArg (arg : String) : Bool :=
  hasPrefix arg "L=" || hasPrefix arg "--L="

/-- The name part of a chromosome argument: the text before the first `:`. -/
def chromName (arg : String) : String :=
  match splitAtChar ':' arg.data with
  | some (name, _) => String.mk name
  | none => arg

/-- The spec that lines 262-302 put on the list for a chromosome argument:
the name before the first colon, the parsed start and length, no vectors
yet. -/
def Registers (S : Scanf V) (arg : String) (cs : spec V) : Prop :=
  ∃ name a len, parseChromArg S arg.data = .ok (name, a, len) ∧
    cs = ⟨chromName arg, a, len, [], [], 0⟩

/-- What the reader is to do with a line, told from its list of
whitespace-separated fields, for the value column `k` (counted from 1): the
first field is the chromosome, the second and third are start and end, the
`k`-th is the value; a line with too few fields is a problem. -/
def parseFields (S : Scanf V) (k : Nat) : List (List Char) → LineResult V
  | [] => .skip
  | [_] => .problem .no_start
  | chrom :: f2 :: rest =>
    match string_to_u32 S f2 with
    | .error e => .conversion e
    | .ok start =>
      match rest with
      | [] => .problem .no_end
      | f3 :: rest' =>
        match string_to_u32 S f3 with
        | .error e => .conversion e
        | .ok endPos =>
          match (chrom :: f2 :: f3 :: rest')[k - 1]? with
          | none => .problem .no_value
          | some fk =>
            match string_to_double S fk with
            | .error e => .conversion e
            | .ok val => .record ⟨String.mk chrom, start, endPos, val⟩

/-- Two ways of ending the calls of the reader that differ at most in the
line number reported. -/
def sameExit : Option ReadFatal → Option ReadFatal → Prop
  | none, none => True
  | some (.problem p _), some (.problem q _) => p = q
  | some (.conversion e), some (.conversion e') => e = e'
  | _, _ => False

/-! ## The programs encodachrom and decodachrom

Both programs copy their input line by line.  A line is the C string that
`get_line` leaves in the buffer after the newline has been removed; the
functions below give the text printed for one line (without the newline
that `printf` adds).  The character classes are those of the "C" locale.
The value of `*s` is taken to be the character code (between 0 and 255, as
the table in the header comment of `encodachrom.c` has it); for 7-bit
characters it does not depend on the signedness of `char`. -/

/-- The function `isdigit`. -/
def isdigit (c : Char) : Bool :=
  decide ('0' ≤ c) && decide (c ≤ '9')

/-- The function `isupper`. -/
def isupper (c : Char) : Bool :=
  decide ('A' ≤ c) && decide (c ≤ 'Z')

/-- The function `islower`. -/
def islower (c : Char) : Bool :=
  decide ('a' ≤ c) && decide (c ≤ 'z')

/-- The function `isalpha`. -/
def isalpha (c : Char) : Bool :=
  isupper c || islower c

/-- The function `toupper`. -/
def toupper (c : Char) : Char :=
  if islower c then Char.ofNat (c.toNat - 32) else c

/-- The function `tolower`. -/
def tolower (c : Char) : Char :=
  if isupper c then Char.ofNat (c.toNat + 32) else c

/-- The character of a decimal digit. -/
def digitChar (k : Nat) : Char :=
  Char.ofNat (48 + k)

/-- The expression `*s - '0'` for a digit. -/
def digitOf (c : Char) : Nat :=
  c.toNat - 48

/-- The conversion `%d` of `printf` for a number that is not negative. -/
def printf_u (n : Nat) : List Char :=
  if n < 10 then [digitChar n]
  else if n < 100 then [digitChar (n / 10), digitChar (n % 10)]
  else if n < 1000 then [digitChar (n / 100), digitChar (n / 10 % 10), digitChar (n % 10)]
  else Nat.toDigits 10 n

/-- The conversion `%03d` of `printf` for a number that is not negative. -/
def printf_03d (n : Nat) : List Char :=
  if n < 1000 then [digitChar (n / 100), digitChar (n / 10 % 10), digitChar (n % 10)]
  else Nat.toDigits 10 n

/-- The function `strncmplax` of `encodachrom.c`; the character at the end
of a C string is NUL. -/
def strncmplax : List Char → List Char → Nat → Int
  | _, _, 0 => 0
  | s1, s2, n + 1 =>
    let c1 := tolower (s1.headD (Char.ofNat 0))
    let c2 := tolower (s2.headD (Char.ofNat 0))
    if c1 = c2 ∧ c1 ≠ Char.ofNat 0 ∧ 0 < n then strncmplax s1.tail s2.tail n
    else (c1.toNat : Int) - (c2.toNat : Int)

/-- The body of the loop at `fractional_part` (encodachrom.c, lines 232-239)
for one character. -/
def encodeChar (c : Char) : List Char :=
  if isdigit c then ['0', c]
  else if isupper c then printf_03d (100 + 2 * (c.toNat - 65))
  else if islower c then printf_03d (101 + 2 * (c.toNat - 97))
  else printf_03d (200 + c.toNat)

/-- From the label `fractional_part` to the end of the loop body of
`ProcessFile` (encodachrom.c, lines 228-245): the point, the codes of the
characters up to the next whitespace, the remainder of the line. -/
def fractional_part (s : List Char) : List Char :=
  '.' :: ((darkField s).map encodeChar).flatten ++ skip_darkspace s

/-- Lines 226-245 of encodachrom.c: the post-decimal part if the chromosome
name has extra stuff, then the remainder of the line. -/
def remainderPart (s : List Char) : List Char :=
  match s with
  | [] => []
  | c :: _ => if isspace c then s else fractional_part s

/-- The `switch` of encodachrom.c, lines 201-209. -/
def chrNumberOfLetter (chrCh : Char) : Nat :=
  if chrCh = 'X' then 101
  else if chrCh = 'Y' then 102
  else if chrCh = 'W' then 103
  else if chrCh = 'Z' then 104
  else if chrCh = 'M' then 105
  else 106 + (chrCh.toNat - 65)

/-- The text `ProcessFile` of encodachrom.c prints for the line in `buffer`
(lines 177-245), without the final newline. -/
def encodachrom_line (buffer : List Char) : List Char :=
  let s := skip_whitespace buffer
  if s.head? = some '#' then '0' :: fractional_part s.tail
  else if strncmplax s "chr".data 3 ≠ 0 then "300".data ++ fractional_part s
  else
    match s.drop 3 with
    | [] => "200".data ++ fractional_part []
    | c :: t =>
      if !isdigit c && !isalpha c then "200".data ++ fractional_part (c :: t)
      else if isalpha c then printf_u (chrNumberOfLetter (toupper c)) ++ remainderPart t
      else
        match t with
        | [] => printf_u (digitOf c + 1) ++ remainderPart []
        | d :: u =>
          if isdigit d then printf_u (10 * digitOf c + digitOf d + 1) ++ remainderPart u
          else printf_u (digitOf c + 1) ++ remainderPart (d :: u)

/-- The lines `get_line` delivers, each without its newline; `cur` holds the
characters of the line being read. -/
def linesAux : List Char → List Char → List (List Char)
  | cur, [] => if cur = [] then [] else [cur]
  | cur, c :: f => if c = '\n' then cur :: linesAux [] f else linesAux (cur ++ [c]) f

/-- The output of encodachrom for one input file. -/
def encodachrom (input : List Char) : List Char :=
  ((linesAux [] input).map (fun l => encodachrom_line (cstr l) ++ ['\n'])).flatten

/-- The function `declet` of decodachrom.c. -/
def declet (number : Nat) : Char :=
  if number % 2 = 0 then Char.ofNat (65 + (number - 100) / 2)
  else Char.ofNat (97 + (number - 101) / 2)

/-- The loop `while (isdigit(*s)) chrNumber = 10*chrNumber + *(s++)-'0'` of
decodachrom.c (the overflow of `int` is not modelled). -/
def parseNumber : Nat → List Char → Nat × List Char
  | acc, [] => (acc, [])
  | acc, c :: s => if isdigit c then parseNumber (10 * acc + digitOf c) s else (acc, c :: s)

/-- The text decodachrom prints for the chromosome number (lines 166-177);
`none` is `goto failure`. -/
def chromPrefix (chrNumber : Nat) : Option (List Char) :=
  if chrNumber = 0 then some "#".data
  else if chrNumber ≤ 100 then some ("chr".data ++ printf_u (chrNumber - 1))
  else if chrNumber = 101 then some "chrX".data
  else if chrNumber = 102 then some "chrY".data
  else if chrNumber = 103 then some "chrW".data
  else if chrNumber = 104 then some "chrZ".data
  else if chrNumber = 105 then some "chrM".data
  else if chrNumber ≤ 127 then some ("chr".data ++ [Char.ofNat (65 + chrNumber - 106)])
  else if chrNumber = 200 then some "chr".data
  else if chrNumber = 300 then some []
  else none

/-- The loop that decodes the post-decimal part (decodachrom.c, lines
188-201): the characters printed and the place where the loop stops; `none`
is `goto failure`. -/
def decodeFraction : List Char → Option (List Char × List Char)
  | [] => some ([], [])
  | d1 :: s1 =>
    if !isdigit d1 then some ([], d1 :: s1)
    else
      match s1 with
      | [] => none
      | d2 :: s2 =>
        if !isdigit d2 then none
        else if 10 * digitOf d1 + digitOf d2 < 10 then
          (decodeFraction s2).map
            (fun p => (printf_u (10 * digitOf d1 + digitOf d2) ++ p.1, p.2))
        else
          match s2 with
          | [] => none
          | d3 :: s3 =>
            if !isdigit d3 then none
            else if 10 * (10 * digitOf d1 + digitOf d2) + digitOf d3 < 100 then none
            else if 10 * (10 * digitOf d1 + digitOf d2) + digitOf d3 < 152 then
              (decodeFraction s3).map
                (fun p => ((declet (10 * (10 * digitOf d1 + digitOf d2) + digitOf d3)) :: p.1, p.2))
            else if 10 * (10 * digitOf d1 + digitOf d2) + digitOf d3 < 200 then none
            else if 10 * (10 * digitOf d1 + digitOf d2) + digitOf d3 < 456 then
              (decodeFraction s3).map
                (fun p => (Char.ofNat (10 * (10 * digitOf d1 + digitOf d2) + digitOf d3 - 200)
                  :: p.1, p.2))
            else none

/-- What `ProcessFile` of decodachrom.c does with one line. -/
inductive DecodeResult where
  | discarded
  | printed (out : List Char)
  | failure
  deriving DecidableEq, Repr

/-- The loop body of `ProcessFile` of decodachrom.c for the line in `buffer`
(lines 144-209); the text printed is given without the final newline, and
what was printed before a `goto failure` is not kept. -/
def decodachrom_line (buffer : List Char) : DecodeResult :=
  match buffer with
  | [] => .discarded
  | c :: t =>
    if c = '#' then .printed t
    else
      match parseNumber 0 (c :: t) with
      | (chrNumber, s) =>
        if s ≠ [] ∧ isspace (s.headD ' ') = false ∧ s.head? ≠ some '.' then .failure
        else
          match chromPrefix chrNumber with
          | none => .failure
          | some pre =>
            if s.head? = some '.' then
              match decodeFraction s.tail with
              | none => .failure
              | some (dec, s2) =>
                if s2 ≠ [] ∧ isspace (s2.headD ' ') = false then .failure
                else .printed (pre ++ dec ++ s2)
            else .printed (pre ++ s)

/-- The digits at the start of a text. -/
def intPart (out : List Char) : List Char :=
  out.takeWhile isdigit

/-- The code of a chromosome letter in the table of the header comment of
encodachrom.c. -/
def letterCode (letter : Char) : Nat :=
  if letter = 'X' then 101
  else if letter = 'Y' then 102
  else if letter = 'W' then 103
  else if letter = 'Z' then 104
  else if letter = 'M' then 105
  else 106 + (letter.toNat - 'A'.toNat)

/-- The table of the header comment of encodachrom.c, read for the text of a
line after its leading whitespace: 0 for a comment, the number of the
chromosome plus one or the code of its letter after `chr` (in any case of
the letters), 200 when no letter or digit follows `chr`, 300 when the text
does not start with `chr`. -/
def codeTable (s : List Char) : Nat :=
  if s.head? = some '#' then 0
  else
    match s with
    | c1 :: c2 :: c3 :: rest =>
      if tolower c1 = 'c' ∧ tolower c2 = 'h' ∧ tolower c3 = 'r' then
        match rest with
        | [] => 200
        | x :: y =>
          if isdigit x then
            (if isdigit (y.headD ' ') then 10 * digitOf x + digitOf (y.headD ' ') + 1
             else digitOf x + 1)
          else if isalpha x then letterCode (toupper x)
          else 200
      else 300
    | _ => 300

/-- A text that is empty or starts with a character that is no digit. -/
def NoDigitAhead (rest : List Char) : Prop :=
  ∀ c, rest.head? = some c → isdigit c = false

/-- A text that is empty or starts with a whitespace character. -/
def SpaceAhead (rest : List Char) : Prop :=
  ∀ c, rest.head? = some c → isspace c = true

/-! ## The report loop: invariant -/

theorem encodeLoop_succ (D : DoubleOps V) (cv : List Nat) (sv : List V) (n : Nat) :
    encodeLoop D cv sv (n + 1) = encodeStep D cv sv (encodeLoop D cv sv n) n := by
  simp [encodeLoop, List.range_succ, List.foldl_append]

theorem encInv_init (D : DoubleOps V) (cv : List Nat) (sv : List V) :
    EncInv D cv sv 0 (encodeInit D) := by
  constructor <;> simp [encodeInit]

/-- Appending the current run to the printed runs keeps them ordered. -/
theorem ord_snoc (D : DoubleOps V) (out : List (Run V)) (s e : Nat) (v : V)
    (hord : out.Pairwise (RunOrder D))
    (hb : ∀ r ∈ out, r.endPos ≤ s)
    (ht : ∀ r ∈ out, r.endPos = s → D.ne v r.val = true) :
    (out ++ [(⟨s, e, v⟩ : Run V)]).Pairwise (RunOrder D) := by
  rw [List.pairwise_append]
  refine ⟨hord, List.pairwise_singleton _ _, ?_⟩
  intro a ha b hb'
  rw [List.mem_singleton] at hb'
  subst hb'
  exact ⟨hb a ha, ht a ha⟩

/-- Covered positions after one more run has been printed. -/
theorem cover_snoc (cv : List Nat) (out : List (Run V)) (s k : Nat) (v : V) (j : Nat)
    (hj : j < k)
    (hc : cv.getD j 0 ≠ 0 ↔ ((∃ r ∈ out, r.start ≤ j ∧ j < r.endPos) ∨ s ≤ j)) :
    cv.getD j 0 ≠ 0 ↔ ∃ r ∈ out ++ [(⟨s, k, v⟩ : Run V)], r.start ≤ j ∧ j < r.endPos := by
  rw [hc]
  constructor
  · rintro (⟨r, hr, h1, h2⟩ | h1)
    · exact ⟨r, List.mem_append_left _ hr, h1, h2⟩
    · exact ⟨⟨s, k, v⟩, List.mem_append_right _ (List.mem_singleton.mpr rfl), h1, hj⟩
  · rintro ⟨r, hr, h1, h2⟩
    rcases List.mem_append.mp hr with hr | hr
    · exact Or.inl ⟨r, hr, h1, h2⟩
    · rw [List.mem_singleton] at hr
      subst hr
      exact Or.inr h1

theorem encInv_step_zero_inactive (D : DoubleOps V) (cv : List Nat) (sv : List V) (k : Nat)
    (st : EncState V) (h : EncInv D cv sv k st) (hz : cv.getD k 0 = 0)
    (ha : st.active = false) :
    EncInv D cv sv (k + 1) ⟨false, 0, D.zero, st.out⟩ where
  wf := fun r hr => ⟨(h.wf r hr).1, Nat.le_succ_of_le (h.wf r hr).2⟩
  act := fun hf => by simp at hf
  before := fun hf => by simp at hf
  gap := fun _ r hr => Nat.lt_succ_of_lt (h.gap ha r hr)
  ord := h.ord
  touch := fun hf => by simp at hf
  cover := by
    intro j hj
    rcases Nat.lt_succ_iff_lt_or_eq.mp hj with hj | hj
    · have := h.cover j hj
      simpa [ha] using this
    · subst hj
      simp only [hz, ne_eq, not_true_eq_false, Bool.false_eq_true, false_and, or_false,
        false_iff, not_exists, not_and, not_lt]
      intro r hr _
      exact Nat.le_of_lt (h.gap ha r hr)
  runVal := h.runVal
  curVal := fun hf => by simp at hf

theorem encInv_step_zero_active (D : DoubleOps V) (cv : List Nat) (sv : List V) (k : Nat)
    (st : EncState V) (h : EncInv D cv sv k st) (hz : cv.getD k 0 = 0)
    (ha : st.active = true) :
    EncInv D cv sv (k + 1) ⟨false, 0, D.zero, st.out ++ [⟨st.start, k, st.val⟩]⟩ where
  wf := by
    intro r hr
    rcases List.mem_append.mp hr with hr | hr
    · exact ⟨(h.wf r hr).1, Nat.le_succ_of_le (h.wf r hr).2⟩
    · rw [List.mem_singleton] at hr
      subst hr
      exact ⟨h.act ha, Nat.le_succ k⟩
  act := fun hf => by simp at hf
  before := fun hf => by simp at hf
  gap := by
    intro _ r hr
    rcases List.mem_append.mp hr with hr | hr
    · have := h.before ha r hr
      have := h.act ha
      omega
    · rw [List.mem_singleton] at hr
      subst hr
      exact Nat.lt_succ_self k
  ord := ord_snoc D st.out st.start k st.val h.ord (h.before ha) (h.touch ha)
  touch := fun hf => by simp at hf
  cover := by
    intro j hj
    rcases Nat.lt_succ_iff_lt_or_eq.mp hj with hj | hj
    · have hc := h.cover j hj
      simp only [ha, true_and] at hc
      have := cover_snoc cv st.out st.start k st.val j hj hc
      simpa using this
    · subst hj
      simp only [hz, ne_eq, not_true_eq_false, Bool.false_eq_true, false_and, or_false,
        false_iff, not_exists, not_and, not_lt]
      intro r hr _
      rcases List.mem_append.mp hr with hr | hr
      · have := h.before ha r hr
        have := h.act ha
        omega
      · rw [List.mem_singleton] at hr
        subst hr
        exact Nat.le_refl _
  runVal := by
    intro r hr
    rcases List.mem_append.mp hr with hr | hr
    · exact h.runVal r hr
    · rw [List.mem_singleton] at hr
      subst hr
      exact ⟨(h.curVal ha).1, fun j h1 h2 => (h.curVal ha).2 j h1 h2⟩
  curVal := fun hf => by simp at hf

theorem encInv_step_open (D : DoubleOps V) (cv : List Nat) (sv : List V) (k : Nat)
    (st : EncState V) (h : EncInv D cv sv k st) (hz : cv.getD k 0 ≠ 0)
    (ha : st.active = false) :
    EncInv D cv sv (k + 1) ⟨true, k, avgAt D cv sv k, st.out⟩ where
  wf := fun r hr => ⟨(h.wf r hr).1, Nat.le_succ_of_le (h.wf r hr).2⟩
  act := fun _ => Nat.lt_succ_self k
  before := fun _ r hr => Nat.le_of_lt (h.gap ha r hr)
  gap := fun hf => by simp at hf
  ord := h.ord
  touch := by
    intro _ r hr he
    have := h.gap ha r hr
    simp only at he
    omega
  cover := by
    intro j hj
    rcases Nat.lt_succ_iff_lt_or_eq.mp hj with hj | hj
    · have hc := h.cover j hj
      simp only [ha, Bool.false_eq_true, false_and, or_false] at hc
      rw [hc]
      constructor
      · intro h1; exact Or.inl h1
      · rintro (h1 | ⟨_, h1⟩)
        · exact h1
        · simp only at h1; omega
    · subst hj
      exact ⟨fun _ => Or.inr ⟨rfl, Nat.le_refl _⟩, fun _ => hz⟩
  runVal := h.runVal
  curVal := fun _ => ⟨rfl, fun j h1 h2 => by simp only at h1; omega⟩

theorem encInv_step_switch (D : DoubleOps V) (cv : List Nat) (sv : List V) (k : Nat)
    (st : EncState V) (h : EncInv D cv sv k st) (hz : cv.getD k 0 ≠ 0)
    (ha : st.active = true) (hd : D.ne (avgAt D cv sv k) st.val = true) :
    EncInv D cv sv (k + 1)
      ⟨true, k, avgAt D cv sv k, st.out ++ [⟨st.start, k, st.val⟩]⟩ where
  wf := by
    intro r hr
    rcases List.mem_append.mp hr with hr | hr
    · exact ⟨(h.wf r hr).1, Nat.le_succ_of_le (h.wf r hr).2⟩
    · rw [List.mem_singleton] at hr
      subst hr
      exact ⟨h.act ha, Nat.le_succ k⟩
  act := fun _ => Nat.lt_succ_self k
  before := by
    intro _ r hr
    rcases List.mem_append.mp hr with hr | hr
    · have := h.before ha r hr
      have := h.act ha
      simp only
      omega
    · rw [List.mem_singleton] at hr
      subst hr
      exact Nat.le_refl _
  gap := fun hf => by simp at hf
  ord := ord_snoc D st.out st.start k st.val h.ord (h.before ha) (h.touch ha)
  touch := by
    intro _ r hr he
    rcases List.mem_append.mp hr with hr | hr
    · have := h.before ha r hr
      have := h.act ha
      simp only at he
      omega
    · rw [List.mem_singleton] at hr
      subst hr
      exact hd
  cover := by
    intro j hj
    rcases Nat.lt_succ_iff_lt_or_eq.mp hj with hj | hj
    · have hc := h.cover j hj
      simp only [ha, true_and] at hc
      rw [cover_snoc cv st.out st.start k st.val j hj hc]
      constructor
      · intro h1; exact Or.inl h1
      · rintro (h1 | ⟨_, h1⟩)
        · exact h1
        · simp only at h1; omega
    · subst hj
      exact ⟨fun _ => Or.inr ⟨rfl, Nat.le_refl _⟩, fun _ => hz⟩
  runVal := by
    intro r hr
    rcases List.mem_append.mp hr with hr | hr
    · exact h.runVal r hr
    · rw [List.mem_singleton] at hr
      subst hr
      exact ⟨(h.curVal ha).1, fun j h1 h2 => (h.curVal ha).2 j h1 h2⟩
  curVal := fun _ => ⟨rfl, fun j h1 h2 => by simp only at h1; omega⟩

theorem encInv_step_extend (D : DoubleOps V) (cv : List Nat) (sv : List V) (k : Nat)
    (st : EncState V) (h : EncInv D cv sv k st) (hz : cv.getD k 0 ≠ 0)
    (ha : st.active = true) (hd : D.ne (avgAt D cv sv k) st.val = false) :
    EncInv D cv sv (k + 1) st where
  wf := fun r hr => ⟨(h.wf r hr).1, Nat.le_succ_of_le (h.wf r hr).2⟩
  act := fun _ => Nat.lt_succ_of_lt (h.act ha)
  before := h.before
  gap := fun hf => by simp [ha] at hf
  ord := h.ord
  touch := h.touch
  cover := by
    intro j hj
    rcases Nat.lt_succ_iff_lt_or_eq.mp hj with hj | hj
    · exact h.cover j hj
    · subst hj
      simp only [ne_eq, hz, not_false_eq_true, true_iff]
      exact Or.inr ⟨ha, Nat.le_of_lt (h.act ha)⟩
  runVal := h.runVal
  curVal := by
    intro _
    refine ⟨(h.curVal ha).1, fun j h1 h2 => ?_⟩
    rcases Nat.lt_succ_iff_lt_or_eq.mp h2 with h2 | h2
    · exact (h.curVal ha).2 j h1 h2
    · subst h2; exact hd

theorem encInv_step (D : DoubleOps V) (cv : List Nat) (sv : List V) (k : Nat)
    (st : EncState V) (h : EncInv D cv sv k st) :
    EncInv D cv sv (k + 1) (encodeStep D cv sv st k) := by
  unfold encodeStep
  by_cases hz : cv.getD k 0 = 0
  · by_cases ha : st.active = true
    · have hne : k ≠ st.start := Nat.ne_of_gt (h.act ha)
      simp only [hz, ha, hne, if_true, ne_eq, not_false_eq_true, and_self]
      exact encInv_step_zero_active D cv sv k st h hz ha
    · have ha' : st.active = false := by simpa using ha
      simp only [hz, ha', if_true, Bool.false_eq_true, false_and, if_false]
      exact encInv_step_zero_inactive D cv sv k st h hz ha'
  · by_cases ha : st.active = true
    · have hne : k ≠ st.start := Nat.ne_of_gt (h.act ha)
      by_cases hd : D.ne (avgAt D cv sv k) st.val = true
      · have hd' := hd
        unfold avgAt at hd'
        simp only [hz, ha, hne, hd', if_true, if_false, ne_eq, not_false_eq_true,
          Bool.true_eq_false]
        exact encInv_step_switch D cv sv k st h hz ha hd
      · have hd' := hd
        unfold avgAt at hd'
        simp only [hz, ha, hd', if_false, Bool.true_eq_false]
        exact encInv_step_extend D cv sv k st h hz ha (by simpa using hd)
    · have ha' : st.active = false := by simpa using ha
      simp only [hz, ha', if_true, if_false]
      exact encInv_step_open D cv sv k st h hz ha'

theorem encInv_loop (D : DoubleOps V) (cv : List Nat) (sv : List V) (n : Nat) :
    EncInv D cv sv n (encodeLoop D cv sv n) := by
  induction n with
  | zero => exact encInv_init D cv sv
  | succ n ih => rw [encodeLoop_succ]; exact encInv_step D cv sv n _ ih

theorem encodeFinish_spec (D : DoubleOps V) (cv : List Nat) (sv : List V) (n : Nat)
    (st : EncState V) (h : EncInv D cv sv n st) :
    EncodeSpec D cv sv n (encodeFinish n st) := by
  unfold encodeFinish
  by_cases ha : st.active = true
  · have hne : n ≠ st.start := Nat.ne_of_gt (h.act ha)
    simp only [ha, hne, ne_eq, not_false_eq_true, and_self, if_true]
    refine ⟨?_, ord_snoc D st.out st.start n st.val h.ord (h.before ha) (h.touch ha), ?_, ?_⟩
    · intro r hr
      rcases List.mem_append.mp hr with hr | hr
      · exact h.wf r hr
      · rw [List.mem_singleton] at hr
        subst hr
        exact ⟨h.act ha, Nat.le_refl _⟩
    · intro j hj
      have hc := h.cover j hj
      simp only [ha, true_and] at hc
      exact cover_snoc cv st.out st.start n st.val j hj hc
    · intro r hr
      rcases List.mem_append.mp hr with hr | hr
      · exact h.runVal r hr
      · rw [List.mem_singleton] at hr
        subst hr
        exact ⟨(h.curVal ha).1, fun j h1 h2 => (h.curVal ha).2 j h1 h2⟩
  · have ha' : st.active = false := by simpa using ha
    simp only [ha', Bool.false_eq_true, false_and, if_false]
    refine ⟨h.wf, h.ord, ?_, h.runVal⟩
    intro j hj
    have hc := h.cover j hj
    simpa [ha'] using hc

/-- The runs printed for a chromosome satisfy `EncodeSpec`. -/
theorem encode_spec (D : DoubleOps V) (cs : spec V) :
    EncodeSpec D cs.countVector cs.sumVector cs.length (encode D cs) :=
  encodeFinish_spec D _ _ _ _ (encInv_loop D _ _ _)

/-- Two members of a pairwise-related list are equal or related one way or
the other. -/
theorem pairwise_mem_cases {α : Type} {R : α → α → Prop} {l : List α}
    (h : l.Pairwise R) {a b : α} (ha : a ∈ l) (hb : b ∈ l) :
    a = b ∨ R a b ∨ R b a := by
  induction l with
  | nil => simp at ha
  | cons x xs ih =>
    rw [List.pairwise_cons] at h
    rcases List.mem_cons.mp ha with ha1 | ha1
    · rcases List.mem_cons.mp hb with hb1 | hb1
      · exact Or.inl (ha1.trans hb1.symm)
      · exact Or.inr (Or.inl (ha1 ▸ h.1 b hb1))
    · rcases List.mem_cons.mp hb with hb1 | hb1
      · exact Or.inr (Or.inr (hb1 ▸ h.1 a ha1))
      · exact ih h.2 ha1 hb1

/-- Every position of a printed run is covered and carries an average that
is the run average or compares equal to it. -/
theorem EncodeSpec.val_at {D : DoubleOps V} {cv : List Nat} {sv : List V} {n : Nat}
    {res : List (Run V)} (h : EncodeSpec D cv sv n res) {r : Run V} (hr : r ∈ res)
    {i : Nat} (h1 : r.start ≤ i) (h2 : i < r.endPos) :
    r.val = avgAt D cv sv i ∨ D.ne (avgAt D cv sv i) r.val = false := by
  rcases Nat.eq_or_lt_of_le h1 with h1 | h1
  · left; rw [← h1]; exact (h.runVal r hr).1
  · right; exact (h.runVal r hr).2 i h1 h2

/-! ## The report loop: maximal runs -/

/-- A position lies in at most one printed run. -/
theorem EncodeSpec.run_unique {D : DoubleOps V} {cv : List Nat} {sv : List V} {n : Nat}
    {res : List (Run V)} (h : EncodeSpec D cv sv n res) {r q : Run V}
    (hr : r ∈ res) (hq : q ∈ res) {j : Nat}
    (h1 : r.start ≤ j) (h2 : j < r.endPos) (h3 : q.start ≤ j) (h4 : j < q.endPos) :
    r = q := by
  rcases pairwise_mem_cases h.ord hr hq with he | ho | ho
  · exact he
  · have := ho.1; omega
  · have := ho.1; omega

/-- Two adjacent covered positions whose averages compare equal lie in one
printed run, when the comparison is transitive. -/
theorem EncodeSpec.adjacent {D : DoubleOps V} {cv : List Nat} {sv : List V} {n : Nat}
    {res : List (Run V)} (hs : EncodeSpec D cv sv n res)
    (htr : ∀ a b c, D.ne a b = false → D.ne b c = false → D.ne a c = false)
    (i : Nat) (hi : i + 1 < n) (hci : cv.getD i 0 ≠ 0) (hcj : cv.getD (i + 1) 0 ≠ 0)
    (heq : D.ne (avgAt D cv sv (i + 1)) (avgAt D cv sv i) = false) :
    ∃ r ∈ res, r.start ≤ i ∧ i + 1 < r.endPos := by
  obtain ⟨r, hr, h1, h2⟩ := (hs.cover i (by omega)).mp hci
  refine ⟨r, hr, h1, ?_⟩
  by_contra hlt
  have he : r.endPos = i + 1 := by omega
  obtain ⟨q, hq, h3, h4⟩ := (hs.cover (i + 1) hi).mp hcj
  have hqr : D.ne q.val r.val = true ∧ q.start = i + 1 := by
    rcases pairwise_mem_cases hs.ord hr hq with h | h | h
    · subst h; omega
    · have h5 := h.1
      have h6 : r.endPos = q.start := by omega
      exact ⟨h.2 h6, by omega⟩
    · have h5 := h.1
      have := (hs.wf q hq).1
      omega
  have hqv : q.val = avgAt D cv sv (i + 1) := by
    rw [← hqr.2]; exact (hs.runVal q hq).1
  have hne := hqr.1
  rw [hqv] at hne
  have hfalse : D.ne (avgAt D cv sv (i + 1)) r.val = false := by
    rcases hs.val_at hr h1 (by omega : i < r.endPos) with h | h
    · rw [h]; exact heq
    · exact htr _ _ _ heq h
  rw [hfalse] at hne
  exact Bool.false_ne_true hne

/-- A stretch of covered positions on which neighbouring averages compare
equal lies inside one printed run. -/
theorem EncodeSpec.stretch {D : DoubleOps V} {cv : List Nat} {sv : List V} {n : Nat}
    {res : List (Run V)} (hs : EncodeSpec D cv sv n res)
    (htr : ∀ a b c, D.ne a b = false → D.ne b c = false → D.ne a c = false)
    (a : Nat) : ∀ (b : Nat), a < b → b ≤ n →
      (∀ j, a ≤ j → j < b → cv.getD j 0 ≠ 0) →
      (∀ j, a ≤ j → j + 1 < b →
        D.ne (avgAt D cv sv (j + 1)) (avgAt D cv sv j) = false) →
      ∃ r ∈ res, r.start ≤ a ∧ b ≤ r.endPos := by
  intro b
  induction b with
  | zero => intro hab; omega
  | succ b ih =>
    intro hab hbn hcov hadj
    rcases Nat.eq_or_lt_of_le (Nat.lt_succ_iff.mp hab) with heq | hlt
    · subst heq
      obtain ⟨r, hr, h1, h2⟩ := (hs.cover a (by omega)).mp (hcov a (Nat.le_refl _) (by omega))
      exact ⟨r, hr, h1, by omega⟩
    · obtain ⟨r, hr, h1, h2⟩ := ih hlt (by omega)
        (fun j hj1 hj2 => hcov j hj1 (by omega))
        (fun j hj1 hj2 => hadj j hj1 (by omega))
      have hb1 : b - 1 + 1 = b := by omega
      obtain ⟨q, hq, h3, h4⟩ := hs.adjacent htr (b - 1) (by omega)
        (hcov (b - 1) (by omega) (by omega))
        (by rw [hb1]; exact hcov b (by omega) (by omega))
        (by rw [hb1]; have := hadj (b - 1) (by omega) (by omega); rwa [hb1] at this)
      have hrq : r = q := hs.run_unique hr hq (j := b - 1) (by omega) (by omega) h3 (by omega)
      subst hrq
      exact ⟨r, hr, h1, by omega⟩

/-- No family of stretches with the same union has fewer members than the
printed runs: `F` lists half-open stretches of covered positions, on each of
which neighbouring averages compare equal, and every covered position lies in
one of them. -/
theorem EncodeSpec.minimal {D : DoubleOps V} {cv : List Nat} {sv : List V} {n : Nat}
    {res : List (Run V)} (hs : EncodeSpec D cv sv n res)
    (htr : ∀ a b c, D.ne a b = false → D.ne b c = false → D.ne a c = false)
    (F : List (Nat × Nat))
    (hF1 : ∀ p ∈ F, ∀ j, p.1 ≤ j → j < p.2 → j < n ∧ cv.getD j 0 ≠ 0)
    (hF2 : ∀ p ∈ F, ∀ j, p.1 ≤ j → j + 1 < p.2 →
      D.ne (avgAt D cv sv (j + 1)) (avgAt D cv sv j) = false)
    (hF3 : ∀ j, j < n → cv.getD j 0 ≠ 0 → ∃ p ∈ F, p.1 ≤ j ∧ j < p.2) :
    res.length ≤ F.length := by
  classical
  -- every run start lies in a member of `F` that begins exactly there
  have hpick : ∀ r ∈ res, ∃ p ∈ F, p.1 = r.start := by
    intro r hr
    have hw := hs.wf r hr
    have hc : cv.getD r.start 0 ≠ 0 :=
      (hs.cover r.start (by omega)).mpr ⟨r, hr, Nat.le_refl _, hw.1⟩
    obtain ⟨p, hp, h1, h2⟩ := hF3 r.start (by omega) hc
    refine ⟨p, hp, ?_⟩
    have hpb : p.2 ≤ n := by
      by_contra hgt
      have := (hF1 p hp n (by omega) (by omega)).1
      omega
    obtain ⟨q, hq, h3, h4⟩ := hs.stretch htr p.1 p.2 (by omega) hpb
      (fun j hj1 hj2 => (hF1 p hp j hj1 hj2).2) (hF2 p hp)
    have hrq : r = q := hs.run_unique hr hq (j := r.start) (Nat.le_refl _) hw.1
      (by omega) (by omega)
    subst hrq
    omega
  have hsub : res.map (fun r => r.start) ⊆ F.map (fun p => p.1) := by
    intro s hs'
    obtain ⟨r, hr, rfl⟩ := List.mem_map.mp hs'
    obtain ⟨p, hp, h1⟩ := hpick r hr
    exact List.mem_map.mpr ⟨p, hp, h1⟩
  have hnd : (res.map (fun r => r.start)).Nodup := by
    rw [List.Nodup, List.pairwise_map]
    refine (List.Pairwise.and_mem.mp hs.ord).imp ?_
    intro a b h
    have := (hs.wf a h.1).1
    have := h.2.2.1
    omega
  have hle := (hnd.subperm hsub).length_le
  simpa using hle

/-- Nothing is printed for an all-zero count buffer. -/
theorem run_encoder_empty_aux (D : DoubleOps V) (cs : spec V)
    (h : ∀ i, i < cs.length → cs.countVector.getD i 0 = 0) : encode D cs = [] := by
  have hs := encode_spec D cs
  rw [List.eq_nil_iff_forall_not_mem]
  intro r hr
  have hw := hs.wf r hr
  have hc := (hs.cover r.start (by omega)).mpr ⟨r, hr, Nat.le_refl _, hw.1⟩
  exact hc (h r.start (by omega))

/-! ## The report loop: coverage, order, maximality -/

/-- C2 (run encoder coverage).  For every chromosome buffer pair and every
position `i < length`: `i` lies inside a printed run exactly when
`count[i] > 0`; the average of a run containing `i` is `sum[i] / count[i]`
itself or a value the program compares equal to it; and when the comparison
`!=` is false only for identical values the run average is
`sum[i] / count[i]`. -/
theorem run_encoder_coverage (D : DoubleOps V) (cs : spec V) (i : Nat)
    (hi : i < cs.length) :
    ((∃ r ∈ encode D cs, r.start ≤ i ∧ i < r.endPos) ↔ 0 < cs.countVector.getD i 0) ∧
    (∀ r ∈ encode D cs, r.start ≤ i → i < r.endPos →
      (r.val = D.divCount (cs.sumVector.getD i D.zero) (cs.countVector.getD i 0) ∨
       D.ne (D.divCount (cs.sumVector.getD i D.zero) (cs.countVector.getD i 0)) r.val
         = false)) ∧
    ((∀ a b, D.ne a b = false → a = b) →
      ∀ r ∈ encode D cs, r.start ≤ i → i < r.endPos →
        r.val = D.divCount (cs.sumVector.getD i D.zero) (cs.countVector.getD i 0)) := by
  have hs := encode_spec D cs
  refine ⟨?_, ?_, ?_⟩
  · rw [← hs.cover i hi, Nat.pos_iff_ne_zero]
  · intro r hr h1 h2
    exact hs.val_at hr h1 h2
  · intro hex r hr h1 h2
    rcases hs.val_at hr h1 h2 with h | h
    · exact h
    · exact (hex _ _ h).symm

/-- C2, at a concrete buffer pair: counts `[1,2,0]`, sums `[5,8,0]`.
Position 1 lies in a printed run and every run containing it has average
`8 / 2`; position 2 lies in none. -/
theorem run_encoder_coverage_witness :
    (∃ r ∈ encode ratOps ⟨"chr1", 0, 3, [1, 2, 0], [5, 8, 0], 0⟩, r.start ≤ 1 ∧ 1 < r.endPos) ∧
    (∀ r ∈ encode ratOps ⟨"chr1", 0, 3, [1, 2, 0], [5, 8, 0], 0⟩, r.start ≤ 1 → 1 < r.endPos →
      r.val = ratOps.divCount 8 2) ∧
    ¬ (∃ r ∈ encode ratOps ⟨"chr1", 0, 3, [1, 2, 0], [5, 8, 0], 0⟩,
        r.start ≤ 2 ∧ 2 < r.endPos) :=
  ⟨(run_encoder_coverage ratOps ⟨"chr1", 0, 3, [1, 2, 0], [5, 8, 0], 0⟩ 1 (by decide)).1.mpr
     (by decide),
   (run_encoder_coverage ratOps ⟨"chr1", 0, 3, [1, 2, 0], [5, 8, 0], 0⟩ 1 (by decide)).2.2
     (by intro a b h; simpa [ratOps] using h),
   fun h => absurd
     ((run_encoder_coverage ratOps ⟨"chr1", 0, 3, [1, 2, 0], [5, 8, 0], 0⟩ 2 (by decide)).1.mp h)
     (by decide)⟩

/-- C3 (ordered, non-overlapping output).  Every printed run has
`start < end <= length` in window-local positions, each run ends at or
before the start of the next one, and the starts are strictly increasing. -/
theorem run_encoder_ordered (D : DoubleOps V) (cs : spec V) :
    (∀ r ∈ encode D cs, r.start < r.endPos ∧ r.endPos ≤ cs.length) ∧
    (encode D cs).Chain' (fun a b => a.endPos ≤ b.start) ∧
    (encode D cs).Pairwise (fun a b => a.endPos ≤ b.start) ∧
    (encode D cs).Pairwise (fun a b => a.start < b.start) := by
  have hs := encode_spec D cs
  have hp : (encode D cs).Pairwise (fun a b => a.endPos ≤ b.start) :=
    hs.ord.imp (fun h => h.1)
  refine ⟨hs.wf, List.Pairwise.chain' hp, hp, ?_⟩
  refine (List.Pairwise.and_mem.mp hs.ord).imp ?_
  intro a b h
  exact Nat.lt_of_lt_of_le (hs.wf a h.1).1 h.2.2.1

/-- C4 (maximal runs).  (1) Two consecutive printed runs that touch have
averages the program compared as different.  When the comparison is
transitive: (2) two adjacent covered positions whose averages compare equal
lie in one printed run; (3) more generally every stretch of covered positions
on which neighbouring averages compare equal lies inside one printed run;
(4) no family of such stretches covering all covered positions has fewer
members than there are printed runs. -/
theorem run_encoder_maximal (D : DoubleOps V) (cs : spec V) :
    (encode D cs).Chain' (fun a b => a.endPos = b.start → D.ne b.val a.val = true) ∧
    ((∀ a b c, D.ne a b = false → D.ne b c = false → D.ne a c = false) →
      (∀ i, i + 1 < cs.length →
        cs.countVector.getD i 0 ≠ 0 → cs.countVector.getD (i + 1) 0 ≠ 0 →
        D.ne (D.divCount (cs.sumVector.getD (i + 1) D.zero) (cs.countVector.getD (i + 1) 0))
             (D.divCount (cs.sumVector.getD i D.zero) (cs.countVector.getD i 0)) = false →
        ∃ r ∈ encode D cs, r.start ≤ i ∧ i + 1 < r.endPos) ∧
      (∀ a b, a < b → b ≤ cs.length →
        (∀ j, a ≤ j → j < b → cs.countVector.getD j 0 ≠ 0) →
        (∀ j, a ≤ j → j + 1 < b →
          D.ne (D.divCount (cs.sumVector.getD (j + 1) D.zero)
                  (cs.countVector.getD (j + 1) 0))
               (D.divCount (cs.sumVector.getD j D.zero) (cs.countVector.getD j 0))
            = false) →
        ∃ r ∈ encode D cs, r.start ≤ a ∧ b ≤ r.endPos) ∧
      (∀ F : List (Nat × Nat),
        (∀ p ∈ F, ∀ j, p.1 ≤ j → j < p.2 → j < cs.length ∧ cs.countVector.getD j 0 ≠ 0) →
        (∀ p ∈ F, ∀ j, p.1 ≤ j → j + 1 < p.2 →
          D.ne (D.divCount (cs.sumVector.getD (j + 1) D.zero)
                  (cs.countVector.getD (j + 1) 0))
               (D.divCount (cs.sumVector.getD j D.zero) (cs.countVector.getD j 0))
            = false) →
        (∀ j, j < cs.length → cs.countVector.getD j 0 ≠ 0 → ∃ p ∈ F, p.1 ≤ j ∧ j < p.2) →
        (encode D cs).length ≤ F.length)) := by
  have hs := encode_spec D cs
  refine ⟨List.Pairwise.chain' (hs.ord.imp (fun h => h.2)), ?_⟩
  intro htr
  exact ⟨fun i hi hci hcj heq => hs.adjacent htr i hi hci hcj heq,
    fun a b hab hb hcov hadj => hs.stretch htr a b hab hb hcov hadj,
    fun F h1 h2 h3 => hs.minimal htr F h1 h2 h3⟩

/-- C4, at a concrete buffer pair: positions `0` and `1` both have average
`5` and are reported in one run. -/
theorem run_encoder_maximal_witness :
    ∃ r ∈ encode ratOps ⟨"chr1", 0, 3, [1, 2, 1], [5, 10, 3], 0⟩, r.start ≤ 0 ∧ 0 + 1 < r.endPos :=
  ((run_encoder_maximal ratOps ⟨"chr1", 0, 3, [1, 2, 1], [5, 10, 3], 0⟩).2
    (by
      intro a b c h1 h2
      simp only [ratOps, ne_eq, decide_not, Bool.not_eq_false', decide_eq_true_eq] at h1 h2 ⊢
      exact h1.trans h2)).1
    0 (by decide) (by decide) (by decide)
    (by simp [ratOps]; norm_num)

/-- C5 (no coverage, no output).  A chromosome whose count buffer is zero at
every tracked position gets no run and no output line, whatever its length
and window start. -/
theorem run_encoder_empty (D : DoubleOps V) (o : Nat) (cs : spec V)
    (h : ∀ i, i < cs.length → cs.countVector.getD i 0 = 0) :
    encode D cs = [] ∧ reportSpec D o cs = [] := by
  have he : encode D cs = [] := run_encoder_empty_aux D cs h
  exact ⟨he, by simp [reportSpec, he]⟩

/-- C5, at a concrete chromosome: window start 7, three tracked positions,
all counts zero. -/
theorem run_encoder_empty_witness :
    encode ratOps ⟨"chrX", 7, 3, [0, 0, 0], [0, 0, 0], 0⟩ = [] ∧
    reportSpec ratOps 1 ⟨"chrX", 7, 3, [0, 0, 0], [0, 0, 0], 0⟩ = [] :=
  run_encoder_empty ratOps 1 ⟨"chrX", 7, 3, [0, 0, 0], [0, 0, 0], 0⟩
    (by
      intro i hi
      have hi3 : i < 3 := hi
      interval_cases i <;> rfl)

/-! ## The accumulation loop -/

theorem accumulateAt_fields (D : DoubleOps V) (val : V) (cs : spec V) (ix : Nat) :
    (accumulateAt D val cs ix).chrom = cs.chrom ∧
    (accumulateAt D val cs ix).start = cs.start ∧
    (accumulateAt D val cs ix).length = cs.length ∧
    (accumulateAt D val cs ix).batchNumber = cs.batchNumber ∧
    (accumulateAt D val cs ix).countVector.length = cs.countVector.length ∧
    (accumulateAt D val cs ix).sumVector.length = cs.sumVector.length := by
  unfold accumulateAt
  split <;> simp

theorem getD_set_self {α : Type} (l : List α) (i : Nat) (a d : α) (h : i < l.length) :
    (l.set i a).getD i d = a := by
  simp [List.getD_eq_getElem?_getD, List.getElem?_set, h]

theorem getD_set_other {α : Type} (l : List α) (i j : Nat) (a d : α) (h : i ≠ j) :
    (l.set i a).getD j d = l.getD j d := by
  simp [List.getD_eq_getElem?_getD, List.getElem?_set, h]

theorem getD_set_outside {α : Type} (l : List α) (i j : Nat) (a d : α) (h : l.length ≤ i) :
    (l.set i a).getD j d = l.getD j d := by
  rw [List.set_eq_of_length_le h]

theorem accumulateAt_count (D : DoubleOps V) (val : V) (cs : spec V) (ix j : Nat) :
    (accumulateAt D val cs ix).countVector.getD j 0 =
      if j = ix ∧ ix < cs.countVector.length ∧ cs.countVector.getD ix 0 < maxCount
      then cs.countVector.getD ix 0 + 1 else cs.countVector.getD j 0 := by
  unfold accumulateAt
  by_cases hc : cs.countVector.getD ix 0 < maxCount
  · rw [if_pos hc]
    by_cases hj : j = ix
    · subst hj
      by_cases hl : j < cs.countVector.length
      · rw [if_pos ⟨rfl, hl, hc⟩]
        exact getD_set_self _ _ _ _ hl
      · rw [if_neg (fun h => hl h.2.1)]
        exact getD_set_outside _ _ _ _ _ (Nat.le_of_not_lt hl)
    · rw [if_neg (fun h => hj h.1)]
      exact getD_set_other _ _ _ _ _ (fun h => hj h.symm)
  · rw [if_neg hc, if_neg (fun h => hc h.2.2)]

theorem accumulateAt_sum (D : DoubleOps V) (val : V) (cs : spec V) (ix j : Nat) :
    (accumulateAt D val cs ix).sumVector.getD j D.zero =
      if j = ix ∧ ix < cs.sumVector.length ∧ cs.countVector.getD ix 0 < maxCount
      then D.add (cs.sumVector.getD ix D.zero) val else cs.sumVector.getD j D.zero := by
  unfold accumulateAt
  by_cases hc : cs.countVector.getD ix 0 < maxCount
  · rw [if_pos hc]
    by_cases hj : j = ix
    · subst hj
      by_cases hl : j < cs.sumVector.length
      · rw [if_pos ⟨rfl, hl, hc⟩]
        exact getD_set_self _ _ _ _ hl
      · rw [if_neg (fun h => hl h.2.1)]
        exact getD_set_outside _ _ _ _ _ (Nat.le_of_not_lt hl)
    · rw [if_neg (fun h => hj h.1)]
      exact getD_set_other _ _ _ _ _ (fun h => hj h.symm)
  · rw [if_neg hc, if_neg (fun h => hc h.2.2)]

theorem foldl_accumulateAt_fields (D : DoubleOps V) (val : V) (l : List Nat) (cs : spec V) :
    (l.foldl (accumulateAt D val) cs).chrom = cs.chrom ∧
    (l.foldl (accumulateAt D val) cs).start = cs.start ∧
    (l.foldl (accumulateAt D val) cs).length = cs.length ∧
    (l.foldl (accumulateAt D val) cs).batchNumber = cs.batchNumber ∧
    (l.foldl (accumulateAt D val) cs).countVector.length = cs.countVector.length ∧
    (l.foldl (accumulateAt D val) cs).sumVector.length = cs.sumVector.length := by
  induction l generalizing cs with
  | nil => simp
  | cons x xs ih =>
    have h1 := accumulateAt_fields D val cs x
    have h2 := ih (accumulateAt D val cs x)
    simp only [List.foldl_cons]
    refine ⟨h2.1.trans h1.1, h2.2.1.trans h1.2.1, h2.2.2.1.trans h1.2.2.1,
      h2.2.2.2.1.trans h1.2.2.2.1, h2.2.2.2.2.1.trans h1.2.2.2.2.1,
      h2.2.2.2.2.2.trans h1.2.2.2.2.2⟩

theorem foldl_accumulateAt_count (D : DoubleOps V) (val : V) (n : Nat) :
    ∀ (a : Nat) (cs : spec V) (j : Nat),
    ((List.range' a n).foldl (accumulateAt D val) cs).countVector.getD j 0 =
      if a ≤ j ∧ j < a + n ∧ j < cs.countVector.length ∧ cs.countVector.getD j 0 < maxCount
      then cs.countVector.getD j 0 + 1 else cs.countVector.getD j 0 := by
  induction n with
  | zero =>
    intro a cs j
    rw [if_neg (by omega)]
    rfl
  | succ n ih =>
    intro a cs j
    rw [List.range'_succ, List.foldl_cons, ih (a + 1) (accumulateAt D val cs a) j,
      accumulateAt_count, (accumulateAt_fields D val cs a).2.2.2.2.1]
    by_cases hj : j = a
    · subst hj
      split_ifs <;> omega
    · split_ifs <;> omega

theorem foldl_accumulateAt_sum (D : DoubleOps V) (val : V) (n : Nat) :
    ∀ (a : Nat) (cs : spec V) (j : Nat),
    ((List.range' a n).foldl (accumulateAt D val) cs).sumVector.getD j D.zero =
      if a ≤ j ∧ j < a + n ∧ j < cs.sumVector.length ∧ cs.countVector.getD j 0 < maxCount
      then D.add (cs.sumVector.getD j D.zero) val else cs.sumVector.getD j D.zero := by
  induction n with
  | zero =>
    intro a cs j
    rw [if_neg (by omega)]
    rfl
  | succ n ih =>
    intro a cs j
    rw [List.range'_succ, List.foldl_cons, ih (a + 1) (accumulateAt D val cs a) j,
      accumulateAt_sum, accumulateAt_count, (accumulateAt_fields D val cs a).2.2.2.2.2]
    by_cases hj : j = a
    · subst hj
      split_ifs <;> first | rfl | (exfalso; omega)
    · split_ifs <;> first | rfl | (exfalso; omega)

/-- The count buffer after the accumulation loop, position by position. -/
theorem accumulate_count (D : DoubleOps V) (val : V) (cs : spec V) (a b j : Nat) :
    (accumulate D val cs a b).countVector.getD j 0 =
      if a ≤ j ∧ j < b ∧ j < cs.countVector.length ∧ cs.countVector.getD j 0 < maxCount
      then cs.countVector.getD j 0 + 1 else cs.countVector.getD j 0 := by
  unfold accumulate
  rw [foldl_accumulateAt_count]
  split_ifs <;> omega

/-- The sum buffer after the accumulation loop, position by position. -/
theorem accumulate_sum (D : DoubleOps V) (val : V) (cs : spec V) (a b j : Nat) :
    (accumulate D val cs a b).sumVector.getD j D.zero =
      if a ≤ j ∧ j < b ∧ j < cs.sumVector.length ∧ cs.countVector.getD j 0 < maxCount
      then D.add (cs.sumVector.getD j D.zero) val else cs.sumVector.getD j D.zero := by
  unfold accumulate
  rw [foldl_accumulateAt_sum]
  split_ifs <;> first | rfl | (exfalso; omega)

theorem accumulate_fields (D : DoubleOps V) (val : V) (cs : spec V) (a b : Nat) :
    (accumulate D val cs a b).chrom = cs.chrom ∧
    (accumulate D val cs a b).start = cs.start ∧
    (accumulate D val cs a b).length = cs.length ∧
    (accumulate D val cs a b).batchNumber = cs.batchNumber ∧
    (accumulate D val cs a b).countVector.length = cs.countVector.length ∧
    (accumulate D val cs a b).sumVector.length = cs.sumVector.length :=
  foldl_accumulateAt_fields D val _ cs

/-! ## Clipping -/

theorem clipRange_congr (cs cs' : spec V) (hs : cs'.start = cs.start)
    (hl : cs'.length = cs.length) (chrom : String) (s e : Nat) :
    clipRange cs' chrom s e = clipRange cs chrom s e := by
  unfold clipRange
  rw [hs, hl]

theorem covers_congr (cs cs' : spec V) (hs : cs'.start = cs.start)
    (hl : cs'.length = cs.length) (o : Nat) (r : Interval V) (i : Nat) :
    covers cs' o r i = covers cs o r i := by
  unfold covers
  rw [clipRange_congr cs cs' hs hl]

/-- A range that reaches the loop ends inside the window. -/
theorem clipRange_bound (cs : spec V) (chrom : String) (s e a b : Nat)
    (h : clipRange cs chrom s e = .ok (some (a, b))) : b ≤ cs.length := by
  unfold clipRange at h
  by_cases h0 : cs.start = 0
  · rw [if_pos h0] at h
    by_cases h1 : e > cs.length
    · rw [if_pos h1] at h
      simp only [reduceCtorEq] at h
    · rw [if_neg h1] at h
      simp only [Except.ok.injEq, Option.some.injEq, Prod.mk.injEq] at h
      omega
  · rw [if_neg h0] at h
    by_cases h1 : e ≤ cs.start
    · rw [if_pos h1] at h
      simp only [Except.ok.injEq, reduceCtorEq] at h
    · rw [if_neg h1] at h
      simp only at h
      split_ifs at h with h2 h3 h4 h5 h6
      all_goals
        simp only [Except.ok.injEq, Option.some.injEq, Prod.mk.injEq, reduceCtorEq] at h
      all_goals omega

/-- The effect of lines 420-453 on a resolved spec, position by position. -/
theorem applyToSpec_ok (D : DoubleOps V) (o : Nat) (cs cs' : spec V) (r : Interval V)
    (h : applyToSpec D o cs r = .ok cs') :
    cs'.chrom = cs.chrom ∧ cs'.start = cs.start ∧ cs'.length = cs.length ∧
    cs'.batchNumber = cs.batchNumber ∧
    cs'.countVector.length = cs.countVector.length ∧
    cs'.sumVector.length = cs.sumVector.length ∧
    (∀ i, cs'.countVector.getD i 0 =
      if covers cs o r i = true ∧ i < cs.countVector.length ∧
          cs.countVector.getD i 0 < maxCount
      then cs.countVector.getD i 0 + 1 else cs.countVector.getD i 0) ∧
    (∀ i, cs'.sumVector.getD i D.zero =
      if covers cs o r i = true ∧ i < cs.sumVector.length ∧
          cs.countVector.getD i 0 < maxCount
      then D.add (cs.sumVector.getD i D.zero) r.val else cs.sumVector.getD i D.zero) := by
  unfold applyToSpec at h
  unfold covers
  cases hc : clipRange cs r.chrom ((r.start + 2 ^ 32 - o) % 2 ^ 32) r.endPos with
  | error e => rw [hc] at h; simp at h
  | ok rng =>
    rw [hc] at h
    cases rng with
    | none =>
      simp only [Except.ok.injEq] at h
      subst h
      simp
    | some p =>
      obtain ⟨a, b⟩ := p
      simp only [Except.ok.injEq] at h
      subst h
      have hf := accumulate_fields D r.val cs a b
      refine ⟨hf.1, hf.2.1, hf.2.2.1, hf.2.2.2.1, hf.2.2.2.2.1, hf.2.2.2.2.2, ?_, ?_⟩
      · intro i
        rw [accumulate_count]
        simp only [decide_eq_true_eq, and_assoc]
      · intro i
        rw [accumulate_sum]
        simp only [decide_eq_true_eq, and_assoc]

/-! ## Chromosome lookup -/

theorem find_chromosome_spec_congr (l l' : List (spec V))
    (h : l'.map (fun cs => cs.chrom) = l.map (fun cs => cs.chrom)) (chrom : String) :
    find_chromosome_spec l' chrom = find_chromosome_spec l chrom := by
  induction l generalizing l' with
  | nil =>
    cases l' with
    | nil => rfl
    | cons y ys => simp at h
  | cons x xs ih =>
    cases l' with
    | nil => simp at h
    | cons y ys =>
      simp only [List.map_cons, List.cons.injEq] at h
      simp only [find_chromosome_spec, h.1, ih ys h.2]

/-- A successful lookup returns a spec with the name asked for. -/
theorem find_chromosome_spec_sound (l : List (spec V)) (chrom : String) (k : Nat)
    (h : find_chromosome_spec l chrom = some k) :
    ∃ cs, l[k]? = some cs ∧ cs.chrom = chrom := by
  induction l generalizing k with
  | nil => simp [find_chromosome_spec] at h
  | cons x xs ih =>
    unfold find_chromosome_spec at h
    by_cases hx : chrom = x.chrom
    · rw [if_pos hx] at h
      simp only [Option.some.injEq] at h
      subst h
      exact ⟨x, List.getElem?_cons_zero, hx.symm⟩
    · rw [if_neg hx] at h
      cases hf : find_chromosome_spec xs chrom with
      | none => rw [hf] at h; simp at h
      | some k' =>
        rw [hf] at h
        simp only [Option.map_some', Option.some.injEq] at h
        subst h
        obtain ⟨cs, h1, h2⟩ := ih k' hf
        exact ⟨cs, by simpa using h1, h2⟩

/-- With pairwise distinct names the lookup finds every registered spec. -/
theorem find_chromosome_spec_complete (l : List (spec V))
    (hnd : (l.map (fun cs => cs.chrom)).Nodup) (k : Nat) (cs : spec V)
    (hk : l[k]? = some cs) :
    find_chromosome_spec l cs.chrom = some k := by
  induction l generalizing k with
  | nil => simp at hk
  | cons x xs ih =>
    simp only [List.map_cons, List.nodup_cons, List.mem_map, not_exists, not_and] at hnd
    unfold find_chromosome_spec
    cases k with
    | zero =>
      simp only [List.getElem?_cons_zero, Option.some.injEq] at hk
      subst hk
      simp
    | succ k' =>
      simp only [List.getElem?_cons_succ] at hk
      have hmem : cs ∈ xs := List.mem_iff_getElem?.mpr ⟨k', hk⟩
      have hne : ¬ cs.chrom = x.chrom := hnd.1 cs hmem
      rw [if_neg hne, ih hnd.2 k' hk]
      rfl

theorem find_chromosome_spec_iff (l : List (spec V))
    (hnd : (l.map (fun cs => cs.chrom)).Nodup) (k : Nat) (cs : spec V)
    (hk : l[k]? = some cs) (chrom : String) :
    find_chromosome_spec l chrom = some k ↔ chrom = cs.chrom := by
  constructor
  · intro h
    obtain ⟨cs', h1, h2⟩ := find_chromosome_spec_sound l chrom k h
    rw [hk] at h1
    simp only [Option.some.injEq] at h1
    rw [h1, h2]
  · intro h
    rw [h]
    exact find_chromosome_spec_complete l hnd k cs hk

/-! ## One iteration of the read loop -/

theorem bumpBatch_getElem? (l : List (spec V)) (k j : Nat) :
    (bumpBatch l k)[j]? =
      (l[j]?).map (fun cs =>
        if j = k then { cs with batchNumber := cs.batchNumber + 1 } else cs) := by
  unfold bumpBatch
  cases hk : l[k]? with
  | none =>
    simp only
    by_cases hj : j = k
    · subst hj; simp [hk]
    · cases l[j]? <;> simp [hj]
  | some cs =>
    simp only
    by_cases hj : j = k
    · subst hj
      have hlt : j < l.length := by
        by_contra hge
        rw [List.getElem?_eq_none (Nat.le_of_not_lt hge)] at hk
        simp at hk
      simp [List.getElem?_set, hlt, hk]
    · have hj' : k ≠ j := fun h => hj h.symm
      rw [List.getElem?_set_ne hj']
      cases l[j]? <;> simp [hj]

theorem bumpBatch_names (l : List (spec V)) (k : Nat) :
    (bumpBatch l k).map (fun cs => cs.chrom) = l.map (fun cs => cs.chrom) := by
  apply List.ext_getElem?
  intro j
  rw [List.getElem?_map, List.getElem?_map, bumpBatch_getElem?]
  cases l[j]? with
  | none => rfl
  | some cs =>
    simp only [Option.map_some']
    split <;> rfl

/-- The lookup step changes no buffer, name, window start or length. -/
theorem resolveChrom_getElem? (st : MainState V) (chrom : String) (j : Nat) (cs : spec V)
    (h : st.chroms[j]? = some cs) :
    ∃ cs1, (resolveChrom st chrom).chroms[j]? = some cs1 ∧
      cs1.chrom = cs.chrom ∧ cs1.start = cs.start ∧ cs1.length = cs.length ∧
      cs1.countVector = cs.countVector ∧ cs1.sumVector = cs.sumVector := by
  unfold resolveChrom
  by_cases hc : chrom ≠ st.prevChrom
  · rw [if_pos hc]
    cases hf : find_chromosome_spec st.chroms chrom with
    | none => exact ⟨cs, h, rfl, rfl, rfl, rfl, rfl⟩
    | some k =>
      simp only
      rw [bumpBatch_getElem?, h]
      by_cases hj : j = k
      · simp [hj]
      · simp [hj]
  · rw [if_neg hc]
    exact ⟨cs, h, rfl, rfl, rfl, rfl, rfl⟩

theorem resolveChrom_names (st : MainState V) (chrom : String) :
    (resolveChrom st chrom).chroms.map (fun cs => cs.chrom) =
      st.chroms.map (fun cs => cs.chrom) := by
  unfold resolveChrom
  by_cases hc : chrom ≠ st.prevChrom
  · rw [if_pos hc]
    cases hf : find_chromosome_spec st.chroms chrom with
    | none => rfl
    | some k => exact bumpBatch_names st.chroms k
  · rw [if_neg hc]

/-- After the lookup step of a consistent state the pointer is the result of
`find_chromosome_spec` for the record, provided the record has a name or no
chromosome is registered under the empty name. -/
theorem resolveChrom_spec (st : MainState V) (chrom : String) (hok : CacheOK st)
    (hne : chrom ≠ "" ∨ find_chromosome_spec st.chroms "" = none) :
    (resolveChrom st chrom).chromSpec = find_chromosome_spec st.chroms chrom ∧
    (resolveChrom st chrom).prevChrom = chrom := by
  unfold resolveChrom
  by_cases hc : chrom ≠ st.prevChrom
  · rw [if_pos hc]
    cases hf : find_chromosome_spec st.chroms chrom with
    | none => exact ⟨rfl, rfl⟩
    | some k => exact ⟨rfl, rfl⟩
  · rw [if_neg hc]
    have hc' : chrom = st.prevChrom := by simpa using hc
    rcases hok with h | h
    · exact ⟨by rw [h, hc'], hc'.symm⟩
    · rcases hne with hn | hn
      · exact absurd (hc'.trans h.1) hn
      · exact ⟨by rw [h.2, hc', h.1, hn], hc'.symm⟩

/-- The effect of one iteration of the read loop on every spec, position by
position: only the spec the pointer `chromSpec` designates after the lookup
step is touched, and only at the positions the loop visits. -/
theorem processInterval_ok (D : DoubleOps V) (o : Nat) (st st' : MainState V)
    (r : Interval V) (h : processInterval D o st r = .ok st') :
    st'.prevChrom = (resolveChrom st r.chrom).prevChrom ∧
    st'.chromSpec = (resolveChrom st r.chrom).chromSpec ∧
    st'.chroms.length = st.chroms.length ∧
    ∀ j cs, st.chroms[j]? = some cs →
      ∃ cs', st'.chroms[j]? = some cs' ∧
        cs'.chrom = cs.chrom ∧ cs'.start = cs.start ∧ cs'.length = cs.length ∧
        cs'.countVector.length = cs.countVector.length ∧
        cs'.sumVector.length = cs.sumVector.length ∧
        (∀ i, cs'.countVector.getD i 0 =
          if (resolveChrom st r.chrom).chromSpec = some j ∧ covers cs o r i = true ∧
              i < cs.countVector.length ∧ cs.countVector.getD i 0 < maxCount
          then cs.countVector.getD i 0 + 1 else cs.countVector.getD i 0) ∧
        (∀ i, cs'.sumVector.getD i D.zero =
          if (resolveChrom st r.chrom).chromSpec = some j ∧ covers cs o r i = true ∧
              i < cs.sumVector.length ∧ cs.countVector.getD i 0 < maxCount
          then D.add (cs.sumVector.getD i D.zero) r.val else cs.sumVector.getD i D.zero) := by
  unfold processInterval at h
  have hlen : (resolveChrom st r.chrom).chroms.length = st.chroms.length := by
    have := congrArg List.length (resolveChrom_names st r.chrom)
    simpa using this
  cases hp : (resolveChrom st r.chrom).chromSpec with
  | none =>
    simp only [hp, Except.ok.injEq] at h
    subst h
    refine ⟨rfl, hp, hlen, ?_⟩
    intro j cs hj
    obtain ⟨cs1, h1, h2, h3, h4, h5, h6⟩ := resolveChrom_getElem? st r.chrom j cs hj
    refine ⟨cs1, h1, h2, h3, h4, by rw [h5], by rw [h6], ?_, ?_⟩
    · intro i; rw [h5, if_neg (by simp)]
    · intro i; rw [h6, if_neg (by simp)]
  | some k =>
    simp only [hp] at h
    cases hk : (resolveChrom st r.chrom).chroms[k]? with
    | none =>
      simp only [hk, Except.ok.injEq] at h
      subst h
      refine ⟨rfl, hp, hlen, ?_⟩
      intro j cs hj
      obtain ⟨cs1, h1, h2, h3, h4, h5, h6⟩ := resolveChrom_getElem? st r.chrom j cs hj
      have hjk : ¬ (some k = some j) := by
        intro he
        simp only [Option.some.injEq] at he
        subst he
        rw [hk] at h1
        simp at h1
      refine ⟨cs1, h1, h2, h3, h4, by rw [h5], by rw [h6], ?_, ?_⟩
      · intro i; rw [h5, if_neg (fun hh => hjk hh.1)]
      · intro i; rw [h6, if_neg (fun hh => hjk hh.1)]
    | some csk =>
      simp only [hk] at h
      cases ha : applyToSpec D o csk r with
      | error e => simp [ha] at h
      | ok csk' =>
        simp only [ha, Except.ok.injEq] at h
        subst h
        have hklt : k < (resolveChrom st r.chrom).chroms.length := by
          by_contra hge
          rw [List.getElem?_eq_none (Nat.le_of_not_lt hge)] at hk
          simp at hk
        refine ⟨rfl, rfl, by simp [hlen], ?_⟩
        intro j cs hj
        obtain ⟨cs1, h1, h2, h3, h4, h5, h6⟩ := resolveChrom_getElem? st r.chrom j cs hj
        by_cases hjk : j = k
        · subst hjk
          rw [hk] at h1
          simp only [Option.some.injEq] at h1
          subst h1
          obtain ⟨a1, a2, a3, _, a5, a6, a7, a8⟩ := applyToSpec_ok D o csk csk' r ha
          refine ⟨csk', by simp [List.getElem?_set, hklt], a1.trans h2, a2.trans h3,
            a3.trans h4, by rw [a5, h5], by rw [a6, h6], ?_, ?_⟩
          · intro i
            rw [a7 i, covers_congr cs csk h3 h4, h5]
            simp only [true_and]
          · intro i
            rw [a8 i, covers_congr cs csk h3 h4, h5, h6]
            simp only [true_and]
        · have hkj : k ≠ j := fun hh => hjk hh.symm
          have hsome : ¬ (some k = some j) := by simpa using hkj
          refine ⟨cs1, by simp [List.getElem?_set_ne hkj, h1], h2, h3, h4, by rw [h5],
            by rw [h6], ?_, ?_⟩
          · intro i; rw [h5, if_neg (fun hh => hsome hh.1)]
          · intro i; rw [h6, if_neg (fun hh => hsome hh.1)]

theorem processInterval_names (D : DoubleOps V) (o : Nat) (st st' : MainState V)
    (r : Interval V) (h : processInterval D o st r = .ok st') :
    st'.chroms.map (fun cs => cs.chrom) = st.chroms.map (fun cs => cs.chrom) := by
  obtain ⟨_, _, hlen, hget⟩ := processInterval_ok D o st st' r h
  apply List.ext_getElem?
  intro j
  rw [List.getElem?_map, List.getElem?_map]
  cases hj : st.chroms[j]? with
  | none =>
    have hge : st.chroms.length ≤ j := List.getElem?_eq_none_iff.mp hj
    rw [List.getElem?_eq_none (by omega)]
  | some cs =>
    obtain ⟨cs', h1, h2, _⟩ := hget j cs hj
    rw [h1]
    simp [h2]

/-- One iteration keeps the cached lookup consistent. -/
theorem processInterval_cacheOK (D : DoubleOps V) (o : Nat) (st st' : MainState V)
    (r : Interval V) (hok : CacheOK st)
    (hne : r.chrom ≠ "" ∨ find_chromosome_spec st.chroms "" = none)
    (h : processInterval D o st r = .ok st') :
    CacheOK st' ∧ st'.chromSpec = find_chromosome_spec st.chroms r.chrom := by
  obtain ⟨h1, h2, _, _⟩ := processInterval_ok D o st st' r h
  have hs := resolveChrom_spec st r.chrom hok hne
  have hn := processInterval_names D o st st' r h
  refine ⟨Or.inl ?_, by rw [h2, hs.1]⟩
  rw [h2, hs.1, h1, hs.2]
  exact (find_chromosome_spec_congr st.chroms st'.chroms hn r.chrom).symm

/-! ## Saturating accumulation at one position -/

theorem foldl_satStep (D : DoubleOps V) (vals : List V) :
    ∀ (c : Nat) (s : V), c ≤ maxCount →
      vals.foldl (satStep D) (c, s) =
        (min (c + vals.length) maxCount, (vals.take (maxCount - c)).foldl D.add s) := by
  induction vals with
  | nil =>
    intro c s hc
    simp [Nat.min_eq_left hc]
  | cons v vs ih =>
    intro c s hc
    rw [List.foldl_cons]
    by_cases hlt : c < maxCount
    · have hstep : satStep D (c, s) v = (c + 1, D.add s v) := by
        simp only [satStep, hlt, if_true]
      rw [hstep, ih (c + 1) (D.add s v) hlt]
      have h1 : maxCount - c = (maxCount - (c + 1)) + 1 := by omega
      rw [h1, List.take_succ_cons, List.foldl_cons, List.length_cons]
      congr 1
      omega
    · have hc' : c = maxCount := by omega
      have hstep : satStep D (c, s) v = (c, s) := by
        simp only [satStep, hlt, if_false]
      rw [hstep, ih c s hc]
      subst hc'
      simp

theorem coveringRecords_cons (cs : spec V) (o : Nat) (r : Interval V)
    (rs : List (Interval V)) (i : Nat) :
    coveringRecords cs o (r :: rs) i =
      if r.chrom = cs.chrom ∧ covers cs o r i = true
      then r :: coveringRecords cs o rs i else coveringRecords cs o rs i := by
  unfold coveringRecords
  rw [List.filter_cons]
  simp only [Bool.and_eq_true, decide_eq_true_eq]

theorem coveringRecords_congr (cs cs' : spec V) (hc : cs'.chrom = cs.chrom)
    (hs : cs'.start = cs.start) (hl : cs'.length = cs.length) (o : Nat)
    (rs : List (Interval V)) (i : Nat) :
    coveringRecords cs' o rs i = coveringRecords cs o rs i := by
  unfold coveringRecords
  congr 1
  funext r
  rw [hc, covers_congr cs cs' hs hl]

/-- The read loop, position by position: the final (count, sum) pair of a
tracked position is obtained from the initial pair by one saturating step per
covering record, in input order. -/
theorem processAll_point (D : DoubleOps V) (o : Nat) (rs : List (Interval V)) :
    ∀ (st st' : MainState V), CacheOK st →
      (st.chroms.map (fun cs => cs.chrom)).Nodup →
      ((∀ r ∈ rs, r.chrom ≠ "") ∨ find_chromosome_spec st.chroms "" = none) →
      processAll D o st rs = .ok st' →
      ∀ (k : Nat) (cs : spec V), st.chroms[k]? = some cs →
        ∀ i, i < cs.countVector.length → i < cs.sumVector.length →
          ∃ cs' : spec V, st'.chroms[k]? = some cs' ∧
            (cs'.countVector.getD i 0, cs'.sumVector.getD i D.zero) =
              ((coveringRecords cs o rs i).map (fun r => r.val)).foldl (satStep D)
                (cs.countVector.getD i 0, cs.sumVector.getD i D.zero) := by
  induction rs with
  | nil =>
    intro st st' _ _ _ h k cs hk i _ _
    simp only [processAll, Except.ok.injEq] at h
    subst h
    exact ⟨cs, hk, rfl⟩
  | cons r rs ih =>
    intro st st' hok hnd hne h k cs hk i hic his
    unfold processAll at h
    cases hp : processInterval D o st r with
    | error e => simp [hp] at h
    | ok st1 =>
      simp only [hp] at h
      have hr : r.chrom ≠ "" ∨ find_chromosome_spec st.chroms "" = none :=
        hne.elim (fun hh => Or.inl (hh r (List.mem_cons_self _ _))) Or.inr
      obtain ⟨hok1, hptr⟩ := processInterval_cacheOK D o st st1 r hok hr hp
      have hn1 := processInterval_names D o st st1 r hp
      have hne1 : (∀ q ∈ rs, q.chrom ≠ "") ∨ find_chromosome_spec st1.chroms "" = none :=
        hne.elim (fun hh => Or.inl (fun q hq => hh q (List.mem_cons_of_mem _ hq)))
          (fun hh => Or.inr (by rw [find_chromosome_spec_congr st.chroms st1.chroms hn1, hh]))
      obtain ⟨_, hcs, _, hget⟩ := processInterval_ok D o st st1 r hp
      obtain ⟨cs1, g1, g2, g3, g4, g5, g6, g7, g8⟩ := hget k cs hk
      obtain ⟨cs', f1, f2⟩ := ih st1 st' hok1 (by rw [hn1]; exact hnd)
        hne1 h k cs1 g1 i
        (by rw [g5]; exact hic) (by rw [g6]; exact his)
      refine ⟨cs', f1, ?_⟩
      rw [f2, coveringRecords_congr cs cs1 g2 g3 g4, coveringRecords_cons, g7 i, g8 i]
      have hiff : (resolveChrom st r.chrom).chromSpec = some k ↔ r.chrom = cs.chrom := by
        rw [← hcs, hptr]
        exact find_chromosome_spec_iff st.chroms hnd k cs hk r.chrom
      by_cases hhit : r.chrom = cs.chrom ∧ covers cs o r i = true
      · rw [if_pos hhit, List.map_cons, List.foldl_cons]
        by_cases hlt : cs.countVector.getD i 0 < maxCount
        · rw [if_pos ⟨hiff.mpr hhit.1, hhit.2, hic, hlt⟩,
            if_pos ⟨hiff.mpr hhit.1, hhit.2, his, hlt⟩]
          congr 1
          simp only [satStep, hlt, if_true]
        · rw [if_neg (fun hh => hlt hh.2.2.2), if_neg (fun hh => hlt hh.2.2.2)]
          congr 1
          simp only [satStep, hlt, if_false]
      · rw [if_neg hhit, if_neg (fun hh => hhit ⟨hiff.mp hh.1, hh.2.1⟩),
          if_neg (fun hh => hhit ⟨hiff.mp hh.1, hh.2.1⟩)]

/-! ## Allocation -/

theorem allocate_ok (D : DoubleOps V) (specs : List (spec V)) :
    ∀ chroms, allocate D specs = .ok chroms →
      chroms.map (fun cs => cs.chrom) = specs.map (fun cs => cs.chrom) ∧
      ∀ cs ∈ chroms, cs.length ≠ 0 ∧ cs.countVector = List.replicate cs.length 0 ∧
        cs.sumVector = List.replicate cs.length D.zero := by
  induction specs with
  | nil =>
    intro chroms h
    simp only [allocate, Except.ok.injEq] at h
    subst h
    simp
  | cons x xs ih =>
    intro chroms h
    unfold allocate at h
    by_cases hz : x.length = 0
    · rw [if_pos hz] at h
      simp at h
    · rw [if_neg hz] at h
      cases ha : allocate D xs with
      | error e => simp [ha] at h
      | ok rest =>
        simp only [ha, Except.ok.injEq] at h
        subst h
        obtain ⟨h1, h2⟩ := ih rest ha
        refine ⟨by simp [h1], ?_⟩
        intro cs hcs
        rcases List.mem_cons.mp hcs with hcs | hcs
        · subst hcs
          exact ⟨hz, rfl, rfl⟩
        · exact h2 cs hcs

/-- A name no spec carries is not found. -/
theorem find_chromosome_spec_none (l : List (spec V)) (chrom : String)
    (h : ∀ cs ∈ l, cs.chrom ≠ chrom) : find_chromosome_spec l chrom = none := by
  induction l with
  | nil => rfl
  | cons x xs ih =>
    unfold find_chromosome_spec
    have hx : ¬ chrom = x.chrom := fun he => h x (List.mem_cons_self _ _) he.symm
    rw [if_neg hx, ih (fun cs hcs => h cs (List.mem_cons_of_mem _ hcs))]
    rfl

/-- The side condition on empty names, carried from the command line to the
allocated list. -/
theorem names_ok_allocated (D : DoubleOps V) (specs chroms : List (spec V))
    (rs : List (Interval V)) (halloc : allocate D specs = .ok chroms)
    (hname : (∀ r ∈ rs, r.chrom ≠ "") ∨ (∀ cs ∈ specs, cs.chrom ≠ "")) :
    (∀ r ∈ rs, r.chrom ≠ "") ∨ find_chromosome_spec (mainInit chroms).chroms "" = none := by
  rcases hname with h | h
  · exact Or.inl h
  · right
    apply find_chromosome_spec_none
    intro cs hcs
    have hn := (allocate_ok D specs chroms halloc).1
    have hmem : cs.chrom ∈ chroms.map (fun c => c.chrom) := List.mem_map.mpr ⟨cs, hcs, rfl⟩
    rw [hn] at hmem
    obtain ⟨c0, hc0, he⟩ := List.mem_map.mp hmem
    rw [← he]
    exact h c0 hc0

/-- The read loop started on freshly allocated buffers: the final count at a
tracked position is the number of covering records capped at `maxCount`, and
the final sum adds the values of the first `maxCount` covering records. -/
theorem processAll_allocated (D : DoubleOps V) (o : Nat)
    (specs chroms : List (spec V)) (rs : List (Interval V)) (st' : MainState V)
    (halloc : allocate D specs = .ok chroms)
    (hnd : (specs.map (fun cs => cs.chrom)).Nodup)
    (hname : (∀ r ∈ rs, r.chrom ≠ "") ∨ (∀ cs ∈ specs, cs.chrom ≠ ""))
    (hrun : processAll D o (mainInit chroms) rs = .ok st')
    (k : Nat) (cs : spec V) (hk : chroms[k]? = some cs) (i : Nat) (hi : i < cs.length) :
    countAt st' k i = min (coveringRecords cs o rs i).length maxCount ∧
    sumAt D st' k i =
      sumValues D (((coveringRecords cs o rs i).map (fun r => r.val)).take maxCount) := by
  obtain ⟨hn, hbuf⟩ := allocate_ok D specs chroms halloc
  obtain ⟨_, hcv, hsv⟩ := hbuf cs (List.mem_iff_getElem?.mpr ⟨k, hk⟩)
  have hic : i < cs.countVector.length := by rw [hcv]; simpa using hi
  have his : i < cs.sumVector.length := by rw [hsv]; simpa using hi
  obtain ⟨cs', h1, h2⟩ := processAll_point D o rs (mainInit chroms) st'
    (Or.inr ⟨rfl, rfl⟩) (by rw [show (mainInit chroms).chroms = chroms from rfl, hn]; exact hnd)
    (names_ok_allocated D specs chroms rs halloc hname) hrun k cs hk i hic his
  have hc0 : cs.countVector.getD i 0 = 0 := by
    rw [hcv, List.getD_eq_getElem?_getD, List.getElem?_replicate]
    simp [hi]
  have hs0 : cs.sumVector.getD i D.zero = D.zero := by
    rw [hsv, List.getD_eq_getElem?_getD, List.getElem?_replicate]
    simp [hi]
  rw [hc0, hs0, foldl_satStep D _ 0 D.zero (Nat.zero_le _)] at h2
  simp only [Prod.mk.injEq, Nat.zero_add, List.length_map, Nat.sub_zero] at h2
  unfold countAt sumAt sumValues
  rw [h1]
  exact ⟨h2.1, h2.2⟩

/-- The read loop is not fatal when no record ends beyond a chromosome of the
same name that was given by length only. -/
theorem processAll_total (D : DoubleOps V) (o : Nat) (rs : List (Interval V)) :
    ∀ (st : MainState V), CacheOK st →
      ((∀ r ∈ rs, r.chrom ≠ "") ∨ find_chromosome_spec st.chroms "" = none) →
      (∀ r ∈ rs, ∀ cs ∈ st.chroms, cs.chrom = r.chrom → cs.start = 0 →
        r.endPos ≤ cs.length) →
      ∃ st', processAll D o st rs = .ok st' := by
  induction rs with
  | nil => intro st _ _ _; exact ⟨st, rfl⟩
  | cons r rs ih =>
    intro st hok hne hfit
    have hr : r.chrom ≠ "" ∨ find_chromosome_spec st.chroms "" = none :=
      hne.elim (fun hh => Or.inl (hh r (List.mem_cons_self _ _))) Or.inr
    have hstep : ∃ st1, processInterval D o st r = .ok st1 := by
      cases hp : (resolveChrom st r.chrom).chromSpec with
      | none =>
        cases hq : processInterval D o st r with
        | ok st1 => exact ⟨st1, rfl⟩
        | error e => simp only [processInterval, hp, reduceCtorEq] at hq
      | some k =>
        cases hk : (resolveChrom st r.chrom).chroms[k]? with
        | none =>
          cases hq : processInterval D o st r with
          | ok st1 => exact ⟨st1, rfl⟩
          | error e => simp only [processInterval, hp, hk, reduceCtorEq] at hq
        | some csk =>
          have hfind := (resolveChrom_spec st r.chrom hok hr).1
          rw [hp] at hfind
          obtain ⟨cs, c1, c2⟩ := find_chromosome_spec_sound st.chroms r.chrom k hfind.symm
          obtain ⟨cs1, d1, _, d3, d4, _, _⟩ := resolveChrom_getElem? st r.chrom k cs c1
          rw [hk] at d1
          simp only [Option.some.injEq] at d1
          subst d1
          have hmem : cs ∈ st.chroms := List.mem_iff_getElem?.mpr ⟨k, c1⟩
          have hle := hfit r (List.mem_cons_self _ _) cs hmem c2
          have happ : ∃ cs', applyToSpec D o csk r = .ok cs' := by
            unfold applyToSpec clipRange
            by_cases h0 : csk.start = 0
            · have hle' : ¬ r.endPos > csk.length := by
                have := hle (d3 ▸ h0)
                omega
              simp only [h0, if_true, hle', if_false]
              exact ⟨_, rfl⟩
            · simp only [h0, if_false]
              split_ifs <;> exact ⟨_, rfl⟩
          obtain ⟨cs', hcs'⟩ := happ
          cases hq : processInterval D o st r with
          | ok st1 => exact ⟨st1, rfl⟩
          | error e => simp only [processInterval, hp, hk, hcs', reduceCtorEq] at hq
    obtain ⟨st1, h1⟩ := hstep
    have hok1 := (processInterval_cacheOK D o st st1 r hok hr h1).1
    have hn1 := processInterval_names D o st st1 r h1
    obtain ⟨_, _, _, hget⟩ := processInterval_ok D o st st1 r h1
    have hfit1 : ∀ q ∈ rs, ∀ cs ∈ st1.chroms, cs.chrom = q.chrom → cs.start = 0 →
        q.endPos ≤ cs.length := by
      intro q hq cs1 hcs1 e1 e2
      obtain ⟨j, hj⟩ := List.mem_iff_getElem?.mp hcs1
      have hlen : j < st.chroms.length := by
        have h3 := congrArg List.length hn1
        simp only [List.length_map] at h3
        have : j < st1.chroms.length := by
          by_contra hge
          rw [List.getElem?_eq_none (Nat.le_of_not_lt hge)] at hj
          simp at hj
        omega
      obtain ⟨cs0, hcs0⟩ : ∃ cs0, st.chroms[j]? = some cs0 :=
        ⟨st.chroms[j], List.getElem?_eq_getElem hlen⟩
      obtain ⟨cs2, g1, g2, g3, g4, _⟩ := hget j cs0 hcs0
      rw [hj] at g1
      simp only [Option.some.injEq] at g1
      subst g1
      have := hfit q (List.mem_cons_of_mem _ hq) cs0 (List.mem_iff_getElem?.mpr ⟨j, hcs0⟩)
        (g2 ▸ e1) (g3 ▸ e2)
      omega
    have hne1 : (∀ q ∈ rs, q.chrom ≠ "") ∨ find_chromosome_spec st1.chroms "" = none :=
      hne.elim (fun hh => Or.inl (fun q hq => hh q (List.mem_cons_of_mem _ hq)))
        (fun hh => Or.inr (by rw [find_chromosome_spec_congr st.chroms st1.chroms hn1, hh]))
    obtain ⟨st', h2⟩ := ih st1 hok1 hne1 hfit1
    exact ⟨st', by simp only [processAll, h1, h2]⟩

/-! ## Counters along the read loop -/

/-- One iteration of the read loop leaves a counter unchanged or, when it was
below `maxCount`, increases it by one. -/
theorem processInterval_count (D : DoubleOps V) (o : Nat) (st st' : MainState V)
    (r : Interval V) (h : processInterval D o st r = .ok st') (k i : Nat) :
    countAt st' k i = countAt st k i ∨
    (countAt st k i < maxCount ∧ countAt st' k i = countAt st k i + 1) := by
  obtain ⟨_, _, hlen, hget⟩ := processInterval_ok D o st st' r h
  unfold countAt
  cases hk : st.chroms[k]? with
  | none =>
    have hge : st.chroms.length ≤ k := List.getElem?_eq_none_iff.mp hk
    rw [List.getElem?_eq_none (by omega)]
    exact Or.inl rfl
  | some cs =>
    obtain ⟨cs', h1, _, _, _, _, _, h7, _⟩ := hget k cs hk
    rw [h1]
    simp only
    rw [h7 i]
    by_cases hc : (resolveChrom st r.chrom).chromSpec = some k ∧ covers cs o r i = true ∧
        i < cs.countVector.length ∧ cs.countVector.getD i 0 < maxCount
    · exact Or.inr ⟨hc.2.2.2, by rw [if_pos hc]⟩
    · exact Or.inl (by rw [if_neg hc])

/-- One iteration of the read loop changes neither the counter nor the sum of
a position whose counter has reached `maxCount`. -/
theorem processInterval_saturated (D : DoubleOps V) (o : Nat) (st st' : MainState V)
    (r : Interval V) (h : processInterval D o st r = .ok st') (k i : Nat)
    (hsat : maxCount ≤ countAt st k i) :
    countAt st' k i = countAt st k i ∧ sumAt D st' k i = sumAt D st k i := by
  obtain ⟨_, _, hlen, hget⟩ := processInterval_ok D o st st' r h
  unfold countAt sumAt
  unfold countAt at hsat
  cases hk : st.chroms[k]? with
  | none =>
    have hge : st.chroms.length ≤ k := List.getElem?_eq_none_iff.mp hk
    rw [List.getElem?_eq_none (by omega)]
    exact ⟨rfl, rfl⟩
  | some cs =>
    rw [hk] at hsat
    simp only at hsat
    obtain ⟨cs', h1, _, _, _, _, _, h7, h8⟩ := hget k cs hk
    rw [h1]
    simp only
    rw [h7 i, h8 i, if_neg (fun hh => absurd hh.2.2.2 (by omega)),
      if_neg (fun hh => absurd hh.2.2.2 (by omega))]
    exact ⟨rfl, rfl⟩

/-- Along the read loop every counter is non-decreasing and stays at or
below `maxCount` if it started there. -/
theorem processAll_count (D : DoubleOps V) (o : Nat) (rs : List (Interval V)) :
    ∀ (st st' : MainState V), processAll D o st rs = .ok st' → ∀ (k i : Nat),
      countAt st k i ≤ countAt st' k i ∧
      (countAt st k i ≤ maxCount → countAt st' k i ≤ maxCount) := by
  induction rs with
  | nil =>
    intro st st' h k i
    simp only [processAll, Except.ok.injEq] at h
    subst h
    exact ⟨Nat.le_refl _, fun hh => hh⟩
  | cons r rs ih =>
    intro st st' h k i
    unfold processAll at h
    cases hp : processInterval D o st r with
    | error e => simp [hp] at h
    | ok st1 =>
      simp only [hp] at h
      have h1 := processInterval_count D o st st1 r hp k i
      have h2 := ih st1 st' h k i
      constructor
      · rcases h1 with h1 | h1 <;> omega
      · intro hle
        apply h2.2
        rcases h1 with h1 | h1 <;> omega

/-! ## The report loop on buffers that agree or end in uncovered positions -/

theorem encodeLoop_congr (D : DoubleOps V) (cv cv' : List Nat) (sv sv' : List V) (n : Nat)
    (h : ∀ j, j < n → cv.getD j 0 = cv'.getD j 0 ∧ sv.getD j D.zero = sv'.getD j D.zero) :
    encodeLoop D cv sv n = encodeLoop D cv' sv' n := by
  induction n with
  | zero => rfl
  | succ n ih =>
    rw [encodeLoop_succ, encodeLoop_succ, ih (fun j hj => h j (Nat.lt_succ_of_lt hj))]
    unfold encodeStep
    rw [(h n (Nat.lt_succ_self n)).1, (h n (Nat.lt_succ_self n)).2]

theorem encodeFinish_tail (D : DoubleOps V) (cv : List Nat) (sv : List V) (n m : Nat)
    (hnm : n ≤ m) (h : ∀ j, n ≤ j → j < m → cv.getD j 0 = 0) :
    encodeFinish m (encodeLoop D cv sv m) = encodeFinish n (encodeLoop D cv sv n) := by
  induction m with
  | zero =>
    have : n = 0 := by omega
    subst this
    rfl
  | succ m ih =>
    rcases Nat.eq_or_lt_of_le hnm with heq | hlt
    · subst heq; rfl
    · have hz : cv.getD m 0 = 0 := h m (by omega) (Nat.lt_succ_self m)
      rw [← ih (by omega) (fun j h1 h2 => h j h1 (Nat.lt_succ_of_lt h2)), encodeLoop_succ]
      unfold encodeStep encodeFinish
      simp only [hz, if_true, Bool.false_eq_true, false_and, if_false]

/-! ## The scenario of two overlapping intervals -/

/-- C1 (end-to-end scenario).  With the single chromosome `chr1` given by a
length `L >= 15` (window start 0), origin zero, the records `(chr1,0,10,5)`
and `(chr1,5,15,3)` produce exactly the three output lines `(chr1,0,5)` with
average 5, `(chr1,5,10)` with average 4 and `(chr1,10,15)` with average 3,
in this order. -/
theorem scenario_two_intervals (L : Nat) (hL : 15 ≤ L) :
    chrom_avg ratOps false [⟨"chr1", 0, L, [], [], 0⟩]
        [⟨"chr1", 0, 10, 5⟩, ⟨"chr1", 5, 15, 3⟩] =
      .ok [⟨"chr1", 0, 5, 5⟩, ⟨"chr1", 5, 10, 4⟩, ⟨"chr1", 10, 15, 3⟩] := by
  have hL0 : L ≠ 0 := by omega
  have h10 : ¬ 10 > L := by omega
  have h15 : ¬ 15 > L := by omega
  have h0M : 0 < maxCount := by decide
  have h1M : 0 + 1 < maxCount := by decide
  -- the buffers after the read loop
  obtain ⟨c1, hc1⟩ : ∃ c1 : spec ℚ, c1 =
      accumulate ratOps 5
        ⟨"chr1", 0, L, List.replicate L 0, List.replicate L ratOps.zero, 1⟩ 0 10 := ⟨_, rfl⟩
  obtain ⟨cf, hcf⟩ : ∃ cf : spec ℚ, cf = accumulate ratOps 3 c1 5 15 := ⟨_, rfl⟩
  have hfl' := accumulate_fields ratOps 5
    ⟨"chr1", 0, L, List.replicate L 0, List.replicate L ratOps.zero, 1⟩ 0 10
  rw [← hc1] at hfl'
  simp only at hfl'
  have hfl := accumulate_fields ratOps 3 c1 5 15
  rw [← hcf] at hfl
  have hrun : chrom_avg ratOps false [⟨"chr1", 0, L, [], [], 0⟩]
      [⟨"chr1", 0, 10, 5⟩, ⟨"chr1", 5, 15, 3⟩] = .ok (reportSpec ratOps 0 cf) := by
    simp [chrom_avg, allocate, hL0, processAll, processInterval, resolveChrom, mainInit,
      find_chromosome_spec, bumpBatch, applyToSpec, clipRange, h10, h15, reportAll,
      ← hc1, hfl'.2.1, hfl'.2.2.1, ← hcf]
  rw [hrun]
  have hlen : cf.length = L := by rw [hfl.2.2.1, hfl'.2.2.1]
  have hchrom : cf.chrom = "chr1" := by rw [hfl.1, hfl'.1]
  have hstart : cf.start = 0 := by rw [hfl.2.1, hfl'.2.1]
  have hcount : ∀ j, cf.countVector.getD j 0 =
      if j < 5 then 1 else if j < 10 then 2 else if j < 15 then 1 else 0 := by
    intro j
    rw [hcf, accumulate_count, hfl'.2.2.2.2.1, hc1, accumulate_count]
    simp only [List.length_replicate, List.getD_eq_getElem?_getD, List.getElem?_replicate]
    by_cases hj : j < L
    · simp only [hj, if_true, Option.getD_some, true_and]
      split_ifs <;> omega
    · simp only [hj, if_false, Option.getD_none, false_and, and_false]
      split_ifs <;> omega
  have hsum : ∀ j, cf.sumVector.getD j ratOps.zero =
      if j < 5 then 5 else if j < 10 then 8 else if j < 15 then 3 else 0 := by
    intro j
    rw [hcf, accumulate_sum, hfl'.2.2.2.2.2, hc1, accumulate_sum, accumulate_count]
    simp only [List.length_replicate, List.getD_eq_getElem?_getD, List.getElem?_replicate,
      ratOps]
    by_cases hj : j < L
    · simp only [hj, if_true, Option.getD_some, true_and]
      split_ifs <;> first | (exfalso; omega) | norm_num
    · simp only [hj, if_false, Option.getD_none, false_and, and_false]
      split_ifs <;> first | (exfalso; omega) | norm_num
  -- the report loop
  have henc : encode ratOps cf = [⟨0, 5, 5⟩, ⟨5, 10, 4⟩, ⟨10, 15, 3⟩] := by
    unfold encode
    rw [hlen, encodeFinish_tail ratOps _ _ 15 L hL
      (fun j h1 _ => by rw [hcount j]; split_ifs <;> omega),
      encodeLoop_congr ratOps cf.countVector [1, 1, 1, 1, 1, 2, 2, 2, 2, 2, 1, 1, 1, 1, 1]
        cf.sumVector [5, 5, 5, 5, 5, 8, 8, 8, 8, 8, 3, 3, 3, 3, 3] 15
        (fun j hj => by
          rw [hcount j, hsum j]
          interval_cases j <;> exact ⟨rfl, rfl⟩)]
    simp [encodeLoop, encodeStep, encodeFinish, encodeInit, ratOps, List.range_succ]
    norm_num
  simp [reportSpec, henc, printRun, hchrom, hstart, printf_d]

/-- C1, at a chromosome of 20 positions. -/
theorem scenario_two_intervals_witness :
    (15 : Nat) ≤ 20 ∧
    chrom_avg ratOps false [⟨"chr1", 0, 20, [], [], 0⟩]
        [⟨"chr1", 0, 10, 5⟩, ⟨"chr1", 5, 15, 3⟩] =
      .ok [⟨"chr1", 0, 5, 5⟩, ⟨"chr1", 5, 10, 4⟩, ⟨"chr1", 10, 15, 3⟩] :=
  ⟨by decide, scenario_two_intervals 20 (by decide)⟩

/-! ## A remark on the initial content of `prevChrom` -/

/-- The read loop starts with `prevChrom` empty and `chromSpec` null, so a
first record whose chromosome field is empty is not looked up: with a
chromosome registered under the empty name, the record is skipped and nothing
is reported.  This is why the statements about the read loop exclude an empty
name on one of the two sides. -/
theorem empty_name_first_record_skipped :
    chrom_avg ratOps false [⟨"", 0, 15, [], [], 0⟩] [⟨"", 0, 10, 5⟩] = .ok [] := by
  have h : allocate ratOps [(⟨"", 0, 15, [], [], 0⟩ : spec ℚ)] =
      .ok [⟨"", 0, 15, List.replicate 15 0, List.replicate 15 ratOps.zero, 0⟩] := rfl
  have h2 : processAll ratOps 0
      (mainInit [⟨"", 0, 15, List.replicate 15 0, List.replicate 15 ratOps.zero, 0⟩])
      [⟨"", 0, 10, 5⟩] =
      .ok (mainInit [⟨"", 0, 15, List.replicate 15 0, List.replicate 15 ratOps.zero, 0⟩]) := rfl
  have h3 : encode ratOps
      ⟨"", 0, 15, List.replicate 15 0, List.replicate 15 ratOps.zero, 0⟩ = [] :=
    (run_encoder_empty_aux ratOps _ (by
      intro i hi
      have hi15 : i < 15 := hi
      interval_cases i <;> rfl))
  unfold chrom_avg
  rw [h]
  simp only [Bool.false_eq_true, if_false]
  rw [h2]
  simp only [mainInit, reportAll, reportSpec, h3, List.map_nil, List.append_nil]

/-! ## The accumulator: counts, sums, saturation -/

/-- Accumulation below saturation, apart from the empty name.  Start from freshly allocated buffers
of chromosomes with pairwise distinct names and run the read loop over a list
of records none of which is fatal, where no record has an empty chromosome
field or no chromosome is registered under the empty name (the initial
content of `prevChrom`).  For a chromosome `cs`
and a tracked position `i`, if the number of records that name `cs` and whose
range of updated positions contains `i` is at most `maxCount`, then `count[i]`
is that number and `sum[i]` is the sum of the values of exactly those records,
added in input order; so `count[i] = 0` exactly when no record covered `i`. -/
theorem accumulator_below_saturation (D : DoubleOps V) (o : Nat)
    (specs chroms : List (spec V)) (rs : List (Interval V)) (st' : MainState V)
    (halloc : allocate D specs = .ok chroms)
    (hnd : (specs.map (fun cs => cs.chrom)).Nodup)
    (hname : (∀ r ∈ rs, r.chrom ≠ "") ∨ (∀ cs ∈ specs, cs.chrom ≠ ""))
    (hrun : processAll D o (mainInit chroms) rs = .ok st')
    (k : Nat) (cs : spec V) (hk : chroms[k]? = some cs) (i : Nat) (hi : i < cs.length)
    (hn : (coveringRecords cs o rs i).length ≤ maxCount) :
    countAt st' k i = (coveringRecords cs o rs i).length ∧
    sumAt D st' k i = sumValues D ((coveringRecords cs o rs i).map (fun r => r.val)) ∧
    (countAt st' k i = 0 ↔ coveringRecords cs o rs i = []) := by
  obtain ⟨h1, h2⟩ :=
    processAll_allocated D o specs chroms rs st' halloc hnd hname hrun k cs hk i hi
  have h3 : countAt st' k i = (coveringRecords cs o rs i).length := by
    rw [h1, Nat.min_eq_left hn]
  refine ⟨h3, ?_, ?_⟩
  · rw [h2, List.take_of_length_le (by rw [List.length_map]; exact hn)]
  · rw [h3, List.length_eq_zero]

/-- The theorem `accumulator_below_saturation` at the two records of the
scenario: position 7 of `chr1` is covered by
both, the count is 2 and the sum is `(0 + 5) + 3`. -/
theorem accumulator_below_saturation_witness :
    ∃ st', processAll ratOps 0
        (mainInit [⟨"chr1", 0, 15, List.replicate 15 0, List.replicate 15 ratOps.zero, 0⟩])
        [⟨"chr1", 0, 10, 5⟩, ⟨"chr1", 5, 15, 3⟩] = .ok st' ∧
      countAt st' 0 7 = 2 ∧ sumAt ratOps st' 0 7 = ratOps.add (ratOps.add ratOps.zero 5) 3 := by
  obtain ⟨st', h⟩ := processAll_total ratOps 0 [⟨"chr1", 0, 10, 5⟩, ⟨"chr1", 5, 15, 3⟩]
    (mainInit [⟨"chr1", 0, 15, List.replicate 15 0, List.replicate 15 ratOps.zero, 0⟩])
    (Or.inr ⟨rfl, rfl⟩) (Or.inl (by simp)) (by simp [mainInit])
  have hw := accumulator_below_saturation ratOps 0 [⟨"chr1", 0, 15, [], [], 0⟩]
    [⟨"chr1", 0, 15, List.replicate 15 0, List.replicate 15 ratOps.zero, 0⟩]
    [⟨"chr1", 0, 10, 5⟩, ⟨"chr1", 5, 15, 3⟩] st' rfl (by simp) (Or.inl (by simp)) h 0
    ⟨"chr1", 0, 15, List.replicate 15 0, List.replicate 15 ratOps.zero, 0⟩ rfl 7
    (by decide)
    (by unfold coveringRecords; exact Nat.le_trans (List.length_filter_le _ _) (by decide))
  refine ⟨st', h, ?_, ?_⟩
  · rw [hw.1]; simp [coveringRecords, covers, clipRange]
  · rw [hw.2.1]; simp [coveringRecords, covers, clipRange, sumValues]

/-- Saturation, apart from the empty name.  Under the conditions of
`accumulator_below_saturation`, if more than
`maxCount = 2^32 - 1` records cover position `i`, then `count[i] = maxCount`
and `sum[i]` is the sum of the values of the first `maxCount` covering records
only, so the average computed by the report loop is the one over exactly those
contributions; and once a counter has reached `maxCount`, one more iteration
of the read loop changes neither the counter nor the sum. -/
theorem accumulator_saturation (D : DoubleOps V) (o : Nat)
    (specs chroms : List (spec V)) (rs : List (Interval V)) (st' : MainState V)
    (halloc : allocate D specs = .ok chroms)
    (hnd : (specs.map (fun cs => cs.chrom)).Nodup)
    (hname : (∀ r ∈ rs, r.chrom ≠ "") ∨ (∀ cs ∈ specs, cs.chrom ≠ ""))
    (hrun : processAll D o (mainInit chroms) rs = .ok st')
    (k : Nat) (cs : spec V) (hk : chroms[k]? = some cs) (i : Nat) (hi : i < cs.length)
    (hn : maxCount < (coveringRecords cs o rs i).length) :
    maxCount = 2 ^ 32 - 1 ∧
    countAt st' k i = maxCount ∧
    sumAt D st' k i =
      sumValues D (((coveringRecords cs o rs i).take maxCount).map (fun r => r.val)) ∧
    D.divCount (sumAt D st' k i) (countAt st' k i) =
      D.divCount
        (sumValues D (((coveringRecords cs o rs i).take maxCount).map (fun r => r.val)))
        maxCount ∧
    (∀ (r : Interval V) (st2 : MainState V), processInterval D o st' r = .ok st2 →
      countAt st2 k i = maxCount ∧ sumAt D st2 k i = sumAt D st' k i) := by
  obtain ⟨h1, h2⟩ :=
    processAll_allocated D o specs chroms rs st' halloc hnd hname hrun k cs hk i hi
  have h3 : countAt st' k i = maxCount := by
    rw [h1, Nat.min_eq_right (Nat.le_of_lt hn)]
  have h4 : sumAt D st' k i =
      sumValues D (((coveringRecords cs o rs i).take maxCount).map (fun r => r.val)) := by
    rw [h2, List.map_take]
  refine ⟨rfl, h3, h4, by rw [h3, h4], ?_⟩
  intro r st2 hstep
  have h5 := processInterval_saturated D o st' st2 r hstep k i (by rw [h3])
  exact ⟨by rw [h5.1, h3], h5.2⟩

/-- C8 (counter invariant).  One iteration of the read loop leaves every
counter unchanged or increases it by exactly one, and never takes it above
`maxCount = 2^32 - 1`; along any run of the read loop every counter is
non-decreasing and bounded by `maxCount`; after a run started on freshly
allocated buffers every counter is at most `maxCount`. -/
theorem counter_invariant (D : DoubleOps V) (o : Nat) (k i : Nat) :
    maxCount = 2 ^ 32 - 1 ∧
    (∀ (st st' : MainState V) (r : Interval V), processInterval D o st r = .ok st' →
      (countAt st' k i = countAt st k i ∨ countAt st' k i = countAt st k i + 1) ∧
      (countAt st k i ≤ maxCount → countAt st' k i ≤ maxCount)) ∧
    (∀ (rs : List (Interval V)) (st st' : MainState V), processAll D o st rs = .ok st' →
      countAt st k i ≤ countAt st' k i ∧
      (countAt st k i ≤ maxCount → countAt st' k i ≤ maxCount)) ∧
    (∀ (specs chroms : List (spec V)) (rs : List (Interval V)) (st' : MainState V),
      allocate D specs = .ok chroms → processAll D o (mainInit chroms) rs = .ok st' →
      countAt st' k i ≤ maxCount) := by
  refine ⟨rfl, ?_, ?_, ?_⟩
  · intro st st' r h
    have h1 := processInterval_count D o st st' r h k i
    constructor
    · rcases h1 with h1 | h1
      · exact Or.inl h1
      · exact Or.inr h1.2
    · intro hle
      rcases h1 with h1 | h1 <;> omega
  · intro rs st st' h
    exact processAll_count D o rs st st' h k i
  · intro specs chroms rs st' halloc hrun
    apply (processAll_count D o rs (mainInit chroms) st' hrun k i).2
    obtain ⟨_, hbuf⟩ := allocate_ok D specs chroms halloc
    unfold countAt
    cases hk : (mainInit chroms).chroms[k]? with
    | none => exact Nat.zero_le _
    | some cs =>
      have hmem : cs ∈ chroms := List.mem_iff_getElem?.mpr ⟨k, hk⟩
      simp only
      rw [(hbuf cs hmem).2.1, List.getD_eq_getElem?_getD, List.getElem?_replicate]
      split <;> simp

/-- C8, at a concrete iteration: one record over positions `[0,2)` of a
chromosome whose counters are `[3, maxCount]`. -/
theorem counter_invariant_witness :
    ∃ st', processInterval ratOps 0
        (mainInit [⟨"chr1", 0, 2, [3, maxCount], [6, 1], 0⟩]) ⟨"chr1", 0, 2, 5⟩ = .ok st' ∧
      (countAt st' 0 1 = maxCount ∨ countAt st' 0 1 = maxCount + 1) ∧
      countAt st' 0 1 ≤ maxCount := by
  obtain ⟨st', h⟩ := processAll_total ratOps 0 [⟨"chr1", 0, 2, 5⟩]
    (mainInit [⟨"chr1", 0, 2, [3, maxCount], [6, 1], 0⟩])
    (Or.inr ⟨rfl, rfl⟩) (Or.inl (by simp)) (by simp [mainInit])
  have hstep : processInterval ratOps 0
      (mainInit [⟨"chr1", 0, 2, [3, maxCount], [6, 1], 0⟩]) ⟨"chr1", 0, 2, 5⟩ = .ok st' := by
    unfold processAll at h
    cases hp : processInterval ratOps 0
        (mainInit [⟨"chr1", 0, 2, [3, maxCount], [6, 1], 0⟩]) ⟨"chr1", 0, 2, 5⟩ with
    | error e => rw [hp] at h; simp at h
    | ok s1 =>
      rw [hp] at h
      simp only [processAll, Except.ok.injEq] at h
      rw [h]
  have hw := (counter_invariant ratOps 0 0 1).2.1
    (mainInit [⟨"chr1", 0, 2, [3, maxCount], [6, 1], 0⟩]) st' ⟨"chr1", 0, 2, 5⟩ hstep
  have hc : countAt (mainInit [(⟨"chr1", 0, 2, [3, maxCount], [6, 1], 0⟩ : spec ℚ)]) 0 1
      = maxCount := rfl
  rw [hc] at hw
  exact ⟨st', hstep, hw.1, hw.2 (Nat.le_refl _)⟩

/-- The theorem `accumulator_saturation` at an input of `2^32` identical
records covering position 0 of a
one-position chromosome: the counter ends at `maxCount`. -/
theorem accumulator_saturation_witness :
    ∃ st', processAll ratOps 0
        (mainInit [⟨"c", 0, 1, List.replicate 1 0, List.replicate 1 ratOps.zero, 0⟩])
        (List.replicate (2 ^ 32) ⟨"c", 0, 1, 1⟩) = .ok st' ∧
      countAt st' 0 0 = maxCount := by
  have key : ∀ n : Nat, maxCount < n →
      ∃ st', processAll ratOps 0
          (mainInit [⟨"c", 0, 1, List.replicate 1 0, List.replicate 1 ratOps.zero, 0⟩])
          (List.replicate n ⟨"c", 0, 1, 1⟩) = .ok st' ∧
        countAt st' 0 0 = maxCount := by
    intro n hn
    have hname : ∀ r ∈ List.replicate n (⟨"c", 0, 1, 1⟩ : Interval ℚ), r.chrom ≠ "" := by
      intro r hr
      rw [(List.mem_replicate.mp hr).2]
      decide
    obtain ⟨st', h⟩ := processAll_total ratOps 0 (List.replicate n ⟨"c", 0, 1, 1⟩)
      (mainInit [⟨"c", 0, 1, List.replicate 1 0, List.replicate 1 ratOps.zero, 0⟩])
      (Or.inr ⟨rfl, rfl⟩) (Or.inl hname)
      (by
        intro r hr cs hcs _ _
        rw [(List.mem_replicate.mp hr).2]
        simp only [mainInit, List.mem_singleton] at hcs
        rw [hcs])
    have hw := accumulator_saturation ratOps 0 [⟨"c", 0, 1, [], [], 0⟩]
      [⟨"c", 0, 1, List.replicate 1 0, List.replicate 1 ratOps.zero, 0⟩]
      (List.replicate n ⟨"c", 0, 1, 1⟩) st' rfl (by simp) (Or.inl hname) h 0
      ⟨"c", 0, 1, List.replicate 1 0, List.replicate 1 ratOps.zero, 0⟩ rfl 0 (by decide)
      (by
        unfold coveringRecords
        rw [List.filter_replicate, if_pos (by decide), List.length_replicate]
        exact hn)
    exact ⟨st', h, hw.2.1⟩
  exact key (2 ^ 32) (by decide)

/-! ## Clipping and the range error -/

/-- When `find_chromosome_spec` returns `NULL` no spec of the list has the
name. -/
theorem find_chromosome_spec_none_iff (l : List (spec V)) (chrom : String) :
    find_chromosome_spec l chrom = none ↔ ∀ cs ∈ l, cs.chrom ≠ chrom := by
  constructor
  · intro h cs hcs he
    induction l with
    | nil => cases hcs
    | cons x xs ih =>
      unfold find_chromosome_spec at h
      by_cases hx : chrom = x.chrom
      · rw [if_pos hx] at h
        cases h
      · rw [if_neg hx] at h
        rcases List.mem_cons.mp hcs with hc | hc
        · exact hx (hc ▸ he.symm)
        · apply ih _ hc
          cases hf : find_chromosome_spec xs chrom with
          | none => rfl
          | some k => rw [hf] at h; cases h
  · exact find_chromosome_spec_none l chrom

/-- The lookup finds a spec exactly when the list has one of that name. -/
theorem find_chromosome_spec_some_iff (l : List (spec V)) (chrom : String) :
    (∃ k, find_chromosome_spec l chrom = some k) ↔ ∃ cs ∈ l, cs.chrom = chrom := by
  constructor
  · rintro ⟨k, hk⟩
    obtain ⟨cs, h1, h2⟩ := find_chromosome_spec_sound l chrom k hk
    exact ⟨cs, List.mem_iff_getElem?.mpr ⟨k, h1⟩, h2⟩
  · rintro ⟨cs, hcs, he⟩
    cases hf : find_chromosome_spec l chrom with
    | some k => exact ⟨k, rfl⟩
    | none => exact absurd he ((find_chromosome_spec_none_iff l chrom).mp hf cs hcs)

/-- The cached lookup stays consistent over one iteration of the read loop,
whatever the record. -/
theorem processInterval_cache (D : DoubleOps V) (o : Nat) (st st' : MainState V)
    (r : Interval V) (hok : CacheOK st) (h : processInterval D o st r = .ok st') :
    CacheOK st' := by
  obtain ⟨h1, h2, _, _⟩ := processInterval_ok D o st st' r h
  have hn := processInterval_names D o st st' r h
  unfold CacheOK
  rw [h1, h2, find_chromosome_spec_congr st.chroms st'.chroms hn]
  unfold resolveChrom
  by_cases hc : r.chrom ≠ st.prevChrom
  · rw [if_pos hc]
    cases hf : find_chromosome_spec st.chroms r.chrom with
    | none => exact Or.inl hf.symm
    | some k => exact Or.inl hf.symm
  · rw [if_neg hc]
    exact hok

/-- The read loop keeps the names of the list and the consistency of the
cached lookup. -/
theorem processAll_names_cache (D : DoubleOps V) (o : Nat) (rs : List (Interval V)) :
    ∀ (st st' : MainState V), CacheOK st → processAll D o st rs = .ok st' →
      CacheOK st' ∧
      st'.chroms.map (fun cs => cs.chrom) = st.chroms.map (fun cs => cs.chrom) := by
  induction rs with
  | nil =>
    intro st st' hok h
    simp only [processAll, Except.ok.injEq] at h
    subst h
    exact ⟨hok, rfl⟩
  | cons r rs ih =>
    intro st st' hok h
    unfold processAll at h
    cases hp : processInterval D o st r with
    | error e => rw [hp] at h; cases h
    | ok st1 =>
      rw [hp] at h
      obtain ⟨h1, h2⟩ := ih st1 st' (processInterval_cache D o st st1 r hok hp) h
      exact ⟨h1, h2.trans (processInterval_names D o st st1 r hp)⟩

/-- The state in which the read loop is entered has a consistent cache. -/
theorem cacheOK_mainInit (chroms : List (spec V)) : CacheOK (mainInit chroms) :=
  Or.inr ⟨rfl, rfl⟩

/-- A record whose name no spec has leaves the list as it is. -/
theorem processInterval_unmatched (D : DoubleOps V) (o : Nat) (st : MainState V)
    (r : Interval V) (hok : CacheOK st) (hun : ∀ cs ∈ st.chroms, cs.chrom ≠ r.chrom) :
    ∃ st', processInterval D o st r = .ok st' ∧ st'.chroms = st.chroms := by
  have hf : find_chromosome_spec st.chroms r.chrom = none :=
    find_chromosome_spec_none st.chroms r.chrom hun
  unfold processInterval resolveChrom
  by_cases hc : r.chrom ≠ st.prevChrom
  · simp only [if_pos hc, hf]
    exact ⟨_, rfl, rfl⟩
  · simp only [if_neg hc]
    have hc' : r.chrom = st.prevChrom := by simpa using hc
    have hnone : st.chromSpec = none := by
      rcases hok with h | h
      · rw [h, ← hc', hf]
      · exact h.2
    simp only [hnone]
    exact ⟨_, rfl, rfl⟩

/-- C11 (unmatched chromosome).  `find_chromosome_spec` returns a spec
exactly when some spec of the list has the name looked up, and the spec it
returns has that name.  In every state the read loop reaches, a record whose
name no spec of the list has is not an error and leaves the whole list, and
so every count vector, sum vector and batch number, unchanged, whatever its
start, end and value. -/
theorem unmatched_chromosome (D : DoubleOps V) (o : Nat) (chroms : List (spec V))
    (rs : List (Interval V)) (st : MainState V) (r : Interval V)
    (hrun : processAll D o (mainInit chroms) rs = .ok st)
    (hun : ∀ cs ∈ chroms, cs.chrom ≠ r.chrom) :
    (∀ chrom, (∃ k, find_chromosome_spec chroms chrom = some k) ↔
      ∃ cs ∈ chroms, cs.chrom = chrom) ∧
    (∀ chrom k, find_chromosome_spec chroms chrom = some k →
      ∃ cs, chroms[k]? = some cs ∧ cs.chrom = chrom) ∧
    ∃ st', processInterval D o st r = .ok st' ∧ st'.chroms = st.chroms := by
  refine ⟨find_chromosome_spec_some_iff chroms, find_chromosome_spec_sound chroms, ?_⟩
  obtain ⟨hok, hn⟩ := processAll_names_cache D o rs (mainInit chroms) st
    (cacheOK_mainInit chroms) hrun
  apply processInterval_unmatched D o st r hok
  intro cs hcs he
  have hmem : cs.chrom ∈ st.chroms.map (fun c => c.chrom) := List.mem_map.mpr ⟨cs, hcs, rfl⟩
  rw [hn] at hmem
  obtain ⟨c0, hc0, h0⟩ := List.mem_map.mp hmem
  exact hun c0 hc0 (h0.trans he)

/-- The theorem `unmatched_chromosome` at a concrete input: after a record
for the registered `chr1`, a record for `chr2` changes nothing. -/
theorem unmatched_chromosome_witness :
    ∃ st : MainState ℚ,
      processAll ratOps 0 (mainInit [⟨"chr1", 0, 3, [0, 0, 0], [0, 0, 0], 0⟩])
        [⟨"chr1", 0, 2, 5⟩] = .ok st ∧
      ∃ st', processInterval ratOps 0 st ⟨"chr2", 1, 9, 7⟩ = .ok st' ∧
        st'.chroms = st.chroms := by
  obtain ⟨st, hst⟩ := processAll_total ratOps 0 [(⟨"chr1", 0, 2, 5⟩ : Interval ℚ)]
    (mainInit [⟨"chr1", 0, 3, [0, 0, 0], [0, 0, 0], 0⟩]) (cacheOK_mainInit _)
    (Or.inl (by simp)) (by simp [mainInit])
  exact ⟨st, hst, (unmatched_chromosome ratOps 0 _ _ st ⟨"chr2", 1, 9, 7⟩ hst
    (by simp)).2.2⟩

/-! ## Option parsing: which branch an argument takes -/

/-- Prefixes compose. -/
theorem hasPrefix_trans (a p q : String) (hq : hasPrefix p q = true)
    (hp : hasPrefix a p = true) : hasPrefix a q = true := by
  unfold hasPrefix at *
  rw [List.isPrefixOf_iff_prefix] at *
  exact hq.trans hp

/-- An argument that does not start with `--` fails every test for an
option that starts with `--`. -/
theorem hasPrefix_of_not_dashes (arg p : String) (h : hasPrefix arg "--" = false)
    (hp : hasPrefix p "--" = true) : hasPrefix arg p = false ∧ arg ≠ p := by
  constructor
  · cases hq : hasPrefix arg p with
    | false => rfl
    | true => rw [hasPrefix_trans arg p "--" hp hq] at h; cases h
  · intro he
    rw [he, hp] at h
    cases h

/-- A chromosome argument goes through all option tests of the argument
loop and reaches lines 262-302. -/
theorem parseArg_chromArg (S : Scanf V) (st : Options V) (arg : String)
    (h : isChromArg arg = true) :
    parseArg S st arg =
      match parseChromArg S arg.data with
      | .error e => .error e
      | .ok (name, chromStart, chromLength) =>
        match registerChrom st.chromsOfInterest (String.mk name) chromStart chromLength with
        | .error e => .error e
        | .ok chroms => .ok { st with chromsOfInterest := chroms } := by
  unfold isChromArg at h
  simp only [Bool.and_eq_true, Bool.not_eq_true', Bool.not_eq_eq_eq_not, Bool.not_true] at h
  obtain ⟨hL, hd⟩ := h
  have h1 := hasPrefix_of_not_dashes arg "--L=" hd (by decide)
  have h2 := hasPrefix_of_not_dashes arg "--value=" hd (by decide)
  have h3 := hasPrefix_of_not_dashes arg "--precision=" hd (by decide)
  have h4 := hasPrefix_of_not_dashes arg "--origin=one" hd (by decide)
  have h5 := hasPrefix_of_not_dashes arg "--origin=1" hd (by decide)
  have h6 := hasPrefix_of_not_dashes arg "--origin=zero" hd (by decide)
  have h7 := hasPrefix_of_not_dashes arg "--origin=0" hd (by decide)
  have h8 := hasPrefix_of_not_dashes arg "--progress" hd (by decide)
  have h9 := hasPrefix_of_not_dashes arg "--progress=chromosome" hd (by decide)
  have h10 := hasPrefix_of_not_dashes arg "--progress=chromosomes" hd (by decide)
  have h11 := hasPrefix_of_not_dashes arg "--version" hd (by decide)
  unfold parseArg
  simp only [hL, hd, h1.1, h2.1, h3.1, h4.2, h5.2, h6.2, h7.2, h8.2, h9.2, h10.2, h11.2,
    Bool.or_self, Bool.false_eq_true, if_false, or_self]

/-- An argument that is an option leaves the chromosome list alone, and
only an `L=` argument changes `allChromLength`. -/
theorem parseArg_option (S : Scanf V) (st st' : Options V) (arg : String)
    (hc : isChromArg arg = false) (h : parseArg S st arg = .ok st') :
    st'.chromsOfInterest = st.chromsOfInterest ∧
    (isLengthArg arg = false → st'.allChromLength = st.allChromLength) := by
  unfold parseArg at h
  unfold isChromArg at hc
  unfold isLengthArg
  repeat' split at h
  all_goals first
    | (cases h
       done)
    | (simp only [Except.ok.injEq] at h
       subst h
       refine ⟨rfl, fun hl => ?_⟩
       first
         | rfl
         | (exfalso
            simp_all))
    | (exfalso
       simp_all)

/-- An `L=` argument takes the first branch of the argument loop. -/
theorem parseArg_lengthArg (S : Scanf V) (st : Options V) (arg : String)
    (h : isLengthArg arg = true) :
    parseArg S st arg =
      match string_to_unitized_int S (argVal arg.data) true with
      | .error e => .error (.conversion e)
      | .ok tempInt =>
        if tempInt < 0 then .error (.usage .negative_length)
        else
          .ok { st with allChromLength :=
            if tempInt.toNat % 2 ^ 32 = 0 then 2 ^ 32 - 1 else tempInt.toNat % 2 ^ 32 } := by
  unfold isLengthArg at h
  unfold parseArg
  rw [if_pos h]

/-- The name under which lines 262-283 register an argument is the text
before its first colon. -/
theorem parseChromArg_name (S : Scanf V) (arg : String) (name : List Char) (a len : Nat)
    (h : parseChromArg S arg.data = .ok (name, a, len)) : String.mk name = chromName arg := by
  unfold parseChromArg at h
  unfold chromName
  cases h1 : splitAtChar ':' arg.data with
  | none =>
    rw [h1] at h
    simp only [Except.ok.injEq, Prod.mk.injEq] at h
    rw [← h.1]
  | some p =>
    obtain ⟨nm, rest⟩ := p
    rw [h1] at h
    simp only at h
    cases h2 : splitAtChar ':' rest with
    | none =>
      rw [h2] at h
      simp only at h
      cases h3 : string_to_u32 S rest with
      | error e => rw [h3] at h; cases h
      | ok v =>
        rw [h3] at h
        simp only [Except.ok.injEq, Prod.mk.injEq] at h
        rw [← h.1]
    | some q =>
      obtain ⟨s, e⟩ := q
      rw [h2] at h
      simp only at h
      cases h3 : string_to_u32 S s with
      | error err => rw [h3] at h; cases h
      | ok v =>
        rw [h3] at h
        simp only at h
        cases h4 : string_to_u32 S e with
        | error err => rw [h4] at h; cases h
        | ok w =>
          rw [h4] at h
          simp only [Except.ok.injEq, Prod.mk.injEq] at h
          rw [← h.1]

/-- Lines 285-302 fail exactly when the name is in the list already. -/
theorem registerChrom_dup (chroms : List (spec V)) (name : String) (a len : Nat)
    (h : name ∈ chroms.map (fun cs => cs.chrom)) :
    registerChrom chroms name a len = .error (.usage (.more_than_once name)) := by
  unfold registerChrom
  rw [if_pos]
  rw [List.any_eq_true]
  obtain ⟨cs, hcs, he⟩ := List.mem_map.mp h
  exact ⟨cs, hcs, by simp [he]⟩

/-- Lines 285-302 when they succeed: the name is new and the spec is put at
the end of the list. -/
theorem registerChrom_ok (chroms l : List (spec V)) (name : String) (a len : Nat)
    (h : registerChrom chroms name a len = .ok l) :
    name ∉ chroms.map (fun cs => cs.chrom) ∧ l = chroms ++ [⟨name, a, len, [], [], 0⟩] := by
  unfold registerChrom at h
  by_cases hd : (chroms.any (fun cs => decide (name = cs.chrom))) = true
  · rw [if_pos hd] at h
    cases h
  · rw [if_neg hd] at h
    simp only [Except.ok.injEq] at h
    refine ⟨fun hm => hd ?_, h.symm⟩
    rw [List.any_eq_true]
    obtain ⟨cs, hcs, he⟩ := List.mem_map.mp hm
    exact ⟨cs, hcs, by simp [he]⟩

/-- A chromosome argument that the argument loop accepts: its name is new,
and one spec with the parsed start and length is put at the end of the list;
nothing else changes. -/
theorem parseArg_chrom_ok (S : Scanf V) (st st' : Options V) (arg : String)
    (hc : isChromArg arg = true) (h : parseArg S st arg = .ok st') :
    ∃ name a len, parseChromArg S arg.data = .ok (name, a, len) ∧
      chromName arg ∉ st.chromsOfInterest.map (fun cs => cs.chrom) ∧
      st' = { st with chromsOfInterest :=
        st.chromsOfInterest ++ [⟨chromName arg, a, len, [], [], 0⟩] } := by
  rw [parseArg_chromArg S st arg hc] at h
  cases h1 : parseChromArg S arg.data with
  | error e => rw [h1] at h; cases h
  | ok p =>
    obtain ⟨name, a, len⟩ := p
    rw [h1] at h
    simp only at h
    have hn := parseChromArg_name S arg name a len h1
    cases h2 : registerChrom st.chromsOfInterest (String.mk name) a len with
    | error e => rw [h2] at h; cases h
    | ok l =>
      rw [h2] at h
      simp only [Except.ok.injEq] at h
      obtain ⟨h3, h4⟩ := registerChrom_ok st.chromsOfInterest l (String.mk name) a len h2
      rw [hn] at h3 h4
      exact ⟨name, a, len, rfl, h3, by rw [← h, h4]⟩

/-- A chromosome argument is not an `L=` argument. -/
theorem isLengthArg_of_chromArg (arg : String) (h : isChromArg arg = true) :
    isLengthArg arg = false := by
  unfold isChromArg at h
  simp only [Bool.and_eq_true, Bool.not_eq_true', Bool.not_eq_eq_eq_not, Bool.not_true] at h
  unfold isLengthArg
  rw [h.1, (hasPrefix_of_not_dashes arg "--L=" h.2 (by decide)).1]
  rfl

/-- Only an `L=` argument changes `allChromLength`. -/
theorem parseArg_keep_length (S : Scanf V) (st st' : Options V) (arg : String)
    (hl : isLengthArg arg = false) (h : parseArg S st arg = .ok st') :
    st'.allChromLength = st.allChromLength := by
  cases hc : isChromArg arg with
  | true =>
    obtain ⟨name, a, len, _, _, h3⟩ := parseArg_chrom_ok S st st' arg hc h
    rw [h3]
  | false => exact (parseArg_option S st st' arg hc h).2 hl

/-! ## Option parsing: the argument loop -/

/-- The argument loop over a concatenation. -/
theorem parseArgs_append (S : Scanf V) (xs ys : List String) :
    ∀ st : Options V, parseArgs S st (xs ++ ys) =
      match parseArgs S st xs with
      | .error e => .error e
      | .ok st' => parseArgs S st' ys := by
  induction xs with
  | nil => intro st; rfl
  | cons x xs ih =>
    intro st
    simp only [List.cons_append, parseArgs]
    cases hx : parseArg S st x with
    | error e => rfl
    | ok st1 => exact ih st1

/-- The specs the argument loop adds to the list are those of the
chromosome arguments, in the order of the arguments. -/
theorem parseArgs_specs (S : Scanf V) (argv : List String) :
    ∀ st st' : Options V, parseArgs S st argv = .ok st' →
      ∃ new, st'.chromsOfInterest = st.chromsOfInterest ++ new ∧
        List.Forall₂ (Registers S) (argv.filter isChromArg) new := by
  induction argv with
  | nil =>
    intro st st' h
    simp only [parseArgs, Except.ok.injEq] at h
    subst h
    exact ⟨[], by simp, List.Forall₂.nil⟩
  | cons x xs ih =>
    intro st st' h
    unfold parseArgs at h
    cases hx : parseArg S st x with
    | error e => rw [hx] at h; cases h
    | ok st1 =>
      rw [hx] at h
      obtain ⟨new, h1, h2⟩ := ih st1 st' h
      cases hc : isChromArg x with
      | true =>
        obtain ⟨name, a, len, h3, _, h5⟩ := parseArg_chrom_ok S st st1 x hc hx
        refine ⟨⟨chromName x, a, len, [], [], 0⟩ :: new, ?_, ?_⟩
        · rw [h1, h5]
          simp
        · rw [List.filter_cons_of_pos hc]
          exact List.Forall₂.cons ⟨name, a, len, h3, rfl⟩ h2
      | false =>
        refine ⟨new, ?_, ?_⟩
        · rw [h1, (parseArg_option S st st1 x hc hx).1]
        · rw [List.filter_cons_of_neg (by simp [hc])]
          exact h2

/-- The names of the specs registered for a list of chromosome arguments. -/
theorem registers_names (S : Scanf V) (args : List String) (new : List (spec V))
    (h : List.Forall₂ (Registers S) args new) :
    new.map (fun cs => cs.chrom) = args.map chromName := by
  induction h with
  | nil => rfl
  | cons hab _ ih =>
    obtain ⟨name, a, len, _, h2⟩ := hab
    simp only [List.map_cons, ih, h2]

/-- The argument loop keeps the names of the list pairwise different. -/
theorem parseArgs_nodup (S : Scanf V) (argv : List String) :
    ∀ st st' : Options V, parseArgs S st argv = .ok st' →
      (st.chromsOfInterest.map (fun cs => cs.chrom)).Nodup →
      (st'.chromsOfInterest.map (fun cs => cs.chrom)).Nodup := by
  induction argv with
  | nil =>
    intro st st' h hnd
    simp only [parseArgs, Except.ok.injEq] at h
    subst h
    exact hnd
  | cons x xs ih =>
    intro st st' h hnd
    unfold parseArgs at h
    cases hx : parseArg S st x with
    | error e => rw [hx] at h; cases h
    | ok st1 =>
      rw [hx] at h
      apply ih st1 st' h
      cases hc : isChromArg x with
      | true =>
        obtain ⟨name, a, len, _, h4, h5⟩ := parseArg_chrom_ok S st st1 x hc hx
        rw [h5]
        simp only [List.map_append, List.map_cons, List.map_nil]
        rw [List.nodup_append]
        refine ⟨hnd, List.nodup_singleton _, ?_⟩
        intro a1 ha1 ha2
        rw [List.mem_singleton] at ha2
        exact h4 (ha2 ▸ ha1)
      | false =>
        rw [(parseArg_option S st st1 x hc hx).1]
        exact hnd

/-- Without an `L=` argument the argument loop leaves `allChromLength` as it
is. -/
theorem parseArgs_keep_length (S : Scanf V) (argv : List String) :
    ∀ st st' : Options V, parseArgs S st argv = .ok st' →
      (∀ a ∈ argv, isLengthArg a = false) → st'.allChromLength = st.allChromLength := by
  induction argv with
  | nil =>
    intro st st' h _
    simp only [parseArgs, Except.ok.injEq] at h
    subst h
    rfl
  | cons x xs ih =>
    intro st st' h hl
    unfold parseArgs at h
    cases hx : parseArg S st x with
    | error e => rw [hx] at h; cases h
    | ok st1 =>
      rw [hx] at h
      rw [ih st1 st' h (fun a ha => hl a (List.mem_cons_of_mem _ ha)),
        parseArg_keep_length S st st1 x (hl x (List.mem_cons_self _ _)) hx]

/-- The successful end of `parse_options`: the argument loop ended with a
list that is not empty, and the default length went to the specs without a
length. -/
theorem parse_options_ok (S : Scanf V) (argv : List String) (opts : Options V)
    (h : parse_options S argv = .ok opts) :
    ∃ st, parseArgs S optionsInit argv = .ok st ∧ st.chromsOfInterest ≠ [] ∧
      opts = { st with
        chromsOfInterest :=
          st.chromsOfInterest.map (assignDefaultLength (defaultLength st.allChromLength))
        allChromLength := defaultLength st.allChromLength } := by
  unfold parse_options at h
  cases h1 : parseArgs S optionsInit argv with
  | error e => rw [h1] at h; cases h
  | ok st =>
    rw [h1] at h
    simp only at h
    cases h2 : st.chromsOfInterest with
    | nil => rw [h2] at h; cases h
    | cons c cs =>
      rw [h2] at h
      simp only [Except.ok.injEq] at h
      exact ⟨st, rfl, by rw [h2]; exact List.cons_ne_nil _ _, by rw [← h, h2]⟩

/-- Giving a spec its default length does not touch its name and start. -/
theorem assignDefaultLength_fields (d : Nat) (cs : spec V) :
    (assignDefaultLength d cs).chrom = cs.chrom ∧
    (assignDefaultLength d cs).start = cs.start ∧
    (assignDefaultLength d cs).length = (if cs.length = 0 then d else cs.length) := by
  unfold assignDefaultLength
  by_cases h : cs.length = 0
  · rw [if_pos h, if_pos h]
    exact ⟨rfl, rfl, rfl⟩
  · rw [if_neg h, if_neg h]
    exact ⟨rfl, rfl, rfl⟩

/-- The names on the list `parse_options` builds: those of the chromosome
arguments, in the order of the command line, no two equal. -/
theorem parse_options_names (S : Scanf V) (argv : List String) (opts : Options V)
    (h : parse_options S argv = .ok opts) :
    opts.chromsOfInterest.map (fun cs => cs.chrom) = (argv.filter isChromArg).map chromName ∧
    (opts.chromsOfInterest.map (fun cs => cs.chrom)).Nodup := by
  obtain ⟨st, h1, _, h3⟩ := parse_options_ok S argv opts h
  obtain ⟨new, h4, h5⟩ := parseArgs_specs S argv optionsInit st h1
  have hnd := parseArgs_nodup S argv optionsInit st h1 List.nodup_nil
  have hmap : opts.chromsOfInterest.map (fun cs => cs.chrom) =
      st.chromsOfInterest.map (fun cs => cs.chrom) := by
    rw [h3]
    simp only [List.map_map]
    apply List.map_congr_left
    intro cs _
    exact (assignDefaultLength_fields _ cs).1
  rw [hmap]
  refine ⟨?_, hnd⟩
  rw [h4]
  simp only [optionsInit, List.nil_append]
  exact registers_names S _ new h5

/-! ## Registration of chromosomes -/

/-- C12 (registration uniqueness).  A chromosome argument whose name, the
text before its first colon, is the name of a spec already on the list makes
the argument loop fail: with the message "can't specify ... more than once"
when its start and length parts convert, with the failure of
`string_to_u32` otherwise.  Whenever `parse_options` succeeds, the names on
the list are pairwise different and are the names of the chromosome
arguments in the order of the command line. -/
theorem registration_uniqueness (S : Scanf V) (st : Options V) (arg : String)
    (argv : List String) (opts : Options V) :
    (isChromArg arg = true →
      chromName arg ∈ st.chromsOfInterest.map (fun cs => cs.chrom) →
      (∃ e, parseArg S st arg = .error e) ∧
      parseArg S st arg =
        match parseChromArg S arg.data with
        | .error e => .error e
        | .ok _ => .error (.usage (.more_than_once (chromName arg)))) ∧
    (parse_options S argv = .ok opts →
      (opts.chromsOfInterest.map (fun cs => cs.chrom)).Nodup ∧
      opts.chromsOfInterest.map (fun cs => cs.chrom) =
        (argv.filter isChromArg).map chromName) := by
  constructor
  · intro hc hdup
    have key : parseArg S st arg =
        match parseChromArg S arg.data with
        | .error e => .error e
        | .ok _ => .error (.usage (.more_than_once (chromName arg))) := by
      rw [parseArg_chromArg S st arg hc]
      cases h1 : parseChromArg S arg.data with
      | error e => rfl
      | ok p =>
        obtain ⟨name, a, len⟩ := p
        have hn := parseChromArg_name S arg name a len h1
        simp only
        rw [hn, registerChrom_dup st.chromsOfInterest (chromName arg) a len hdup]
    refine ⟨?_, key⟩
    rw [key]
    cases h1 : parseChromArg S arg.data with
    | error e => exact ⟨e, rfl⟩
    | ok p => exact ⟨_, rfl⟩
  · intro h
    exact ⟨(parse_options_names S argv opts h).2, (parse_options_names S argv opts h).1⟩

/-- The theorem `registration_uniqueness` at concrete inputs: `chr1:5` after
`chr1` is refused, and `chr1 chr2:7` builds the list `chr1`, `chr2`. -/
theorem registration_uniqueness_witness :
    parseArg decScanf (⟨[⟨"chr1", 0, 0, [], [], 0⟩], 3, 0, false, false, false, 0⟩ : Options ℚ)
        "chr1:5" = .error (.usage (.more_than_once "chr1")) ∧
    ∃ opts : Options ℚ, parse_options decScanf ["chr1", "chr2:7"] = .ok opts ∧
      (opts.chromsOfInterest.map (fun cs => cs.chrom)).Nodup ∧
      opts.chromsOfInterest.map (fun cs => cs.chrom) = ["chr1", "chr2"] :=
  ⟨((registration_uniqueness decScanf
      (⟨[⟨"chr1", 0, 0, [], [], 0⟩], 3, 0, false, false, false, 0⟩ : Options ℚ) "chr1:5"
      [] optionsInit).1 rfl (List.mem_singleton.mpr rfl)).2,
   _, rfl,
   (registration_uniqueness decScanf optionsInit "" ["chr1", "chr2:7"] _).2 rfl⟩

/-! ## Default lengths -/

/-- The allocation loop stops at the first spec whose length is zero. -/
theorem allocate_zero (D : DoubleOps V) (l : List (spec V))
    (h : ∃ cs ∈ l, cs.length = 0) :
    ∃ chrom, allocate D l = .error (.no_length_specified chrom) := by
  induction l with
  | nil =>
    obtain ⟨cs, hcs, _⟩ := h
    cases hcs
  | cons x xs ih =>
    unfold allocate
    by_cases hx : x.length = 0
    · rw [if_pos hx]
      exact ⟨x.chrom, rfl⟩
    · rw [if_neg hx]
      obtain ⟨cs, hcs, hz⟩ := h
      rcases List.mem_cons.mp hcs with hc | hc
      · exact absurd (hc ▸ hz) hx
      · obtain ⟨chrom, hch⟩ := ih ⟨cs, hc, hz⟩
        rw [hch]
        exact ⟨chrom, rfl⟩

/-- The value of `allChromLength` when the argument loop ends, in terms of
the last `L=` argument. -/
theorem parseArgs_last_length (S : Scanf V) (pre post : List String) (larg : String)
    (st0 st : Options V) (n : Int)
    (hloop : parseArgs S st0 (pre ++ larg :: post) = .ok st)
    (hl : isLengthArg larg = true) (hpost : ∀ a ∈ post, isLengthArg a = false)
    (hn : string_to_unitized_int S (argVal larg.data) true = .ok n) :
    0 ≤ n ∧ st.allChromLength =
      (if n.toNat % 2 ^ 32 = 0 then 2 ^ 32 - 1 else n.toNat % 2 ^ 32) := by
  rw [parseArgs_append] at hloop
  cases h1 : parseArgs S st0 pre with
  | error e => rw [h1] at hloop; cases hloop
  | ok st1 =>
    rw [h1] at hloop
    simp only at hloop
    unfold parseArgs at hloop
    cases h2 : parseArg S st1 larg with
    | error e => rw [h2] at hloop; cases hloop
    | ok st2 =>
      rw [h2] at hloop
      simp only at hloop
      have hk := parseArgs_keep_length S post st2 st hloop hpost
      rw [parseArg_lengthArg S st1 larg hl, hn] at h2
      simp only at h2
      by_cases hneg : n < 0
      · rw [if_pos hneg] at h2
        cases h2
      · rw [if_neg hneg] at h2
        simp only [Except.ok.injEq] at h2
        refine ⟨by omega, ?_⟩
        rw [hk, ← h2]

/-- C13 (default-length resolution).  When `parse_options` succeeds, the
list it leaves is the list of the argument loop with each spec of length
zero given the default length and every other spec untouched.  The default
length is 250,000,000 when there is no `L=` argument; it is `n` when the
last `L=` argument has the value `n` with `0 < n <= INT_MAX`; it is zero when
that value is zero, and then, if some spec has no length of its own, the
program ends at `no_length_specified` whatever the input is. -/
theorem default_length_resolution (S : Scanf V) (argv : List String) (st opts : Options V)
    (hloop : parseArgs S optionsInit argv = .ok st)
    (hopts : parse_options S argv = .ok opts) :
    opts.chromsOfInterest =
      st.chromsOfInterest.map (assignDefaultLength opts.allChromLength) ∧
    (∀ cs : spec V, cs.length ≠ 0 → assignDefaultLength opts.allChromLength cs = cs) ∧
    (∀ cs : spec V, cs.length = 0 →
      assignDefaultLength opts.allChromLength cs = { cs with length := opts.allChromLength }) ∧
    ((∀ a ∈ argv, isLengthArg a = false) → opts.allChromLength = 250000000) ∧
    (∀ (pre post : List String) (larg : String) (n : Int),
      argv = pre ++ larg :: post → isLengthArg larg = true →
      (∀ a ∈ post, isLengthArg a = false) →
      string_to_unitized_int S (argVal larg.data) true = .ok n →
      (0 < n → n ≤ INT_MAX → opts.allChromLength = n.toNat) ∧
      (n = 0 → opts.allChromLength = 0 ∧
        ((∃ cs ∈ st.chromsOfInterest, cs.length = 0) →
          ∀ (D : DoubleOps V) (input : List (Interval V)), ∃ chrom,
            chrom_avg D opts.originOne opts.chromsOfInterest input =
              .error (.no_length_specified chrom)))) := by
  obtain ⟨st1, h1, _, h3⟩ := parse_options_ok S argv opts hopts
  rw [hloop] at h1
  simp only [Except.ok.injEq] at h1
  subst h1
  have hlen : opts.allChromLength = defaultLength st.allChromLength := by rw [h3]
  have hch : opts.chromsOfInterest =
      st.chromsOfInterest.map (assignDefaultLength opts.allChromLength) := by
    rw [hlen, h3]
  refine ⟨hch, ?_, ?_, ?_, ?_⟩
  · intro cs hcs
    unfold assignDefaultLength
    rw [if_neg hcs]
  · intro cs hcs
    unfold assignDefaultLength
    rw [if_pos hcs]
  · intro hno
    rw [hlen, parseArgs_keep_length S argv optionsInit st hloop hno]
    rfl
  · intro pre post larg n hargv hl hpost hn
    rw [hargv] at hloop
    obtain ⟨hn0, hval⟩ := parseArgs_last_length S pre post larg optionsInit st n hloop hl hpost hn
    constructor
    · intro hpos hmax
      unfold INT_MAX at hmax
      have hlt : n.toNat < 2 ^ 31 := by omega
      have hposn : 0 < n.toNat := by omega
      have hmod : n.toNat % 2 ^ 32 = n.toNat := Nat.mod_eq_of_lt (by omega)
      rw [hlen, hval, hmod, if_neg (by omega)]
      unfold defaultLength
      rw [if_neg (by omega), if_neg (by omega)]
    · intro hz
      have hd : opts.allChromLength = 0 := by
        rw [hlen, hval, hz]
        rfl
      refine ⟨hd, ?_⟩
      rintro ⟨cs, hcs, hcz⟩ D input
      have hmem : assignDefaultLength opts.allChromLength cs ∈ opts.chromsOfInterest := by
        rw [hch]
        exact List.mem_map.mpr ⟨cs, hcs, rfl⟩
      have hzero : (assignDefaultLength opts.allChromLength cs).length = 0 := by
        rw [(assignDefaultLength_fields _ cs).2.2, if_pos hcz, hd]
      obtain ⟨chrom, hal⟩ := allocate_zero D opts.chromsOfInterest ⟨_, hmem, hzero⟩
      exact ⟨chrom, by unfold chrom_avg; rw [hal]⟩

/-- The theorem `default_length_resolution` at a concrete command line:
with `chr1 chr2:7 L=5` the spec `chr1` gets length 5 and `chr2` keeps 7. -/
theorem default_length_resolution_witness :
    ∃ st opts : Options ℚ,
      parseArgs decScanf optionsInit ["chr1", "chr2:7", "L=5"] = .ok st ∧
      parse_options decScanf ["chr1", "chr2:7", "L=5"] = .ok opts ∧
      opts.allChromLength = 5 ∧
      opts.chromsOfInterest.map (fun cs => (cs.chrom, cs.length)) = [("chr1", 5), ("chr2", 7)] :=
  ⟨_, _, rfl, rfl,
    ((default_length_resolution decScanf ["chr1", "chr2:7", "L=5"] _ _ rfl rfl).2.2.2.2
      ["chr1", "chr2:7"] [] "L=5" 5 rfl rfl (by simp) rfl).1 (by decide) (by decide),
    rfl⟩

/-! ## Window specifications -/

/-- The value `string_to_u32` returns is a `u32`. -/
theorem string_to_u32_lt (S : Scanf V) (s : List Char) (v : Nat)
    (h : string_to_u32 S s = .ok v) : v < 2 ^ 32 := by
  unfold string_to_u32 at h
  simp only at h
  split at h
  · cases h
  · split at h
    · cases h
    · split at h
      · cases h
      · simp only [Except.ok.injEq] at h
        rw [← h]
        exact Nat.mod_lt _ (by decide)

/-- The split at the first occurrence of a character. -/
theorem splitAtChar_append (c : Char) (a b : List Char) (h : c ∉ a) :
    splitAtChar c (a ++ c :: b) = some (a, b) := by
  induction a with
  | nil => simp [splitAtChar]
  | cons x xs ih =>
    have hx : ¬ x = c := fun he => h (he ▸ List.mem_cons_self _ _)
    have hi := ih (fun hm => h (List.mem_cons_of_mem _ hm))
    rw [List.cons_append]
    unfold splitAtChar
    rw [if_neg hx, hi]

/-- Lines 277-283 on an argument `name:start:end`. -/
theorem parseChromArg_window (S : Scanf V) (name s e : List Char) (a b : Nat)
    (hname : ':' ∉ name) (hs : ':' ∉ s)
    (ha : string_to_u32 S s = .ok a) (hb : string_to_u32 S e = .ok b) :
    parseChromArg S (name ++ ':' :: (s ++ ':' :: e)) =
      .ok (name, a, (b + 2 ^ 32 - a) % 2 ^ 32) := by
  unfold parseChromArg
  rw [splitAtChar_append ':' name _ hname]
  simp only
  rw [splitAtChar_append ':' s e hs]
  simp only [ha, hb]

/-- Related lists: every element of the first has a partner in the second. -/
theorem forall₂_mem {α β : Type} (R : α → β → Prop) (l1 : List α) (l2 : List β)
    (h : List.Forall₂ R l1 l2) (a : α) (ha : a ∈ l1) : ∃ b ∈ l2, R a b := by
  induction h with
  | nil => cases ha
  | cons hab _ ih =>
    rcases List.mem_cons.mp ha with hx | hx
    · exact ⟨_, List.mem_cons_self _ _, hx ▸ hab⟩
    · obtain ⟨b, hb, hr⟩ := ih hx
      exact ⟨b, List.mem_cons_of_mem _ hb, hr⟩

/-- Every chromosome argument of a command line that `parse_options`
accepts has its spec on the final list, with the default length in place of
a length of zero. -/
theorem parse_options_registers (S : Scanf V) (argv : List String) (opts : Options V)
    (h : parse_options S argv = .ok opts) (arg : String) (harg : arg ∈ argv)
    (hc : isChromArg arg = true) :
    ∃ cs, Registers S arg cs ∧
      assignDefaultLength opts.allChromLength cs ∈ opts.chromsOfInterest := by
  obtain ⟨st, h1, _, h3⟩ := parse_options_ok S argv opts h
  obtain ⟨new, h4, h5⟩ := parseArgs_specs S argv optionsInit st h1
  obtain ⟨cs, hcs, hr⟩ := forall₂_mem (Registers S) _ new h5 arg
    (List.mem_filter.mpr ⟨harg, hc⟩)
  refine ⟨cs, hr, ?_⟩
  have hlen : opts.allChromLength = defaultLength st.allChromLength := by rw [h3]
  have hch : opts.chromsOfInterest =
      st.chromsOfInterest.map (assignDefaultLength opts.allChromLength) := by
    rw [hlen, h3]
  rw [hch, h4]
  exact List.mem_map.mpr ⟨cs, List.mem_append_right _ hcs, rfl⟩

/-- C14 (window specification), as the code has it.  For a chromosome
argument `name:start:end` whose start and end convert to `a < b`, the list
`parse_options` leaves has a spec for `name` with start `a` and length
`b - a`, and it is the only spec of that name. -/
theorem window_specification (S : Scanf V) (pre post : List String)
    (name s e : List Char) (a b : Nat) (opts : Options V)
    (hname : ':' ∉ name) (hs : ':' ∉ s)
    (hc : isChromArg (String.mk (name ++ ':' :: (s ++ ':' :: e))) = true)
    (ha : string_to_u32 S s = .ok a) (hb : string_to_u32 S e = .ok b) (hab : a < b)
    (hopts : parse_options S (pre ++ String.mk (name ++ ':' :: (s ++ ':' :: e)) :: post) =
      .ok opts) :
    ∃ cs ∈ opts.chromsOfInterest,
      cs.chrom = String.mk name ∧ cs.start = a ∧ cs.length = b - a ∧
      ∀ cs' ∈ opts.chromsOfInterest, cs'.chrom = String.mk name → cs' = cs := by
  obtain ⟨cs, ⟨nm, a1, len1, hp, hcs⟩, hmem⟩ := parse_options_registers S _ opts hopts
    (String.mk (name ++ ':' :: (s ++ ':' :: e))) (by simp) hc
  have hw := parseChromArg_window S name s e a b hname hs ha hb
  have hnm := parseChromArg_name S _ nm a1 len1 hp
  rw [show (String.mk (name ++ ':' :: (s ++ ':' :: e))).data = name ++ ':' :: (s ++ ':' :: e)
    from rfl, hw] at hp
  simp only [Except.ok.injEq, Prod.mk.injEq] at hp
  obtain ⟨hp1, hp2, hp3⟩ := hp
  have hblt := string_to_u32_lt S e b hb
  have hlen : len1 = b - a := by
    rw [← hp3, show b + 2 ^ 32 - a = (b - a) + 2 ^ 32 by omega, Nat.add_mod_right]
    exact Nat.mod_eq_of_lt (by omega)
  have hf := assignDefaultLength_fields opts.allChromLength cs
  have hcsl : cs.length = b - a := by rw [hcs, hlen]
  refine ⟨_, hmem, ?_, ?_, ?_, ?_⟩
  · rw [hf.1, hcs, ← hnm, ← hp1]
  · rw [hf.2.1, hcs, ← hp2]
  · rw [hf.2.2, if_neg (by omega), hcsl]
  · intro cs' hcs' hn'
    have hnd := (parse_options_names S _ opts hopts).2
    apply List.inj_on_of_nodup_map hnd hcs' hmem
    rw [hn', hf.1, hcs, ← hnm, ← hp1]

/-- The theorem `window_specification` at the argument `chr1:100:200`. -/
theorem window_specification_witness :
    ∃ opts : Options ℚ, parse_options decScanf ["chr1:100:200"] = .ok opts ∧
      ∃ cs ∈ opts.chromsOfInterest,
        cs.chrom = "chr1" ∧ cs.start = 100 ∧ cs.length = 200 - 100 ∧
        ∀ cs' ∈ opts.chromsOfInterest, cs'.chrom = "chr1" → cs' = cs :=
  ⟨_, rfl, window_specification decScanf [] [] "chr1".data "100".data "200".data 100 200 _
    (by decide) (by decide) rfl rfl rfl (by decide) rfl⟩

/-- C14, counterexample.  For the argument `chr1:100:100` the difference of
end and start is zero, which `parse_options` takes for "no length given":
the spec gets the default length, here 250,000,000. -/
theorem window_specification_empty_window :
    ∃ opts : Options ℚ, parse_options decScanf ["chr1:100:100"] = .ok opts ∧
      opts.chromsOfInterest.map (fun cs => (cs.chrom, cs.start, cs.length)) =
        [("chr1", 100, 250000000)] :=
  ⟨_, rfl, rfl⟩

/-- When the end is below the start the length is the difference in `u32`
arithmetic: `chr1:200:100` gets the length `2^32 - 100`. -/
theorem window_specification_wraps :
    ∃ opts : Options ℚ, parse_options decScanf ["chr1:200:100"] = .ok opts ∧
      opts.chromsOfInterest.map (fun cs => (cs.chrom, cs.start, cs.length)) =
        [("chr1", 200, 2 ^ 32 - 100)] :=
  ⟨_, rfl, rfl⟩

/-! ## The order of the output -/

/-- The report loop prints the blocks of the chromosomes one after the
other, in list order. -/
theorem reportAll_eq_flatten (D : DoubleOps V) (o : Nat) (l : List (spec V)) :
    reportAll D o l = (l.map (reportSpec D o)).flatten := by
  induction l with
  | nil => rfl
  | cons x xs ih =>
    unfold reportAll
    rw [ih]
    rfl

/-- The result of the program when it succeeds, in terms of the list the
read loop leaves. -/
theorem chrom_avg_ok (D : DoubleOps V) (originOne : Bool) (chroms : List (spec V))
    (input : List (Interval V)) (out : List (OutLine V))
    (h : chrom_avg D originOne chroms input = .ok out) :
    ∃ st : MainState V,
      st.chroms.map (fun cs => cs.chrom) = chroms.map (fun cs => cs.chrom) ∧
      out = reportAll D (if originOne then 1 else 0) st.chroms := by
  unfold chrom_avg at h
  cases h1 : allocate D chroms with
  | error e => rw [h1] at h; cases h
  | ok alloc =>
    rw [h1] at h
    simp only at h
    cases h2 : processAll D (if originOne then 1 else 0) (mainInit alloc) input with
    | error e => rw [h2] at h; cases h
    | ok st =>
      rw [h2] at h
      simp only [Except.ok.injEq] at h
      refine ⟨st, ?_, h.symm⟩
      rw [(processAll_names_cache D _ input (mainInit alloc) st (cacheOK_mainInit alloc) h2).2]
      exact (allocate_ok D chroms alloc h1).1

/-- C20 (output order).  When the program succeeds, its output is the
concatenation of one block per chromosome argument, the blocks in the order
of the command line.  The block of a chromosome is the list of runs the
report loop finds in its vectors, every line carries the name of the
chromosome, and the runs are in ascending position: each is not empty and
ends at or before the start of every later one.  This holds for every input,
so the order of the records in the input has no effect on the order of the
blocks or of the lines in a block. -/
theorem output_order (S : Scanf V) (D : DoubleOps V) (argv : List String)
    (opts : Options V) (input : List (Interval V)) (out : List (OutLine V))
    (hopts : parse_options S argv = .ok opts)
    (hrun : chrom_avg D opts.originOne opts.chromsOfInterest input = .ok out) :
    ∃ final : List (spec V),
      final.map (fun cs => cs.chrom) = (argv.filter isChromArg).map chromName ∧
      out = (final.map (reportSpec D (if opts.originOne then 1 else 0))).flatten ∧
      out.map (fun l => l.chrom) =
        (final.map (fun cs => (encode D cs).map (fun _ => cs.chrom))).flatten ∧
      ∀ cs ∈ final,
        reportSpec D (if opts.originOne then 1 else 0) cs =
          (encode D cs).map (printRun (if opts.originOne then 1 else 0) cs) ∧
        (∀ l ∈ reportSpec D (if opts.originOne then 1 else 0) cs, l.chrom = cs.chrom) ∧
        (encode D cs).Pairwise (fun a b => a.start < a.endPos ∧ a.endPos ≤ b.start ∧
          b.start < b.endPos) := by
  obtain ⟨st, hn, hout⟩ := chrom_avg_ok D opts.originOne opts.chromsOfInterest input out hrun
  refine ⟨st.chroms, ?_, ?_, ?_, ?_⟩
  · rw [hn]
    exact (parse_options_names S argv opts hopts).1
  · rw [hout, reportAll_eq_flatten]
  · rw [hout, reportAll_eq_flatten, List.map_flatten, List.map_map]
    congr 1
    apply List.map_congr_left
    intro cs _
    show List.map (fun l => l.chrom) (reportSpec D (if opts.originOne then 1 else 0) cs) = _
    unfold reportSpec
    rw [List.map_map]
    rfl
  · intro cs _
    refine ⟨rfl, ?_, ?_⟩
    · intro l hl
      unfold reportSpec at hl
      obtain ⟨r, _, hr⟩ := List.mem_map.mp hl
      rw [← hr]
      rfl
    · have hs := encode_spec D cs
      have hp : (encode D cs).Pairwise (fun a b => a.endPos ≤ b.start) :=
        hs.ord.imp (fun h => h.1)
      exact (List.Pairwise.and_mem.mp hp).imp
        (fun h => ⟨(hs.wf _ h.1).1, h.2.2, (hs.wf _ h.2.1).1⟩)

/-- The theorem `output_order` at a concrete run: the command line names
`chr2` before `chr1`, the input has `chr1` before `chr2`, and the output has
the line of `chr2` first. -/
theorem output_order_witness :
    ∃ (opts : Options ℚ) (out : List (OutLine ℚ)),
      parse_options decScanf ["chr2:2", "chr1:2"] = .ok opts ∧
      chrom_avg ratOps opts.originOne opts.chromsOfInterest
        [⟨"chr1", 0, 1, 5⟩, ⟨"chr2", 1, 2, 7⟩] = .ok out ∧
      out = [⟨"chr2", 1, 2, 7⟩, ⟨"chr1", 0, 1, 5⟩] ∧
      ∃ final : List (spec ℚ),
        final.map (fun cs => cs.chrom) = ["chr2", "chr1"] ∧
        out = (final.map (reportSpec ratOps 0)).flatten := by
  have hrun : chrom_avg ratOps false [⟨"chr2", 0, 2, [], [], 0⟩, ⟨"chr1", 0, 2, [], [], 0⟩]
      [⟨"chr1", 0, 1, 5⟩, ⟨"chr2", 1, 2, 7⟩] =
      .ok [⟨"chr2", 1, 2, 7⟩, ⟨"chr1", 0, 1, 5⟩] := by
    simp [chrom_avg, allocate, processAll, processInterval, resolveChrom, mainInit,
      find_chromosome_spec, bumpBatch, applyToSpec, clipRange, accumulate, accumulateAt,
      maxCount, reportAll, reportSpec, encode, encodeLoop, encodeStep, encodeFinish,
      encodeInit, ratOps, printRun, printf_d, List.range_succ, List.range']
  obtain ⟨final, h1, h2, _⟩ := output_order decScanf ratOps ["chr2:2", "chr1:2"]
    ⟨[⟨"chr2", 0, 2, [], [], 0⟩, ⟨"chr1", 0, 2, [], [], 0⟩], 3, 0, false, false, false,
      250000000⟩ [⟨"chr1", 0, 1, 5⟩, ⟨"chr2", 1, 2, 7⟩] _ rfl hrun
  exact ⟨_, _, rfl, hrun, rfl, final, h1, h2⟩

/-! ## The scanner: whitespace, dark space and fields -/

/-- The place where `skip_whitespace` stops is not whitespace. -/
theorem skip_whitespace_head (s : List Char) (c : Char) (t : List Char)
    (h : skip_whitespace s = c :: t) : isspace c = false := by
  induction s with
  | nil => cases h
  | cons x xs ih =>
    unfold skip_whitespace at h ih
    by_cases hx : isspace x = true
    · rw [List.dropWhile_cons_of_pos hx] at h
      exact ih h
    · rw [List.dropWhile_cons_of_neg hx] at h
      simp only [List.cons.injEq] at h
      rw [← h.1]
      simpa using hx

/-- Nothing is skipped in front of a character that is not whitespace. -/
theorem skip_whitespace_dark (c : Char) (t : List Char) (h : isspace c = false) :
    skip_whitespace (c :: t) = c :: t := by
  unfold skip_whitespace
  rw [List.dropWhile_cons_of_neg (by simp [h])]

/-- Leading whitespace does not change the fields. -/
theorem fields_skip_whitespace (s : List Char) : fields (skip_whitespace s) = fields s := by
  induction s with
  | nil => rfl
  | cons x xs ih =>
    by_cases hx : isspace x = true
    · have h1 : skip_whitespace (x :: xs) = skip_whitespace xs := by
        unfold skip_whitespace
        rw [List.dropWhile_cons_of_pos hx]
      rw [h1, ih]
      symm
      cases xs with
      | nil => simp [fields, hx]
      | cons d u =>
        rw [fields]
        rw [if_pos hx]
    · rw [skip_whitespace_dark x xs (by simpa using hx)]

/-- The first field of a text that starts with a character that is not
whitespace is what `skip_darkspace` passes over. -/
theorem fields_dark (t : List Char) : ∀ c : Char, isspace c = false →
    fields (c :: t) = darkField (c :: t) :: fields (skip_darkspace (c :: t)) := by
  induction t with
  | nil =>
    intro c hc
    simp [fields, darkField, skip_darkspace, hc]
  | cons d u ih =>
    intro c hc
    have hdf : darkField (c :: d :: u) = c :: darkField (d :: u) := by
      unfold darkField
      rw [List.takeWhile_cons_of_pos (by simp [hc])]
    have hsd : skip_darkspace (c :: d :: u) = skip_darkspace (d :: u) := by
      unfold skip_darkspace
      rw [List.dropWhile_cons_of_pos (by simp [hc])]
    by_cases hd : isspace d = true
    · have h1 : darkField (d :: u) = [] := by
        unfold darkField
        rw [List.takeWhile_cons_of_neg (by simp [hd])]
      have h2 : skip_darkspace (d :: u) = d :: u := by
        unfold skip_darkspace
        rw [List.dropWhile_cons_of_neg (by simp [hd])]
      rw [hdf, hsd, h1, h2]
      rw [fields]
      simp only [hc, Bool.false_eq_true, if_false, hd, if_true]
    · have hd' : isspace d = false := by simpa using hd
      rw [hdf, hsd]
      have hi := ih d hd'
      rw [fields]
      simp only [hc, Bool.false_eq_true, if_false, hd', hi]

/-- A text in which `skip_whitespace` reaches the end has no field. -/
theorem fields_of_skip_nil (s : List Char) (h : skip_whitespace s = []) : fields s = [] := by
  rw [← fields_skip_whitespace, h]
  rfl

/-- Where `skip_whitespace` stops before the end, a field starts. -/
theorem fields_of_skip_cons (s : List Char) (h : skip_whitespace s ≠ []) :
    fields s = darkField (skip_whitespace s) ::
      fields (skip_darkspace (skip_whitespace s)) := by
  cases hs : skip_whitespace s with
  | nil => exact absurd hs h
  | cons c t =>
    rw [← fields_skip_whitespace, hs]
    exact fields_dark t c (skip_whitespace_head s c t hs)

/-- The loop over the columns up to the value column ends at the start of
the field with that number, if there is one. -/
theorem valueLoop_fields (n : Nat) : ∀ (y field : List Char),
    (valueLoop (n + 1) field (skip_whitespace y)).map darkField = (fields y)[n]? := by
  induction n with
  | zero =>
    intro y field
    unfold valueLoop
    by_cases h : skip_whitespace y = []
    · rw [if_pos h, fields_of_skip_nil y h]
      rfl
    · rw [if_neg h, fields_of_skip_cons y h]
      simp [valueLoop]
  | succ m ih =>
    intro y field
    unfold valueLoop
    by_cases h : skip_whitespace y = []
    · rw [if_pos h, fields_of_skip_nil y h]
      rfl
    · rw [if_neg h, fields_of_skip_cons y h, ih]
      simp

/-- Lines 645-688 in terms of fields.  On a C string that starts with a
character that is neither whitespace nor `#`, and for a value column
`k >= 4`, the code does what `parseFields` tells from the list of
whitespace-separated fields. -/
theorem parseLine_fields (S : Scanf V) (k : Nat) (hk : 4 ≤ k) (c : Char) (t : List Char)
    (hc : isspace c = false) (hh : c ≠ '#') :
    parseLine S ((k : Int) - 1) (c :: t) = parseFields S k (fields (c :: t)) := by
  have h0 : skip_whitespace (c :: t) = c :: t := skip_whitespace_dark c t hc
  have hsp : c ≠ ' ' := by
    intro h
    rw [h] at hc
    exact absurd hc (by decide)
  have hn : (((k : Int) - 1) - 2).toNat = (k - 4) + 1 := by omega
  have hk1 : k - 1 = (k - 4) + 3 := by omega
  rw [fields_dark t c hc]
  unfold parseLine
  simp only [h0, List.head?_cons, Option.some.injEq, hh, hsp, if_false, reduceCtorEq, hn]
  generalize darkField (c :: t) = chrom
  generalize skip_darkspace (c :: t) = x1
  by_cases h1 : skip_whitespace x1 = []
  · rw [if_pos h1, fields_of_skip_nil x1 h1]
    rfl
  · rw [if_neg h1, fields_of_skip_cons x1 h1]
    generalize skip_whitespace x1 = s1
    rw [parseFields]
    cases h2 : string_to_u32 S (darkField s1) with
    | error e => rfl
    | ok start =>
      simp only
      generalize skip_darkspace s1 = x2
      by_cases h3 : skip_whitespace x2 = []
      · rw [if_pos h3, fields_of_skip_nil x2 h3]
      · rw [if_neg h3, fields_of_skip_cons x2 h3]
        generalize skip_whitespace x2 = s2
        simp only
        cases h4 : string_to_u32 S (darkField s2) with
        | error e => rfl
        | ok endPos =>
          simp only
          have hv := valueLoop_fields (k - 4) (skip_darkspace s2) s2
          rw [hk1]
          simp only [List.getElem?_cons_succ]
          cases hvl : valueLoop (k - 4 + 1) s2 (skip_whitespace (skip_darkspace s2)) with
          | none =>
            rw [hvl] at hv
            simp only [Option.map_none'] at hv
            rw [← hv]
          | some f =>
            rw [hvl] at hv
            simp only [Option.map_some'] at hv
            rw [← hv]

/-! ## The stream: what `fgets` delivers -/

/-- What `fgets` stores and what it leaves make up the stream. -/
theorem fgetsAux_split (n : Nat) : ∀ f : List Char,
    (fgetsAux n f).1 ++ (fgetsAux n f).2 = f := by
  induction n with
  | zero => intro f; rfl
  | succ m ih =>
    intro f
    cases f with
    | nil => rfl
    | cons c s =>
      unfold fgetsAux
      by_cases hc : c = '\n'
      · rw [if_pos hc]
        rfl
      · rw [if_neg hc]
        simp only [List.cons_append, ih s]

/-- A call of `fgets` that may store a character stores one unless the
stream is at its end. -/
theorem fgetsAux_ne_nil (n : Nat) (f : List Char) (hn : 0 < n) (hf : f ≠ []) :
    (fgetsAux n f).1 ≠ [] := by
  cases n with
  | zero => omega
  | succ m =>
    cases f with
    | nil => exact absurd rfl hf
    | cons c s =>
      unfold fgetsAux
      by_cases hc : c = '\n'
      · rw [if_pos hc]
        exact List.cons_ne_nil _ _
      · rw [if_neg hc]
        exact List.cons_ne_nil _ _

/-- The rest of the stream after a call of `fgets` is shorter. -/
theorem fgetsAux_rest_length (n : Nat) (f : List Char) (hn : 0 < n) (hf : f ≠ []) :
    (fgetsAux n f).2.length < f.length := by
  have h1 := congrArg List.length (fgetsAux_split n f)
  have h2 := fgetsAux_ne_nil n f hn hf
  rw [List.length_append] at h1
  have h3 : 0 < (fgetsAux n f).1.length := List.length_pos.mpr h2
  omega

/-- A line with its newline that fits is stored entire. -/
theorem fgetsAux_line (l rest : List Char) (hnl : '\n' ∉ l) : ∀ n : Nat, l.length < n →
    fgetsAux n (l ++ '\n' :: rest) = (l ++ ['\n'], rest) := by
  induction l with
  | nil =>
    intro n hn
    cases n with
    | zero => simp at hn
    | succ m => simp [fgetsAux]
  | cons x xs ih =>
    intro n hn
    cases n with
    | zero => simp at hn
    | succ m =>
      have hx : ¬ x = '\n' := fun he => hnl (he ▸ List.mem_cons_self _ _)
      have hi := ih (fun hm => hnl (List.mem_cons_of_mem _ hm)) m
        (by simp only [List.length_cons] at hn; omega)
      rw [List.cons_append]
      unfold fgetsAux
      rw [if_neg hx, hi]
      rfl

/-- The last line of a stream, without newline, when it fits. -/
theorem fgetsAux_last (l : List Char) (hnl : '\n' ∉ l) : ∀ n : Nat, l.length ≤ n →
    fgetsAux n l = (l, []) := by
  induction l with
  | nil =>
    intro n _
    cases n with
    | zero => rfl
    | succ m => rfl
  | cons x xs ih =>
    intro n hn
    cases n with
    | zero => simp at hn
    | succ m =>
      have hx : ¬ x = '\n' := fun he => hnl (he ▸ List.mem_cons_self _ _)
      have hi := ih (fun hm => hnl (List.mem_cons_of_mem _ hm)) m
        (by simp only [List.length_cons] at hn; omega)
      unfold fgetsAux
      rw [if_neg hx, hi]

/-- More calls than the stream has characters deliver nothing more. -/
theorem chunksAux_fuel (bufferLen : Nat) (h2 : 2 ≤ bufferLen) :
    ∀ (fuel1 fuel2 : Nat) (f : List Char), f.length ≤ fuel1 → f.length ≤ fuel2 →
      chunksAux bufferLen fuel1 f = chunksAux bufferLen fuel2 f := by
  intro fuel1
  induction fuel1 with
  | zero =>
    intro fuel2 f h1 _
    have hf : f = [] := List.length_eq_zero.mp (by omega)
    subst hf
    cases fuel2 with
    | zero => rfl
    | succ k => simp [chunksAux, fgets]
  | succ m ih =>
    intro fuel2 f h1 hf2
    cases f with
    | nil =>
      cases fuel2 with
      | zero => simp [chunksAux, fgets]
      | succ k => simp [chunksAux, fgets]
    | cons c s =>
      cases fuel2 with
      | zero => simp at hf2
      | succ k =>
        have hlt := fgetsAux_rest_length (bufferLen - 1) (c :: s) (by omega)
          (List.cons_ne_nil _ _)
        simp only [chunksAux, fgets, reduceCtorEq, if_false, List.cons.injEq, true_and]
        exact ih k _ (by omega) (by omega)

/-- The buffers of a stream that is not at its end: the first call of
`fgets`, then the buffers of the rest. -/
theorem chunks_cons (bufferLen : Nat) (h2 : 2 ≤ bufferLen) (f : List Char) (hf : f ≠ []) :
    chunks bufferLen f =
      (fgetsAux (bufferLen - 1) f).1 :: chunks bufferLen (fgetsAux (bufferLen - 1) f).2 := by
  have hlt := fgetsAux_rest_length (bufferLen - 1) f (by omega) hf
  unfold chunks
  cases hl : f.length with
  | zero => exact absurd (List.length_eq_zero.mp hl) hf
  | succ m =>
    simp only [chunksAux, fgets, hf, if_false, List.cons.injEq, true_and]
    exact chunksAux_fuel bufferLen h2 _ _ _ (by omega) (le_refl _)

/-- The stream at its end delivers no buffer. -/
theorem chunks_nil (bufferLen : Nat) : chunks bufferLen [] = [] := rfl

/-- A line that fits the buffer of `main` is delivered by one call of
`fgets`, newline included. -/
theorem chunks_line (line more : List Char) (hfit : FitsBuffer line) :
    chunks lineBufferLen (line ++ '\n' :: more) =
      (line ++ ['\n']) :: chunks lineBufferLen more := by
  obtain ⟨hlen, hnl, _⟩ := hfit
  rw [chunks_cons lineBufferLen (by decide) _ (by simp),
    fgetsAux_line line more hnl (lineBufferLen - 1) (by omega)]

/-- The buffers of a stream of lines that fit: the lines, each with its
newline. -/
theorem chunks_unlines (lines : List (List Char)) (hfit : ∀ l ∈ lines, FitsBuffer l)
    (more : List Char) :
    chunks lineBufferLen (unlines lines ++ more) =
      lines.map (fun l => l ++ ['\n']) ++ chunks lineBufferLen more := by
  induction lines with
  | nil => rfl
  | cons l ls ih =>
    have h1 : unlines (l :: ls) ++ more = l ++ '\n' :: (unlines ls ++ more) := by
      simp [unlines]
    rw [h1, chunks_line l _ (hfit l (List.mem_cons_self _ _)),
      ih (fun x hx => hfit x (List.mem_cons_of_mem _ hx))]
    rfl

/-! ## One call of the reader on a line that fits the buffer -/

/-- A buffer without NUL is its own C string. -/
theorem cstr_of_no_nul (b : List Char) (h : Char.ofNat 0 ∉ b) : cstr b = b := by
  unfold cstr
  rw [List.takeWhile_eq_self_iff]
  intro c hc
  simp only [ne_eq, decide_not, Bool.not_eq_true', decide_eq_false_iff_not]
  exact fun he => h (he ▸ hc)

/-- The C string of the buffer that holds a fitting line. -/
theorem cstr_line (line : List Char) (hfit : FitsBuffer line) :
    cstr (line ++ ['\n']) = line ++ ['\n'] := by
  apply cstr_of_no_nul
  intro h
  rcases List.mem_append.mp h with h1 | h1
  · exact hfit.2.2 h1
  · rw [List.mem_singleton] at h1
    exact absurd h1 (by decide)

/-- After a fitting line `missingEol` is false. -/
theorem nextMissingEol_line (me : Bool) (line : List Char) (hfit : FitsBuffer line) :
    nextMissingEol me (line ++ ['\n']) = false := by
  unfold nextMissingEol
  rw [cstr_line line hfit, List.getLast?_append]
  rfl

/-- One call of `read_interval` at a fitting line. -/
theorem read_interval_line (S : Scanf V) (valCol : Int) (line : List Char)
    (rest : List (List Char)) (ln : Nat) (hfit : FitsBuffer line) :
    read_interval S valCol ((line ++ ['\n']) :: rest) ln false =
      match parseLine S valCol (line ++ ['\n']) with
      | .skip => read_interval S valCol rest (nextLineNumber ln) false
      | .record r => .record r rest (nextLineNumber ln) false
      | .problem p => .fatal (.problem p (reportedLine (nextLineNumber ln)))
      | .conversion e => .fatal (.conversion e) := by
  rw [read_interval]
  simp only [Bool.false_eq_true, if_false, cstr_line line hfit,
    nextMissingEol_line false line hfit]

/-- The read loop at a fitting line. -/
theorem readAll_line (S : Scanf V) (valCol : Int) (line : List Char)
    (rest : List (List Char)) (ln : Nat) (hfit : FitsBuffer line) :
    readAll S valCol ((line ++ ['\n']) :: rest) ln false =
      match parseLine S valCol (line ++ ['\n']) with
      | .skip => readAll S valCol rest (nextLineNumber ln) false
      | .record r =>
        ((readAll S valCol rest (nextLineNumber ln) false).1.cons r,
         (readAll S valCol rest (nextLineNumber ln) false).2)
      | .problem p => ([], some (.problem p (reportedLine (nextLineNumber ln))))
      | .conversion e => ([], some (.conversion e)) := by
  rw [readAll]
  simp only [Bool.false_eq_true, if_false, cstr_line line hfit,
    nextMissingEol_line false line hfit]

/-- The function `readAll` collects what the successive calls of
`read_interval` return. -/
theorem readAll_read_interval (S : Scanf V) (valCol : Int) (cs : List (List Char)) :
    ∀ (ln : Nat) (me : Bool),
      readAll S valCol cs ln me =
        match read_interval S valCol cs ln me with
        | .eof _ _ => ([], none)
        | .fatal e => ([], some e)
        | .record r rest ln' me' =>
          ((readAll S valCol rest ln' me').1.cons r, (readAll S valCol rest ln' me').2) := by
  induction cs with
  | nil => intro ln me; rfl
  | cons b rest ih =>
    intro ln me
    rw [readAll, read_interval]
    cases me with
    | true => rfl
    | false =>
      simp only [Bool.false_eq_true, if_false]
      cases hp : parseLine S valCol (cstr b) with
      | skip => exact ih _ _
      | record r => rfl
      | problem p => rfl
      | conversion e => rfl

/-- Trailing whitespace does not change the fields. -/
theorem fields_append_space (w : Char) (hw : isspace w = true) (l : List Char) :
    fields (l ++ [w]) = fields l := by
  induction l with
  | nil => simp [fields, hw]
  | cons c s ih =>
    cases s with
    | nil =>
      by_cases hc : isspace c = true
      · simp [fields, hc, hw]
      · simp [fields, hc, hw]
    | cons d u =>
      have e1 : (c :: d :: u) ++ [w] = c :: d :: (u ++ [w]) := rfl
      have e2 : (d :: u) ++ [w] = d :: (u ++ [w]) := rfl
      rw [e1, fields, fields]
      rw [e2] at ih
      rw [ih]

/-! ## Records -/

/-- What `parseFields` returns for a line with enough fields whose start,
end and value convert. -/
theorem parseFields_record (S : Scanf V) (k : Nat) (hk : 4 ≤ k) (fs : List (List Char))
    (a b : Nat) (v : V) (hlen : k ≤ fs.length)
    (ha : string_to_u32 S (fs.getD 1 []) = .ok a)
    (hb : string_to_u32 S (fs.getD 2 []) = .ok b)
    (hv : string_to_double S (fs.getD (k - 1) []) = .ok v) :
    parseFields S k fs = .record ⟨String.mk (fs.getD 0 []), a, b, v⟩ := by
  match fs, hlen, ha, hb, hv with
  | [], hlen, _, _, _ => simp at hlen; omega
  | [_], hlen, _, _, _ => simp at hlen; omega
  | [_, _], hlen, _, _, _ => simp at hlen; omega
  | f1 :: f2 :: f3 :: rest, hlen, ha, hb, hv =>
    have hk1 : k - 1 < (f1 :: f2 :: f3 :: rest).length := by omega
    have hget : (f1 :: f2 :: f3 :: rest)[k - 1]? =
        some ((f1 :: f2 :: f3 :: rest).getD (k - 1) []) := by
      rw [List.getD_eq_getElem?_getD, List.getElem?_eq_getElem hk1]
      rfl
    simp only [List.getD_cons_zero, List.getD_cons_succ] at ha hb
    rw [parseFields]
    simp only [ha, hb, hget, hv, List.getD_cons_zero]

/-- C15 (record parsing), as the code has it.  Let the value column be
`k >= 4` and let a line of at most 998 characters, without NUL, start with
a character that is neither whitespace nor `#`.  If it has at least `k`
fields (maximal runs of characters that are not whitespace in the sense of
`isspace`) and `string_to_u32` accepts the second and third and
`string_to_double` the `k`-th, then the call of `read_interval` that reads
the line returns `true` with the first field as chromosome and the three
converted values; no other field enters the result. -/
theorem record_parsing (S : Scanf V) (k : Nat) (hk : 4 ≤ k) (c : Char) (t more : List Char)
    (ln a b : Nat) (v : V)
    (hfit : FitsBuffer (c :: t)) (hc : isspace c = false) (hh : c ≠ '#')
    (hlen : k ≤ (fields (c :: t)).length)
    (ha : string_to_u32 S ((fields (c :: t)).getD 1 []) = .ok a)
    (hb : string_to_u32 S ((fields (c :: t)).getD 2 []) = .ok b)
    (hv : string_to_double S ((fields (c :: t)).getD (k - 1) []) = .ok v) :
    read_interval S ((k : Int) - 1) (chunks lineBufferLen ((c :: t) ++ '\n' :: more)) ln false =
      .record ⟨String.mk ((fields (c :: t)).getD 0 []), a, b, v⟩
        (chunks lineBufferLen more) (nextLineNumber ln) false := by
  rw [chunks_line (c :: t) more hfit, read_interval_line S _ (c :: t) _ ln hfit]
  have hp : parseLine S ((k : Int) - 1) ((c :: t) ++ ['\n']) =
      parseFields S k (fields (c :: t)) := by
    rw [← fields_append_space '\n' (by decide) (c :: t)]
    exact parseLine_fields S k hk c (t ++ ['\n']) hc hh
  rw [hp, parseFields_record S k hk _ a b v hlen ha hb hv]

/-- The theorem `record_parsing` for value column 5 at the line
`chr1 10 20 x 7 y`. -/
theorem record_parsing_witness :
    read_interval decScanf ((5 : Nat) - 1 : Int)
        (chunks lineBufferLen ("chr1 10 20 x 7 y".data ++ '\n' :: "chr2 1 2 3 4".data)) 0 false =
      .record ⟨"chr1", 10, 20, 7⟩ (chunks lineBufferLen "chr2 1 2 3 4".data) 1 false :=
  record_parsing decScanf 5 (by decide) 'c' "hr1 10 20 x 7 y".data "chr2 1 2 3 4".data 0 10 20 7
    ⟨by decide, by decide, by decide⟩ rfl (by decide) (by decide) rfl rfl rfl

set_option maxRecDepth 1000000 in
/-- C15, counterexample.  A line of 1000 characters and a newline whose
four fields are `c`, `1`, `2` and `345`: the first call of `fgets` delivers
999 characters, the value field is cut after `34`, and `read_interval`
returns the record with the value 34 (the call after it ends at
`missing_eol`). -/
theorem record_parsing_long_line :
    fields ("c 1 2".data ++ List.replicate 992 ' ' ++ "345".data) =
      ["c".data, "1".data, "2".data, "345".data] ∧
    read_interval decScanf 3
        (chunks lineBufferLen ("c 1 2".data ++ List.replicate 992 ' ' ++ "345".data ++ ['\n']))
        0 false = .record ⟨"c", 1, 2, 34⟩ [['5', '\n']] 1 true ∧
    read_interval decScanf 3 [['5', '\n']] 1 true = .fatal (.problem .missing_eol 1) :=
  ⟨rfl, rfl, rfl⟩

/-! ## Blank lines and comment lines -/

/-- The first two tests of lines 645-647 send a skippable C string back to
`try_again`. -/
theorem parseLine_skip (S : Scanf V) (valCol : Int) (b : List Char)
    (h : skippable b = true) : parseLine S valCol b = .skip := by
  unfold skippable at h
  unfold parseLine
  simp only
  unfold skip_whitespace
  cases hd : b.dropWhile isspace with
  | nil => simp
  | cons c s =>
    rw [hd] at h
    simp only [decide_eq_true_eq] at h
    simp [h]

/-- Trailing whitespace does not change whether a line is skippable. -/
theorem skippable_append_space (w : Char) (hw : isspace w = true) (l : List Char) :
    skippable (l ++ [w]) = skippable l := by
  induction l with
  | nil => simp [skippable, hw]
  | cons c s ih =>
    by_cases hc : isspace c = true
    · unfold skippable at ih ⊢
      rw [List.cons_append, List.dropWhile_cons_of_pos hc, List.dropWhile_cons_of_pos hc]
      exact ih
    · unfold skippable
      rw [List.cons_append, List.dropWhile_cons_of_neg hc, List.dropWhile_cons_of_neg hc]

/-- Two ways of ending that are the same are the same up to the line
number. -/
theorem sameExit_refl_of (e : Option ReadFatal) : sameExit e e := by
  match e with
  | none => trivial
  | some (.problem p n) => rfl
  | some (.conversion c) => rfl

/-- Two failure exits at the same label are the same up to the line
number. -/
theorem sameExit_problem (p : Problem) (n m : Nat) :
    sameExit (some (.problem p n)) (some (.problem p m)) := by
  unfold sameExit
  rfl

/-- The records the read loop collects do not depend on the value of
`lineNumber`, and the way it ends depends on it only in the number
reported. -/
theorem readAll_lineNumber (S : Scanf V) (valCol : Int) (cs : List (List Char)) :
    ∀ (ln1 ln2 : Nat) (me : Bool),
      (readAll S valCol cs ln1 me).1 = (readAll S valCol cs ln2 me).1 ∧
      sameExit (readAll S valCol cs ln1 me).2 (readAll S valCol cs ln2 me).2 := by
  induction cs with
  | nil => intro ln1 ln2 me; exact ⟨rfl, trivial⟩
  | cons b rest ih =>
    intro ln1 ln2 me
    rw [readAll, readAll]
    cases me with
    | true =>
      simp only [if_true]
      exact ⟨trivial, sameExit_problem _ _ _⟩
    | false =>
      simp only [Bool.false_eq_true, if_false]
      cases hp : parseLine S valCol (cstr b) with
      | skip => exact ih _ _ _
      | record r =>
        simp only
        exact ⟨by rw [(ih (nextLineNumber ln1) (nextLineNumber ln2) _).1],
          (ih (nextLineNumber ln1) (nextLineNumber ln2) _).2⟩
      | problem p =>
        simp only
        exact ⟨trivial, sameExit_problem _ _ _⟩
      | conversion e =>
        simp only
        exact ⟨trivial, sameExit_refl_of _⟩

/-- Removing the skippable lines from a stream of fitting lines changes
neither the records nor, up to the line number, the way the read loop
ends. -/
theorem readAll_filter (S : Scanf V) (valCol : Int) (tail tail' : List (List Char))
    (htail : ∀ ln1 ln2 : Nat,
      (readAll S valCol tail ln1 false).1 = (readAll S valCol tail' ln2 false).1 ∧
      sameExit (readAll S valCol tail ln1 false).2 (readAll S valCol tail' ln2 false).2)
    (lines : List (List Char)) (hfit : ∀ l ∈ lines, FitsBuffer l) :
    ∀ ln1 ln2 : Nat,
      (readAll S valCol (lines.map (fun l => l ++ ['\n']) ++ tail) ln1 false).1 =
        (readAll S valCol
          ((lines.filter (fun l => !skippable l)).map (fun l => l ++ ['\n']) ++ tail')
          ln2 false).1 ∧
      sameExit
        (readAll S valCol (lines.map (fun l => l ++ ['\n']) ++ tail) ln1 false).2
        (readAll S valCol
          ((lines.filter (fun l => !skippable l)).map (fun l => l ++ ['\n']) ++ tail')
          ln2 false).2 := by
  induction lines with
  | nil => exact htail
  | cons l ls ih =>
    intro ln1 ln2
    have hl := hfit l (List.mem_cons_self _ _)
    have hi := ih (fun x hx => hfit x (List.mem_cons_of_mem _ hx))
    cases hs : skippable l with
    | true =>
      rw [List.filter_cons_of_neg (by simp [hs])]
      simp only [List.map_cons, List.cons_append]
      rw [readAll_line S valCol l _ ln1 hl,
        parseLine_skip S valCol _ (by rw [skippable_append_space '\n' (by decide), hs])]
      exact hi _ _
    | false =>
      rw [List.filter_cons_of_pos (by simp [hs])]
      simp only [List.map_cons, List.cons_append]
      rw [readAll_line S valCol l _ ln1 hl, readAll_line S valCol l _ ln2 hl]
      cases hp : parseLine S valCol (l ++ ['\n']) with
      | skip => exact hi _ _
      | record r =>
        simp only
        exact ⟨by rw [(hi (nextLineNumber ln1) (nextLineNumber ln2)).1],
          (hi (nextLineNumber ln1) (nextLineNumber ln2)).2⟩
      | problem p =>
        simp only
        exact ⟨trivial, sameExit_problem _ _ _⟩
      | conversion e =>
        simp only
        exact ⟨trivial, sameExit_refl_of _⟩

/-- The buffers of a last line without newline that fits. -/
theorem chunks_last (last : List Char) (hne : last ≠ [])
    (hlen : last.length < lineBufferLen) (hnl : '\n' ∉ last) :
    chunks lineBufferLen last = [last] := by
  rw [chunks_cons lineBufferLen (by decide) last hne,
    fgetsAux_last last hnl (lineBufferLen - 1) (by omega)]
  rfl

/-- C16 (blank and comment lines), as the code has it.  Let every line of
the stream have at most 998 characters and no NUL, the last line, which may
lack its newline, at most 999.  Then a call of `read_interval` passes over a
skippable line (empty, whitespace only, or `#` as first character that is
not whitespace) without record and without failure, and the records the read
loop collects are those it collects from the stream without the skippable
lines; the two runs end the same way up to the line number reported. -/
theorem blank_and_comment_lines (S : Scanf V) (valCol : Int)
    (lines : List (List Char)) (last : List Char)
    (hfit : ∀ l ∈ lines, FitsBuffer l)
    (hlast : last.length < lineBufferLen ∧ '\n' ∉ last ∧ Char.ofNat 0 ∉ last) :
    (∀ l ∈ lines, skippable l = true → ∀ (more : List Char) (ln : Nat),
      read_interval S valCol (chunks lineBufferLen (l ++ '\n' :: more)) ln false =
        read_interval S valCol (chunks lineBufferLen more) (nextLineNumber ln) false) ∧
    (readAll S valCol (chunks lineBufferLen (unlines lines ++ last)) 0 false).1 =
      (readAll S valCol (chunks lineBufferLen
        (unlines (lines.filter (fun l => !skippable l)) ++
          (if skippable last then [] else last))) 0 false).1 ∧
    sameExit
      (readAll S valCol (chunks lineBufferLen (unlines lines ++ last)) 0 false).2
      (readAll S valCol (chunks lineBufferLen
        (unlines (lines.filter (fun l => !skippable l)) ++
          (if skippable last then [] else last))) 0 false).2 := by
  constructor
  · intro l hl hs more ln
    have hf := hfit l hl
    rw [chunks_line l more hf, read_interval_line S valCol l _ ln hf,
      parseLine_skip S valCol _ (by rw [skippable_append_space '\n' (by decide), hs])]
  · have hfit' : ∀ l ∈ lines.filter (fun l => !skippable l), FitsBuffer l :=
      fun l hl => hfit l (List.mem_filter.mp hl).1
    rw [chunks_unlines lines hfit last, chunks_unlines _ hfit' _]
    apply readAll_filter S valCol _ _ _ lines hfit
    intro ln1 ln2
    cases hs : skippable last with
    | false =>
      simp only [Bool.false_eq_true, if_false]
      exact readAll_lineNumber S valCol _ ln1 ln2 false
    | true =>
      simp only [if_true]
      rw [chunks_nil]
      by_cases hne : last = []
      · rw [hne, chunks_nil]
        exact ⟨rfl, trivial⟩
      · have h1 : readAll S valCol [last] ln1 false = ([], none) := by
          rw [readAll]
          simp only [Bool.false_eq_true, if_false, cstr_of_no_nul last hlast.2.2,
            parseLine_skip S valCol last hs]
          rfl
        rw [chunks_last last hne hlast.1 hlast.2.1, h1]
        exact ⟨rfl, trivial⟩

/-- The theorem `blank_and_comment_lines` at a stream of a comment, an
empty line, a record, a line of blanks, and a last record without newline:
the records are those of the two record lines alone. -/
theorem blank_and_comment_lines_witness :
    (readAll decScanf 3 (chunks lineBufferLen
        (unlines ["# c".data, [], "chr1 1 2 3".data, "  ".data] ++ "chr2 4 5 6".data))
        0 false).1 =
      (readAll decScanf 3 (chunks lineBufferLen
        (unlines ["chr1 1 2 3".data] ++ "chr2 4 5 6".data)) 0 false).1 ∧
    (readAll decScanf 3 (chunks lineBufferLen
        (unlines ["chr1 1 2 3".data] ++ "chr2 4 5 6".data)) 0 false).1 =
      [⟨"chr1", 1, 2, 3⟩, ⟨"chr2", 4, 5, 6⟩] :=
  ⟨(blank_and_comment_lines decScanf 3 ["# c".data, [], "chr1 1 2 3".data, "  ".data]
      "chr2 4 5 6".data (by
        intro l hl
        simp only [List.mem_cons, List.mem_singleton, List.not_mem_nil, or_false] at hl
        rcases hl with h | h | h | h <;> subst h <;> exact ⟨by decide, by decide, by decide⟩)
      ⟨by decide, by decide, by decide⟩).2.1,
    rfl⟩

set_option maxRecDepth 1000000 in
/-- C16, counterexample.  A comment line of 1000 characters is skippable,
but `fgets` delivers it in two buffers and the second call ends at
`missing_eol`: the read loop returns no record and fails, while for the
stream without this line it returns the record of the second line. -/
theorem long_comment_line_is_fatal :
    skippable ('#' :: List.replicate 999 'x') = true ∧
    readAll decScanf 3
        (chunks lineBufferLen ('#' :: List.replicate 999 'x' ++ '\n' :: "chr1 1 2 3\n".data))
        0 false = ([], some (.problem .missing_eol 1)) ∧
    readAll decScanf 3 (chunks lineBufferLen "chr1 1 2 3\n".data) 0 false =
      ([⟨"chr1", 1, 2, 3⟩], none) :=
  ⟨rfl, rfl, rfl⟩

/-! ## Lines that start with whitespace -/

/-- A line that starts with a space, fits the buffer and is neither blank
nor a comment ends the call at `no_chrom`. -/
theorem space_leading_line_fatal (S : Scanf V) (valCol : Int) (t more : List Char) (ln : Nat)
    (hfit : FitsBuffer (' ' :: t)) (hs : skippable (' ' :: t) = false) :
    read_interval S valCol (chunks lineBufferLen ((' ' :: t) ++ '\n' :: more)) ln false =
      .fatal (.problem .no_chrom (reportedLine (nextLineNumber ln))) := by
  rw [chunks_line _ more hfit, read_interval_line S valCol _ _ ln hfit]
  have hs' : skippable ((' ' :: t) ++ ['\n']) = false := by
    rw [skippable_append_space '\n' (by decide), hs]
  have hp : parseLine S valCol ((' ' :: t) ++ ['\n']) = .problem .no_chrom := by
    unfold skippable at hs'
    unfold parseLine
    simp only
    unfold skip_whitespace
    cases hd : ((' ' :: t) ++ ['\n']).dropWhile isspace with
    | nil => rw [hd] at hs'; cases hs'
    | cons c s =>
      rw [hd] at hs'
      simp only [decide_eq_false_iff_not] at hs'
      simp [hs']
  rw [hp]

/-- C17, the failing input.  With the value in column 4, the line that
consists of a tab, `0`, a tab, `10`, a tab and `5` starts with whitespace
and is neither blank nor a comment; `read_interval` tests only for a space
at the start of the line, takes the empty text before the tab for the
chromosome and returns `true` with the record of chromosome `""`, start 0,
end 10 and value 5. -/
theorem tab_leading_line_yields_record :
    skippable "\t0\t10\t5".data = false ∧
    read_interval decScanf 3 (chunks lineBufferLen "\t0\t10\t5\n".data) 0 false =
      .record ⟨"", 0, 10, 5⟩ [] 1 false :=
  ⟨rfl, rfl⟩

/-! ## Short lines -/

/-- A line that fits the buffer, starts with a character that is neither
whitespace nor `#` and has fewer than `k` fields ends the call at a failure
exit: `no_start` with one field, `no_end` with two when the second
converts, `no_value` with three or more when the second and third convert. -/
theorem short_line_fatal (S : Scanf V) (k : Nat) (hk : 4 ≤ k) (c : Char) (t more : List Char)
    (ln : Nat) (hfit : FitsBuffer (c :: t)) (hc : isspace c = false) (hh : c ≠ '#')
    (hlen : (fields (c :: t)).length < k) :
    ((fields (c :: t)).length = 1 →
      read_interval S ((k : Int) - 1) (chunks lineBufferLen ((c :: t) ++ '\n' :: more)) ln false =
        .fatal (.problem .no_start (reportedLine (nextLineNumber ln)))) ∧
    ((fields (c :: t)).length = 2 →
      (∃ a, string_to_u32 S ((fields (c :: t)).getD 1 []) = .ok a) →
      read_interval S ((k : Int) - 1) (chunks lineBufferLen ((c :: t) ++ '\n' :: more)) ln false =
        .fatal (.problem .no_end (reportedLine (nextLineNumber ln)))) ∧
    (3 ≤ (fields (c :: t)).length →
      (∃ a, string_to_u32 S ((fields (c :: t)).getD 1 []) = .ok a) →
      (∃ b, string_to_u32 S ((fields (c :: t)).getD 2 []) = .ok b) →
      read_interval S ((k : Int) - 1) (chunks lineBufferLen ((c :: t) ++ '\n' :: more)) ln false =
        .fatal (.problem .no_value (reportedLine (nextLineNumber ln)))) := by
  have hp : parseLine S ((k : Int) - 1) ((c :: t) ++ ['\n']) =
      parseFields S k (fields (c :: t)) := by
    rw [← fields_append_space '\n' (by decide) (c :: t)]
    exact parseLine_fields S k hk c (t ++ ['\n']) hc hh
  rw [chunks_line (c :: t) more hfit, read_interval_line S _ (c :: t) _ ln hfit, hp]
  match hfs : fields (c :: t), hlen with
  | [], _ => simp [parseFields]
  | [f1], _ => simp [parseFields]
  | [f1, f2], _ =>
    refine ⟨by simp, ?_, by simp⟩
    rintro - ⟨a, ha⟩
    simp only [List.getD_cons_zero, List.getD_cons_succ] at ha
    simp [parseFields, ha]
  | f1 :: f2 :: f3 :: rest, hlen =>
    refine ⟨by simp, by simp, ?_⟩
    rintro - ⟨a, ha⟩ ⟨b, hb⟩
    simp only [List.getD_cons_zero, List.getD_cons_succ] at ha hb
    have hnone : (f1 :: f2 :: f3 :: rest)[k - 1]? = none := by
      rw [List.getElem?_eq_none_iff]
      omega
    rw [parseFields]
    simp only [ha, hb, hnone]

/-- C18, the failing input.  With the value in column 4, the line that
consists of a tab, `1`, a tab, `2`, a tab and `3` does not start with a
space, is neither blank nor a comment and has three fields; `read_interval`
takes the empty text before the first tab for the chromosome, so the value
column is there, and the call returns `true` with the record of chromosome
`""`, start 1, end 2 and value 3. -/
theorem tab_leading_short_line_yields_record :
    fields "\t1\t2\t3".data = ["1".data, "2".data, "3".data] ∧
    skippable "\t1\t2\t3".data = false ∧
    read_interval decScanf 3 (chunks lineBufferLen "\t1\t2\t3\n".data) 0 false =
      .record ⟨"", 1, 2, 3⟩ [] 1 false :=
  ⟨rfl, rfl, rfl⟩

/-! ## The line number in the diagnostics -/

/-- The read loop keeps, for every spec, its place in the list, its name,
window and the lengths of both vectors. -/
theorem processAll_shape (D : DoubleOps V) (o : Nat) (rs : List (Interval V)) :
    ∀ (st st' : MainState V), processAll D o st rs = .ok st' →
      st'.chroms.length = st.chroms.length ∧
      ∀ (j : Nat) (cs : spec V), st.chroms[j]? = some cs →
        ∃ cs', st'.chroms[j]? = some cs' ∧
          cs'.chrom = cs.chrom ∧ cs'.start = cs.start ∧ cs'.length = cs.length ∧
          cs'.countVector.length = cs.countVector.length ∧
          cs'.sumVector.length = cs.sumVector.length := by
  induction rs with
  | nil =>
    intro st st' h
    simp only [processAll, Except.ok.injEq] at h
    subst h
    exact ⟨rfl, fun j cs hj => ⟨cs, hj, rfl, rfl, rfl, rfl, rfl⟩⟩
  | cons r rs ih =>
    intro st st' h
    unfold processAll at h
    cases hp : processInterval D o st r with
    | error e => rw [hp] at h; cases h
    | ok st1 =>
      rw [hp] at h
      obtain ⟨_, _, hlen, hget⟩ := processInterval_ok D o st st1 r hp
      obtain ⟨hlen', hget'⟩ := ih st1 st' h
      refine ⟨hlen'.trans hlen, ?_⟩
      intro j cs hj
      obtain ⟨cs1, h1, h2, h3, h4, h5, h6, _⟩ := hget j cs hj
      obtain ⟨cs2, g1, g2, g3, g4, g5, g6⟩ := hget' j cs1 h1
      exact ⟨cs2, g1, g2.trans h2, g3.trans h3, g4.trans h4, g5.trans h5, g6.trans h6⟩

/-- Two lists of the same length with the same entries are equal. -/
theorem list_ext_getD {α : Type} (d : α) (l1 l2 : List α) (hlen : l1.length = l2.length)
    (h : ∀ i, i < l1.length → l1.getD i d = l2.getD i d) : l1 = l2 := by
  apply List.ext_getElem hlen
  intro i h1 h2
  have hi := h i h1
  rw [List.getD_eq_getElem _ _ h1, List.getD_eq_getElem _ _ h2] at hi
  exact hi

/-! ## What the report loop depends on -/

/-- The lines printed for a chromosome depend only on its name, its window
and the entries of the two vectors below `length`. -/
theorem reportSpec_congr (D : DoubleOps V) (o : Nat) (cs cs' : spec V)
    (hc : cs'.chrom = cs.chrom) (hs : cs'.start = cs.start) (hl : cs'.length = cs.length)
    (hv : ∀ j, j < cs.length →
      cs'.countVector.getD j 0 = cs.countVector.getD j 0 ∧
      cs'.sumVector.getD j D.zero = cs.sumVector.getD j D.zero) :
    reportSpec D o cs' = reportSpec D o cs := by
  have henc : encode D cs' = encode D cs := by
    unfold encode
    rw [hl, encodeLoop_congr D cs'.countVector cs.countVector cs'.sumVector cs.sumVector
      cs.length hv]
  unfold reportSpec
  rw [henc]
  apply List.map_congr_left
  intro r _
  unfold printRun
  rw [hc, hs]

/-- The report loop over two lists whose specs print the same lines. -/
theorem reportAll_congr (D : DoubleOps V) (o : Nat) (l : List (spec V)) :
    ∀ l' : List (spec V), l'.length = l.length →
      (∀ (k : Nat) (cs cs' : spec V), l[k]? = some cs → l'[k]? = some cs' →
        reportSpec D o cs' = reportSpec D o cs) →
      reportAll D o l' = reportAll D o l := by
  induction l with
  | nil =>
    intro l' hlen _
    rw [List.length_eq_zero.mp hlen]
  | cons x xs ih =>
    intro l' hlen h
    cases l' with
    | nil => simp at hlen
    | cons y ys =>
      unfold reportAll
      rw [h 0 x y (by simp) (by simp), ih ys (by simpa using hlen)
        (fun k cs cs' h1 h2 => h (k + 1) cs cs' (by simpa using h1) (by simpa using h2))]

/-! ## Whitespace at the end of the C string -/

/-- The function `skip_whitespace` on a text with one more whitespace
character at the end. -/
theorem skip_whitespace_append (w : Char) (hw : isspace w = true) (y : List Char) :
    skip_whitespace (y ++ [w]) =
      if skip_whitespace y = [] then [] else skip_whitespace y ++ [w] := by
  induction y with
  | nil => simp [skip_whitespace, hw]
  | cons c s ih =>
    by_cases hc : isspace c = true
    · have h1 : skip_whitespace (c :: s ++ [w]) = skip_whitespace (s ++ [w]) := by
        unfold skip_whitespace
        rw [List.cons_append, List.dropWhile_cons_of_pos hc]
      have h2 : skip_whitespace (c :: s) = skip_whitespace s := by
        unfold skip_whitespace
        rw [List.dropWhile_cons_of_pos hc]
      rw [h1, h2, ih]
    · have hc' : isspace c = false := by simpa using hc
      rw [List.cons_append, skip_whitespace_dark c _ hc', skip_whitespace_dark c s hc',
        if_neg (List.cons_ne_nil _ _)]
      rfl

/-- The function `skip_darkspace` on a text with one more whitespace
character at the end. -/
theorem skip_darkspace_append (w : Char) (hw : isspace w = true) (y : List Char) :
    skip_darkspace (y ++ [w]) = skip_darkspace y ++ [w] := by
  induction y with
  | nil => simp [skip_darkspace, hw]
  | cons c s ih =>
    unfold skip_darkspace at ih ⊢
    by_cases hc : isspace c = true
    · rw [List.cons_append, List.dropWhile_cons_of_neg (by simp [hc]),
        List.dropWhile_cons_of_neg (by simp [hc])]
      rfl
    · rw [List.cons_append, List.dropWhile_cons_of_pos (by simpa using hc),
        List.dropWhile_cons_of_pos (by simpa using hc)]
      exact ih

/-- A field does not change when whitespace is put at the end of the text. -/
theorem darkField_append (w : Char) (hw : isspace w = true) (y : List Char) :
    darkField (y ++ [w]) = darkField y := by
  induction y with
  | nil => simp [darkField, hw]
  | cons c s ih =>
    unfold darkField at ih ⊢
    by_cases hc : isspace c = true
    · rw [List.cons_append, List.takeWhile_cons_of_neg (by simp [hc]),
        List.takeWhile_cons_of_neg (by simp [hc])]
    · rw [List.cons_append, List.takeWhile_cons_of_pos (by simpa using hc),
        List.takeWhile_cons_of_pos (by simpa using hc), ih]

/-- The step from one field to the next on a text with one more whitespace
character at the end. -/
theorem next_scan_append (w : Char) (hw : isspace w = true) (x : List Char) :
    skip_whitespace (skip_darkspace (x ++ [w])) =
      if skip_whitespace (skip_darkspace x) = [] then []
      else skip_whitespace (skip_darkspace x) ++ [w] := by
  rw [skip_darkspace_append w hw, skip_whitespace_append w hw]

/-- The loop over the columns on a text with one more whitespace character
at the end finds the same field. -/
theorem valueLoop_append (w : Char) (hw : isspace w = true) (n : Nat) :
    ∀ (f f' s : List Char), darkField f' = darkField f →
      (valueLoop n f' (if s = [] then [] else s ++ [w])).map darkField =
        (valueLoop n f s).map darkField := by
  induction n with
  | zero =>
    intro f f' s hf
    simp only [valueLoop, Option.map_some', hf]
  | succ m ih =>
    intro f f' s _
    by_cases hs : s = []
    · rw [if_pos hs, hs]
      simp [valueLoop]
    · rw [if_neg hs]
      rw [valueLoop, valueLoop, if_neg hs, if_neg (by simp), next_scan_append w hw]
      exact ih s (s ++ [w]) _ (darkField_append w hw s)

/-- Lines 645-688 give the same result when the C string has one more
whitespace character at its end: the newline of a line does not matter. -/
theorem parseLine_append_space (S : Scanf V) (valCol : Int) (w : Char)
    (hw : isspace w = true) (b : List Char) :
    parseLine S valCol (b ++ [w]) = parseLine S valCol b := by
  unfold parseLine
  simp only
  rw [skip_whitespace_append w hw b]
  by_cases h0 : skip_whitespace b = []
  · rw [if_pos h0, if_pos h0, if_pos rfl]
  · have hb : b ≠ [] := by
      intro hb
      rw [hb] at h0
      exact h0 rfl
    obtain ⟨c, t, hct⟩ := List.exists_cons_of_ne_nil hb
    obtain ⟨c0, t0, hc0⟩ := List.exists_cons_of_ne_nil h0
    rw [if_neg h0, if_neg h0, if_neg (by simp)]
    have hh : (skip_whitespace b ++ [w]).head? = (skip_whitespace b).head? := by
      rw [hc0]
      rfl
    have hbh : (b ++ [w]).head? = b.head? := by
      rw [hct]
      rfl
    rw [hh, hbh, darkField_append w hw b, next_scan_append w hw b]
    by_cases hhash : (skip_whitespace b).head? = some '#'
    · rw [if_pos hhash, if_pos hhash]
    · rw [if_neg hhash, if_neg hhash]
      by_cases hsp : b.head? = some ' '
      · rw [if_pos hsp, if_pos hsp]
      · rw [if_neg hsp, if_neg hsp]
        generalize skip_whitespace (skip_darkspace b) = s1
        by_cases h1 : s1 = []
        · rw [if_pos h1, if_pos h1, if_pos rfl]
        · rw [if_neg h1, if_neg h1, if_neg (by simp), darkField_append w hw s1,
            next_scan_append w hw s1]
          generalize skip_whitespace (skip_darkspace s1) = s2
          cases string_to_u32 S (darkField s1) with
          | error e => rfl
          | ok start =>
            simp only
            by_cases h2 : s2 = []
            · rw [if_pos h2, if_pos h2, if_pos rfl]
            · rw [if_neg h2, if_neg h2, if_neg (by simp), darkField_append w hw s2,
                next_scan_append w hw s2]
              cases string_to_u32 S (darkField s2) with
              | error e => rfl
              | ok endPos =>
                simp only
                have hv := valueLoop_append w hw (valCol - 2).toNat s2 (s2 ++ [w])
                  (skip_whitespace (skip_darkspace s2)) (darkField_append w hw s2)
                generalize valueLoop (valCol - 2).toNat (s2 ++ [w])
                  (if skip_whitespace (skip_darkspace s2) = [] then []
                   else skip_whitespace (skip_darkspace s2) ++ [w]) = v1 at hv ⊢
                generalize valueLoop (valCol - 2).toNat s2
                  (skip_whitespace (skip_darkspace s2)) = v2 at hv ⊢
                cases v1 with
                | none =>
                  cases v2 with
                  | none => rfl
                  | some f => simp at hv
                | some f1 =>
                  cases v2 with
                  | none => simp at hv
                  | some f2 =>
                    simp only [Option.map_some', Option.some.injEq] at hv
                    simp only [hv]

/-! ## A buffer with one stretch of one average -/

/-- When the covered positions are exactly those of `[a, b)` and the
average is `x` at each of them, the report loop prints the single run
`(a, b, x)`, provided `x` does not compare unequal to itself and the
comparison is transitive. -/
theorem encode_single_run (D : DoubleOps V) (cs : spec V) (a b : Nat) (x : V)
    (hab : a < b) (hb : b ≤ cs.length)
    (hcount : ∀ j, j < cs.length → (cs.countVector.getD j 0 ≠ 0 ↔ a ≤ j ∧ j < b))
    (havg : ∀ j, a ≤ j → j < b → avgAt D cs.countVector cs.sumVector j = x)
    (hrefl : D.ne x x = false)
    (htr : ∀ p q r, D.ne p q = false → D.ne q r = false → D.ne p r = false) :
    encode D cs = [⟨a, b, x⟩] := by
  have hs := encode_spec D cs
  obtain ⟨r0, hr0, h1, h2⟩ := hs.stretch htr a b hab hb
    (fun j hj1 hj2 => (hcount j (by omega)).mpr ⟨hj1, hj2⟩)
    (fun j hj1 hj2 => by rw [havg (j + 1) (by omega) hj2, havg j hj1 (by omega)]; exact hrefl)
  have hin : ∀ q ∈ encode D cs, a ≤ q.start ∧ q.endPos ≤ b := by
    intro q hq
    obtain ⟨w1, w2⟩ := hs.wf q hq
    have c1 := (hcount q.start (by omega)).mp
      ((hs.cover q.start (by omega)).mpr ⟨q, hq, le_refl _, w1⟩)
    have c2 := (hcount (q.endPos - 1) (by omega)).mp
      ((hs.cover (q.endPos - 1) (by omega)).mpr ⟨q, hq, by omega, by omega⟩)
    exact ⟨c1.1, by omega⟩
  obtain ⟨i1, i2⟩ := hin r0 hr0
  have hstart : r0.start = a := by omega
  have hend : r0.endPos = b := by omega
  have hval : r0.val = x := by
    rw [(hs.runVal r0 hr0).1, hstart]
    exact havg a (le_refl _) hab
  have hr0eq : r0 = ⟨a, b, x⟩ := by
    cases r0
    simp only at hstart hend hval
    rw [hstart, hend, hval]
  have hall : ∀ q ∈ encode D cs, q = r0 := by
    intro q hq
    obtain ⟨j1, j2⟩ := hin q hq
    obtain ⟨w1, _⟩ := hs.wf q hq
    exact hs.run_unique hq hr0 (le_refl _) w1 (by omega) (by omega)
  have hord := hs.ord
  cases hres : encode D cs with
  | nil => rw [hres] at hr0; cases hr0
  | cons y ys =>
    rw [hres] at hall hord
    have hy := hall y (List.mem_cons_self _ _)
    cases ys with
    | nil => rw [hy, hr0eq]
    | cons z zs =>
      have hz := hall z (List.mem_cons_of_mem _ (List.mem_cons_self _ _))
      have hyz := (List.pairwise_cons.mp hord).1 z (List.mem_cons_self _ _)
      rw [hy, hz] at hyz
      have := hyz.1
      omega

/-! ## The report loop reads only -/

/-- C21 (run encoder idempotence).  The report loop has no assignment to
`countVector` or `sumVector`: in the embedding the vectors are arguments of
`encodeStep`, not part of the state it returns.  What it prints for a
chromosome is determined by the name, the window start, the length, the
origin and the entries of the two vectors below `length`: two passes over
memory that agrees in these (in particular two passes over the same
unmodified memory) print the same lines, whatever else differs (the batch
number, entries beyond `length`). -/
theorem run_encoder_idempotent (D : DoubleOps V) (o : Nat) (l l' : List (spec V))
    (hlen : l'.length = l.length)
    (hsame : ∀ (k : Nat) (cs cs' : spec V), l[k]? = some cs → l'[k]? = some cs' →
      cs'.chrom = cs.chrom ∧ cs'.start = cs.start ∧ cs'.length = cs.length ∧
      ∀ j, j < cs.length →
        cs'.countVector.getD j 0 = cs.countVector.getD j 0 ∧
        cs'.sumVector.getD j D.zero = cs.sumVector.getD j D.zero) :
    reportAll D o l' = reportAll D o l ∧
    ∀ (k : Nat) (cs cs' : spec V), l[k]? = some cs → l'[k]? = some cs' →
      reportSpec D o cs' = reportSpec D o cs := by
  have h : ∀ (k : Nat) (cs cs' : spec V), l[k]? = some cs → l'[k]? = some cs' →
      reportSpec D o cs' = reportSpec D o cs := by
    intro k cs cs' h1 h2
    obtain ⟨a, b, c, d⟩ := hsame k cs cs' h1 h2
    exact reportSpec_congr D o cs cs' a b c d
  exact ⟨reportAll_congr D o l l' hlen h, h⟩

/-- The theorem `run_encoder_idempotent` at two states of the memory that
differ in the batch number and in an entry beyond the length. -/
theorem run_encoder_idempotent_witness :
    reportAll ratOps 0 [(⟨"chr1", 0, 2, [1, 0, 7], [5, 0, 9], 3⟩ : spec ℚ)] =
      reportAll ratOps 0 [(⟨"chr1", 0, 2, [1, 0], [5, 0], 1⟩ : spec ℚ)] :=
  (run_encoder_idempotent ratOps 0 [⟨"chr1", 0, 2, [1, 0], [5, 0], 1⟩]
    [⟨"chr1", 0, 2, [1, 0, 7], [5, 0, 9], 3⟩] rfl (by
      intro k cs cs' h1 h2
      cases k with
      | zero =>
        simp only [List.getElem?_cons_zero, Option.some.injEq] at h1 h2
        subst h1
        subst h2
        refine ⟨rfl, rfl, rfl, ?_⟩
        intro j hj
        have hj2 : j < 2 := hj
        interval_cases j <;> exact ⟨rfl, rfl⟩
      | succ n => simp at h1)).1

/-! ## The shape of the vectors is fixed -/

/-- C24 (buffer-shape invariant).  After allocation the count vector and the
sum vector of every spec have exactly `length` entries, all zero.  Whatever
records the read loop then applies, every spec keeps its place, its
`length`, and both vectors keep exactly `length` entries. -/
theorem buffer_shape (D : DoubleOps V) (o : Nat) (specs chroms : List (spec V))
    (rs : List (Interval V)) (st : MainState V)
    (halloc : allocate D specs = .ok chroms)
    (hrun : processAll D o (mainInit chroms) rs = .ok st) :
    (∀ cs ∈ chroms, cs.countVector = List.replicate cs.length 0 ∧
      cs.sumVector = List.replicate cs.length D.zero ∧
      cs.countVector.length = cs.length ∧ cs.sumVector.length = cs.length) ∧
    st.chroms.length = chroms.length ∧
    ∀ (k : Nat) (cs : spec V), chroms[k]? = some cs →
      ∃ cs', st.chroms[k]? = some cs' ∧ cs'.length = cs.length ∧
        cs'.countVector.length = cs'.length ∧ cs'.sumVector.length = cs'.length := by
  have hal := (allocate_ok D specs chroms halloc).2
  have h1 : ∀ cs ∈ chroms, cs.countVector = List.replicate cs.length 0 ∧
      cs.sumVector = List.replicate cs.length D.zero ∧
      cs.countVector.length = cs.length ∧ cs.sumVector.length = cs.length := by
    intro cs hcs
    obtain ⟨_, hc, hs⟩ := hal cs hcs
    exact ⟨hc, hs, by rw [hc, List.length_replicate], by rw [hs, List.length_replicate]⟩
  obtain ⟨hlen, hget⟩ := processAll_shape D o rs (mainInit chroms) st hrun
  refine ⟨h1, hlen, ?_⟩
  intro k cs hk
  obtain ⟨cs', g1, _, _, g4, g5, g6⟩ := hget k cs hk
  obtain ⟨_, _, a3, a4⟩ := h1 cs (List.mem_iff_getElem?.mpr ⟨k, hk⟩)
  exact ⟨cs', g1, g4, by rw [g5, a3, g4], by rw [g6, a4, g4]⟩

/-- The theorem `buffer_shape` at a run over two records, one of them for a
chromosome that is not registered. -/
theorem buffer_shape_witness :
    ∃ st : MainState ℚ,
      processAll ratOps 0 (mainInit [⟨"chr1", 0, 3, [0, 0, 0], [0, 0, 0], 0⟩])
        [⟨"chr1", 0, 2, 5⟩, ⟨"chr2", 1, 9, 7⟩] = .ok st ∧
      ∃ cs', st.chroms[0]? = some cs' ∧ cs'.length = 3 ∧
        cs'.countVector.length = cs'.length ∧ cs'.sumVector.length = cs'.length := by
  obtain ⟨st, hst⟩ := processAll_total ratOps 0
    [(⟨"chr1", 0, 2, 5⟩ : Interval ℚ), ⟨"chr2", 1, 9, 7⟩]
    (mainInit [⟨"chr1", 0, 3, [0, 0, 0], [0, 0, 0], 0⟩]) (cacheOK_mainInit _)
    (Or.inl (by simp)) (by simp [mainInit])
  exact ⟨st, hst, (buffer_shape ratOps 0 [⟨"chr1", 0, 3, [], [], 0⟩]
    [⟨"chr1", 0, 3, [0, 0, 0], [0, 0, 0], 0⟩] _ st rfl hst).2.2 0
    ⟨"chr1", 0, 3, [0, 0, 0], [0, 0, 0], 0⟩ (by simp)⟩

/-! ## Index safety -/

/-- The pointer `chromSpec` designates a spec of the list after the lookup
step, when it did before. -/
theorem resolveChrom_pointer (st : MainState V) (chrom : String) (hok : CacheOK st)
    (k : Nat) (h : (resolveChrom st chrom).chromSpec = some k) :
    ∃ cs, st.chroms[k]? = some cs := by
  unfold resolveChrom at h
  by_cases hc : chrom ≠ st.prevChrom
  · rw [if_pos hc] at h
    cases hf : find_chromosome_spec st.chroms chrom with
    | none => rw [hf] at h; cases h
    | some j =>
      rw [hf] at h
      simp only [Option.some.injEq] at h
      obtain ⟨cs, h1, _⟩ := find_chromosome_spec_sound st.chroms chrom j hf
      exact ⟨cs, h ▸ h1⟩
  · rw [if_neg hc] at h
    rcases hok with h1 | h1
    · rw [h1] at h
      obtain ⟨cs, h2, _⟩ := find_chromosome_spec_sound st.chroms st.prevChrom k h
      exact ⟨cs, h2⟩
    · rw [h1.2] at h
      cases h

/-- C26 (index safety).  Let both vectors of every spec have `length`
entries and let the cached lookup be consistent, as is the case all through
the read loop.  For a record with any start and end and any origin: the
pointer `chromSpec`, when not null, designates a spec of the list; the range
lines 421-442 compute for that spec ends at or before `length` (otherwise
the record was fatal or ignored); and at every stage of the accumulation
loop both vectors still have `length` entries, so every index `ix` of the
loop is inside both vectors. -/
theorem index_safety (D : DoubleOps V) (o : Nat) (st : MainState V) (r : Interval V)
    (hok : CacheOK st)
    (hshape : ∀ cs ∈ st.chroms,
      cs.countVector.length = cs.length ∧ cs.sumVector.length = cs.length)
    (k : Nat) (hk : (resolveChrom st r.chrom).chromSpec = some k) :
    ∃ cs, (resolveChrom st r.chrom).chroms[k]? = some cs ∧
      cs.countVector.length = cs.length ∧ cs.sumVector.length = cs.length ∧
      ∀ a b, clipRange cs r.chrom ((r.start + 2 ^ 32 - o) % 2 ^ 32) r.endPos =
          .ok (some (a, b)) →
        b ≤ cs.length ∧
        ∀ n ix, a ≤ ix → ix < b →
          ix < ((List.range' a n).foldl (accumulateAt D r.val) cs).countVector.length ∧
          ix < ((List.range' a n).foldl (accumulateAt D r.val) cs).sumVector.length := by
  obtain ⟨cs0, h0⟩ := resolveChrom_pointer st r.chrom hok k hk
  obtain ⟨cs, h1, _, _, h4, h5, h6⟩ := resolveChrom_getElem? st r.chrom k cs0 h0
  obtain ⟨s1, s2⟩ := hshape cs0 (List.mem_iff_getElem?.mpr ⟨k, h0⟩)
  refine ⟨cs, h1, by rw [h5, s1, h4], by rw [h6, s2, h4], ?_⟩
  intro a b hclip
  have hb := clipRange_bound cs r.chrom _ _ a b hclip
  refine ⟨hb, ?_⟩
  intro n ix _ hix
  have hf := foldl_accumulateAt_fields D r.val (List.range' a n) cs
  rw [hf.2.2.2.2.1, hf.2.2.2.2.2, h5, h6, s1, s2, ← h4]
  exact ⟨by omega, by omega⟩

/-- The theorem `index_safety` at the window `chr1:100:103` and a record
that reaches beyond the window on both sides. -/
theorem index_safety_witness :
    ∃ cs : spec ℚ,
      (resolveChrom (mainInit [(⟨"chr1", 100, 3, [0, 0, 0], [0, 0, 0], 0⟩ : spec ℚ)])
        "chr1").chroms[0]? = some cs ∧
      cs.countVector.length = cs.length ∧ cs.sumVector.length = cs.length ∧
      ∀ a b, clipRange cs "chr1" ((50 + 2 ^ 32 - 1) % 2 ^ 32) 1000 = .ok (some (a, b)) →
        b ≤ cs.length ∧
        ∀ n ix, a ≤ ix → ix < b →
          ix < ((List.range' a n).foldl (accumulateAt ratOps 5) cs).countVector.length ∧
          ix < ((List.range' a n).foldl (accumulateAt ratOps 5) cs).sumVector.length :=
  index_safety ratOps 1 (mainInit [⟨"chr1", 100, 3, [0, 0, 0], [0, 0, 0], 0⟩])
    ⟨"chr1", 50, 1000, 5⟩ (cacheOK_mainInit _)
    (by
      intro cs hcs
      simp only [mainInit, List.mem_singleton] at hcs
      subst hcs
      exact ⟨rfl, rfl⟩)
    0 (by simp [resolveChrom, mainInit, find_chromosome_spec])

/-! ## The frame of one record -/

/-- C27 (accumulator frame).  One iteration of the read loop changes the
count and the sum only of the spec the pointer `chromSpec` designates after
the lookup step, and only at the positions of the range computed for the
record: every other spec keeps both vectors as they are, and the designated
spec keeps the count and the sum at every position outside the range.  When
the cached lookup is consistent and the record has a name (or no spec is
registered under the empty name), the pointer is the result of
`find_chromosome_spec` for the name of the record. -/
theorem accumulator_frame (D : DoubleOps V) (o : Nat) (st st' : MainState V)
    (r : Interval V) (h : processInterval D o st r = .ok st')
    (j : Nat) (cs : spec V) (hj : st.chroms[j]? = some cs) :
    (∃ cs', st'.chroms[j]? = some cs' ∧
      ((resolveChrom st r.chrom).chromSpec ≠ some j →
        cs'.countVector = cs.countVector ∧ cs'.sumVector = cs.sumVector) ∧
      (∀ i, covers cs o r i = false →
        cs'.countVector.getD i 0 = cs.countVector.getD i 0 ∧
        cs'.sumVector.getD i D.zero = cs.sumVector.getD i D.zero)) ∧
    (CacheOK st → (r.chrom ≠ "" ∨ find_chromosome_spec st.chroms "" = none) →
      (resolveChrom st r.chrom).chromSpec = find_chromosome_spec st.chroms r.chrom) := by
  obtain ⟨_, _, _, hget⟩ := processInterval_ok D o st st' r h
  obtain ⟨cs', h1, _, _, _, h5, h6, h7, h8⟩ := hget j cs hj
  refine ⟨⟨cs', h1, ?_, ?_⟩, fun hok hne => (resolveChrom_spec st r.chrom hok hne).1⟩
  · intro hne
    constructor
    · apply list_ext_getD 0 _ _ h5
      intro i _
      rw [h7 i, if_neg (fun hh => hne hh.1)]
    · apply list_ext_getD D.zero _ _ h6
      intro i _
      rw [h8 i, if_neg (fun hh => hne hh.1)]
  · intro i hcov
    rw [h7 i, h8 i, if_neg (fun hh => by rw [hcov] at hh; exact absurd hh.2.1 (by simp)),
      if_neg (fun hh => by rw [hcov] at hh; exact absurd hh.2.1 (by simp))]
    exact ⟨rfl, rfl⟩

/-- The theorem `accumulator_frame` at a list of two chromosomes and a
record for the first one: the second keeps its vectors. -/
theorem accumulator_frame_witness :
    ∃ st' : MainState ℚ,
      processInterval ratOps 0
        (mainInit [⟨"chr1", 0, 3, [0, 0, 0], [0, 0, 0], 0⟩, ⟨"chr2", 0, 2, [0, 0], [0, 0], 0⟩])
        ⟨"chr1", 0, 2, 5⟩ = .ok st' ∧
      ∃ cs', st'.chroms[1]? = some cs' ∧ cs'.countVector = [0, 0] ∧ cs'.sumVector = [0, 0] := by
  have hp : ∃ st', processInterval ratOps 0
      (mainInit [⟨"chr1", 0, 3, [0, 0, 0], [0, 0, 0], 0⟩, ⟨"chr2", 0, 2, [0, 0], [0, 0], 0⟩])
      (⟨"chr1", 0, 2, 5⟩ : Interval ℚ) = .ok st' := by
    obtain ⟨st', hst⟩ := processAll_total ratOps 0 [(⟨"chr1", 0, 2, 5⟩ : Interval ℚ)]
      (mainInit [⟨"chr1", 0, 3, [0, 0, 0], [0, 0, 0], 0⟩, ⟨"chr2", 0, 2, [0, 0], [0, 0], 0⟩])
      (cacheOK_mainInit _) (Or.inl (by simp)) (by simp [mainInit])
    unfold processAll at hst
    cases hq : processInterval ratOps 0
        (mainInit [⟨"chr1", 0, 3, [0, 0, 0], [0, 0, 0], 0⟩, ⟨"chr2", 0, 2, [0, 0], [0, 0], 0⟩])
        (⟨"chr1", 0, 2, 5⟩ : Interval ℚ) with
    | ok st1 => exact ⟨st1, rfl⟩
    | error e => rw [hq] at hst; cases hst
  obtain ⟨st', hst⟩ := hp
  obtain ⟨⟨cs', h1, h2, _⟩, _⟩ := accumulator_frame ratOps 0 _ st' _ hst 1
    ⟨"chr2", 0, 2, [0, 0], [0, 0], 0⟩ (by simp [mainInit])
  exact ⟨st', hst, cs', h1, h2 (by simp [resolveChrom, mainInit, find_chromosome_spec])⟩

/-! ## A start of zero in origin-one mode -/

/-- In origin-one mode no position is in the range of a record whose start
field is zero, for a spec whose window ends below `2^32`. -/
theorem covers_underflow (cs : spec V) (r : Interval V) (hstart : r.start = 0)
    (hlt : cs.start + cs.length < 2 ^ 32) (i : Nat) : covers cs 1 r i = false := by
  unfold covers clipRange
  rw [hstart]
  have hs : (0 + 2 ^ 32 - 1) % 2 ^ 32 = 2 ^ 32 - 1 := by decide
  rw [hs]
  by_cases h0 : cs.start = 0
  · rw [if_pos h0]
    by_cases he : r.endPos > cs.length
    · rw [if_pos he]
    · rw [if_neg he]
      simp only [decide_eq_false_iff_not]
      omega
  · rw [if_neg h0]
    by_cases he : r.endPos ≤ cs.start
    · rw [if_pos he]
    · rw [if_neg he]
      simp only
      rw [if_pos]
      split_ifs <;> omega

/-- C30 (origin-one underflow).  In origin-one mode the subtraction
`start -= o` turns a start field of zero into `2^32 - 1`.  For a spec whose
window ends below `2^32` the record then updates no position: lines 420-453
leave the spec as it is, or end at `chrom_too_short` when the window start
is zero and the end of the record is beyond the length.  So one iteration of
the read loop for such a record changes no count and no sum. -/
theorem origin_one_underflow (D : DoubleOps V) (r : Interval V) (hstart : r.start = 0) :
    (r.start + 2 ^ 32 - 1) % 2 ^ 32 = 2 ^ 32 - 1 ∧
    (∀ cs : spec V, cs.start + cs.length < 2 ^ 32 →
      (∀ i, covers cs 1 r i = false) ∧
      (applyToSpec D 1 cs r = .ok cs ∨
        (cs.start = 0 ∧ cs.length < r.endPos ∧
          applyToSpec D 1 cs r =
            .error (.chrom_too_short r.chrom (2 ^ 32 - 1) r.endPos cs.length)))) ∧
    (∀ st st' : MainState V, (∀ cs ∈ st.chroms, cs.start + cs.length < 2 ^ 32) →
      processInterval D 1 st r = .ok st' →
      ∀ k i, countAt st' k i = countAt st k i ∧ sumAt D st' k i = sumAt D st k i) := by
  have hs : (r.start + 2 ^ 32 - 1) % 2 ^ 32 = 2 ^ 32 - 1 := by
    rw [hstart]
    decide
  refine ⟨hs, ?_, ?_⟩
  · intro cs hlt
    refine ⟨covers_underflow cs r hstart hlt, ?_⟩
    unfold applyToSpec clipRange
    rw [hs]
    by_cases h0 : cs.start = 0
    · rw [if_pos h0]
      by_cases he : r.endPos > cs.length
      · rw [if_pos he]
        exact Or.inr ⟨h0, he, rfl⟩
      · rw [if_neg he]
        left
        simp only
        unfold accumulate
        have hz : r.endPos - (2 ^ 32 - 1) = 0 := by omega
        rw [hz]
        rfl
    · rw [if_neg h0]
      left
      by_cases he : r.endPos ≤ cs.start
      · rw [if_pos he]
      · rw [if_neg he]
        simp only
        rw [if_pos]
        split_ifs <;> omega
  · intro st st' hall h k i
    obtain ⟨_, _, _, hget⟩ := processInterval_ok D 1 st st' r h
    unfold countAt sumAt
    cases hk : st.chroms[k]? with
    | none =>
      have hge : st.chroms.length ≤ k := List.getElem?_eq_none_iff.mp hk
      have hlen := (processInterval_ok D 1 st st' r h).2.2.1
      rw [List.getElem?_eq_none (by omega)]
      exact ⟨rfl, rfl⟩
    | some cs =>
      obtain ⟨cs', h1, _, _, _, _, _, h7, h8⟩ := hget k cs hk
      have hcov := covers_underflow cs r hstart
        (hall cs (List.mem_iff_getElem?.mpr ⟨k, hk⟩)) i
      rw [h1]
      simp only
      rw [h7 i, h8 i,
        if_neg (fun hh => by rw [hcov] at hh; exact absurd hh.2.1 (by simp)),
        if_neg (fun hh => by rw [hcov] at hh; exact absurd hh.2.1 (by simp))]
      exact ⟨rfl, rfl⟩

/-- The theorem `origin_one_underflow` at the record `(chr1, 0, 2, 5)` and a
chromosome of three positions: the record is applied and changes nothing. -/
theorem origin_one_underflow_witness :
    applyToSpec ratOps 1 ⟨"chr1", 0, 3, [0, 0, 0], [0, 0, 0], 0⟩ ⟨"chr1", 0, 2, 5⟩ =
      .ok ⟨"chr1", 0, 3, [0, 0, 0], [0, 0, 0], 0⟩ ∧
    ∀ i, covers (⟨"chr1", 0, 3, [0, 0, 0], [0, 0, 0], 0⟩ : spec ℚ) 1 ⟨"chr1", 0, 2, 5⟩ i =
      false := by
  obtain ⟨hc, ha⟩ := (origin_one_underflow ratOps (⟨"chr1", 0, 2, 5⟩ : Interval ℚ) rfl).2.1
    ⟨"chr1", 0, 3, [0, 0, 0], [0, 0, 0], 0⟩ (by decide)
  refine ⟨?_, hc⟩
  rcases ha with h | ⟨_, h, _⟩
  · exact h
  · exact absurd h (by decide)

/-! ## The order of the records -/

/-- Order independence, apart from the empty name.  Start from freshly
allocated buffers of
chromosomes with pairwise different names and run the read loop over a list
of records and over the same records in another order (no record with an
empty chromosome field, or no chromosome registered under the empty name),
both runs without fatal record.  Then every count is the same in both final
states.  If adding values does not depend on the order
(`(s + a) + b = (s + b) + a`, as for exact numbers), every sum at a position
whose count is below `maxCount` is the same, and if no count has reached
`maxCount` the report loop prints the same lines for both. -/
theorem order_independence (D : DoubleOps V) (o : Nat) (specs chroms : List (spec V))
    (rs rs' : List (Interval V)) (st st' : MainState V)
    (halloc : allocate D specs = .ok chroms)
    (hnd : (specs.map (fun cs => cs.chrom)).Nodup)
    (hname : (∀ r ∈ rs, r.chrom ≠ "") ∨ (∀ cs ∈ specs, cs.chrom ≠ ""))
    (hperm : rs.Perm rs')
    (hrun : processAll D o (mainInit chroms) rs = .ok st)
    (hrun' : processAll D o (mainInit chroms) rs' = .ok st') :
    (∀ (k : Nat) (cs : spec V), chroms[k]? = some cs → ∀ i, i < cs.length →
      countAt st k i = countAt st' k i) ∧
    ((∀ s a b, D.add (D.add s a) b = D.add (D.add s b) a) →
      (∀ (k : Nat) (cs : spec V), chroms[k]? = some cs → ∀ i, i < cs.length →
        countAt st k i < maxCount → sumAt D st k i = sumAt D st' k i) ∧
      ((∀ k i, countAt st k i < maxCount) →
        reportAll D o st.chroms = reportAll D o st'.chroms)) := by
  have hname' : (∀ r ∈ rs', r.chrom ≠ "") ∨ (∀ cs ∈ specs, cs.chrom ≠ "") :=
    hname.elim (fun h => Or.inl (fun r hr => h r (hperm.mem_iff.mpr hr))) Or.inr
  have hcovp : ∀ (cs : spec V) (i : Nat),
      (coveringRecords cs o rs i).Perm (coveringRecords cs o rs' i) := by
    intro cs i
    unfold coveringRecords
    exact hperm.filter _
  have hcount : ∀ (k : Nat) (cs : spec V), chroms[k]? = some cs → ∀ i, i < cs.length →
      countAt st k i = countAt st' k i := by
    intro k cs hk i hi
    rw [(processAll_allocated D o specs chroms rs st halloc hnd hname hrun k cs hk i hi).1,
      (processAll_allocated D o specs chroms rs' st' halloc hnd hname' hrun' k cs hk i hi).1,
      (hcovp cs i).length_eq]
  have hsum : (∀ s a b, D.add (D.add s a) b = D.add (D.add s b) a) →
      ∀ (k : Nat) (cs : spec V), chroms[k]? = some cs → ∀ i, i < cs.length →
        countAt st k i < maxCount → sumAt D st k i = sumAt D st' k i := by
    intro hcomm k cs hk i hi hlt
    obtain ⟨h1, h2⟩ :=
      processAll_allocated D o specs chroms rs st halloc hnd hname hrun k cs hk i hi
    obtain ⟨_, h2'⟩ :=
      processAll_allocated D o specs chroms rs' st' halloc hnd hname' hrun' k cs hk i hi
    rw [h1] at hlt
    have hl : (coveringRecords cs o rs i).length ≤ maxCount := by omega
    have hl' : (coveringRecords cs o rs' i).length ≤ maxCount := by
      rw [← (hcovp cs i).length_eq]
      exact hl
    rw [h2, h2', List.take_of_length_le (by rw [List.length_map]; exact hl),
      List.take_of_length_le (by rw [List.length_map]; exact hl')]
    unfold sumValues
    exact List.Perm.foldl_eq' ((hcovp cs i).map _) (fun x _ y _ z => hcomm z x y) D.zero
  refine ⟨hcount, fun hcomm => ⟨hsum hcomm, ?_⟩⟩
  intro hnosat
  obtain ⟨hlen, hget⟩ := processAll_shape D o rs (mainInit chroms) st hrun
  obtain ⟨hlen', hget'⟩ := processAll_shape D o rs' (mainInit chroms) st' hrun'
  apply reportAll_congr D o st'.chroms st.chroms (hlen.trans hlen'.symm)
  intro k cs2 cs1 hk2 hk1
  have hkl : k < chroms.length := by
    have := (List.getElem?_eq_some_iff.mp hk1).1
    rw [hlen] at this
    exact this
  have hk : chroms[k]? = some chroms[k] := List.getElem?_eq_getElem hkl
  obtain ⟨c1, g1, a1, a2, a3, _, _⟩ := hget k _ hk
  obtain ⟨c2, g2, b1, b2, b3, _, _⟩ := hget' k _ hk
  have e1 : c1 = cs1 := by
    have := g1.symm.trans hk1
    simpa using this
  have e2 : c2 = cs2 := by
    have := g2.symm.trans hk2
    simpa using this
  subst e1
  subst e2
  apply reportSpec_congr D o c2 c1 (a1.trans b1.symm) (a2.trans b2.symm) (a3.trans b3.symm)
  intro j hj
  rw [b3] at hj
  have hc := hcount k _ hk j hj
  have hs := hsum hcomm k _ hk j hj (hnosat k j)
  unfold countAt at hc
  unfold sumAt at hs
  rw [show st.chroms[k]? = some c1 from g1, show st'.chroms[k]? = some c2 from g2] at hc hs
  exact ⟨hc, hs⟩

/-- The theorem `order_independence` at two overlapping records of `chr1`
applied in both orders: the counts and the sums agree at every position. -/
theorem order_independence_witness :
    ∃ st st' : MainState ℚ,
      processAll ratOps 0 (mainInit [⟨"chr1", 0, 3, [0, 0, 0], [0, 0, 0], 0⟩])
        [⟨"chr1", 0, 2, 5⟩, ⟨"chr1", 1, 3, 3⟩] = .ok st ∧
      processAll ratOps 0 (mainInit [⟨"chr1", 0, 3, [0, 0, 0], [0, 0, 0], 0⟩])
        [⟨"chr1", 1, 3, 3⟩, ⟨"chr1", 0, 2, 5⟩] = .ok st' ∧
      ∀ i, i < 3 → countAt st 0 i = countAt st' 0 i ∧ sumAt ratOps st 0 i = sumAt ratOps st' 0 i := by
  obtain ⟨st, hst⟩ := processAll_total ratOps 0
    [(⟨"chr1", 0, 2, 5⟩ : Interval ℚ), ⟨"chr1", 1, 3, 3⟩]
    (mainInit [⟨"chr1", 0, 3, [0, 0, 0], [0, 0, 0], 0⟩]) (cacheOK_mainInit _)
    (Or.inl (by simp)) (by simp [mainInit])
  obtain ⟨st', hst'⟩ := processAll_total ratOps 0
    [(⟨"chr1", 1, 3, 3⟩ : Interval ℚ), ⟨"chr1", 0, 2, 5⟩]
    (mainInit [⟨"chr1", 0, 3, [0, 0, 0], [0, 0, 0], 0⟩]) (cacheOK_mainInit _)
    (Or.inl (by simp)) (by simp [mainInit])
  have hnd : ([(⟨"chr1", 0, 3, [], [], 0⟩ : spec ℚ)].map (fun cs => cs.chrom)).Nodup := by
    simp
  have hname : (∀ r ∈ [(⟨"chr1", 0, 2, 5⟩ : Interval ℚ), ⟨"chr1", 1, 3, 3⟩], r.chrom ≠ "") ∨
      (∀ cs ∈ [(⟨"chr1", 0, 3, [], [], 0⟩ : spec ℚ)], cs.chrom ≠ "") := Or.inl (by simp)
  obtain ⟨h1, h2⟩ := order_independence ratOps 0 [⟨"chr1", 0, 3, [], [], 0⟩]
    [⟨"chr1", 0, 3, [0, 0, 0], [0, 0, 0], 0⟩] _ _ st st' rfl hnd hname
    (List.Perm.swap _ _ _) hst hst'
  refine ⟨st, st', hst, hst', ?_⟩
  intro i hi
  have hc := h1 0 ⟨"chr1", 0, 3, [0, 0, 0], [0, 0, 0], 0⟩ (by simp) i hi
  refine ⟨hc, ?_⟩
  apply (h2 (fun s a b => by simp only [ratOps]; ring)).1 0
    ⟨"chr1", 0, 3, [0, 0, 0], [0, 0, 0], 0⟩ (by simp) i hi
  rw [(processAll_allocated ratOps 0 [⟨"chr1", 0, 3, [], [], 0⟩]
    [⟨"chr1", 0, 3, [0, 0, 0], [0, 0, 0], 0⟩] _ st rfl hnd hname hst 0
    ⟨"chr1", 0, 3, [0, 0, 0], [0, 0, 0], 0⟩ (by simp) i hi).1]
  have hle : (coveringRecords (⟨"chr1", 0, 3, [0, 0, 0], [0, 0, 0], 0⟩ : spec ℚ) 0
      [⟨"chr1", 0, 2, 5⟩, ⟨"chr1", 1, 3, 3⟩] i).length ≤ 2 := by
    unfold coveringRecords
    exact List.length_filter_le _ _
  have hm : 2 < maxCount := by decide
  omega

/-! ## Lines that do not fit the buffer -/

/-- A call of `fgets` on a stream whose next characters fill the buffer
without a newline. -/
theorem fgetsAux_full (c more : List Char) (hnl : '\n' ∉ c) : ∀ n : Nat, c.length = n →
    fgetsAux n (c ++ more) = (c, more) := by
  induction c with
  | nil =>
    intro n hn
    simp only [List.length_nil] at hn
    rw [← hn]
    rfl
  | cons x xs ih =>
    intro n hn
    cases n with
    | zero => simp at hn
    | succ m =>
      have hx : ¬ x = '\n' := fun he => hnl (he ▸ List.mem_cons_self _ _)
      have hi := ih (fun hm => hnl (List.mem_cons_of_mem _ hm)) m
        (by simp only [List.length_cons] at hn; omega)
      rw [List.cons_append]
      unfold fgetsAux
      rw [if_neg hx, hi]

/-- The buffers of a stream that starts with 999 characters without
newline: these characters, then the buffers of the rest. -/
theorem chunks_full (c more : List Char) (hlen : c.length = lineBufferLen - 1)
    (hnl : '\n' ∉ c) :
    chunks lineBufferLen (c ++ more) = c :: chunks lineBufferLen more := by
  have hne : c ++ more ≠ [] := by
    intro h
    have hl := congrArg List.length h
    rw [List.length_append, hlen] at hl
    simp [lineBufferLen] at hl
  rw [chunks_cons lineBufferLen (by decide) _ hne,
    fgetsAux_full c more hnl (lineBufferLen - 1) hlen]

/-- After a buffer without newline and NUL that is not empty, `missingEol`
is true. -/
theorem nextMissingEol_open (me : Bool) (c : List Char) (hne : c ≠ [])
    (hnl : '\n' ∉ c) (hnul : Char.ofNat 0 ∉ c) : nextMissingEol me c = true := by
  unfold nextMissingEol
  rw [cstr_of_no_nul c hnul]
  cases hl : c.getLast? with
  | none => exact absurd (List.getLast?_eq_none_iff.mp hl) hne
  | some x =>
    simp only [decide_eq_true_eq]
    intro hx
    rw [hx] at hl
    exact hnl (List.mem_of_getLast?_eq_some hl)

/-- A call of `read_interval` when `missingEol` is true and the stream is
not at its end. -/
theorem read_interval_missing_eol (S : Scanf V) (valCol : Int) (cs : List (List Char))
    (hcs : cs ≠ []) (ln : Nat) :
    read_interval S valCol cs ln true =
      .fatal (.problem .missing_eol (reportedLine (nextLineNumber ln))) := by
  cases cs with
  | nil => exact absurd rfl hcs
  | cons b rest =>
    rw [read_interval]
    rfl

/-- The buffers of a stream that is not at its end. -/
theorem chunks_ne_nil (more : List Char) (h : more ≠ []) :
    chunks lineBufferLen more ≠ [] := by
  rw [chunks_cons lineBufferLen (by decide) more h]
  exact List.cons_ne_nil _ _

/-- C25 (over-long lines), as the code has it.  Let the stream continue with
a line of more than 998 characters: 999 characters `c` without newline and
NUL, then more of the stream (the rest of the line, or its newline).  The
call of `fgets` delivers `c`.  If `c` is passed over as blank or comment,
the same call of `read_interval` ends at `missing_eol` on its next read; if
`c` parses to a record, the call returns it and the following call ends at
`missing_eol`.  A last line of at most 999 characters without newline is
parsed as if it had its newline, and the call after it returns `false`
without failure. -/
theorem over_long_lines (S : Scanf V) (valCol : Int) (ln : Nat) :
    (∀ c more : List Char, c.length = lineBufferLen - 1 → '\n' ∉ c → Char.ofNat 0 ∉ c →
      more ≠ [] →
      (parseLine S valCol c = .skip →
        read_interval S valCol (chunks lineBufferLen (c ++ more)) ln false =
          .fatal (.problem .missing_eol (reportedLine (nextLineNumber (nextLineNumber ln))))) ∧
      (∀ r, parseLine S valCol c = .record r →
        read_interval S valCol (chunks lineBufferLen (c ++ more)) ln false =
          .record r (chunks lineBufferLen more) (nextLineNumber ln) true ∧
        read_interval S valCol (chunks lineBufferLen more) (nextLineNumber ln) true =
          .fatal (.problem .missing_eol
            (reportedLine (nextLineNumber (nextLineNumber ln)))))) ∧
    (∀ last : List Char, last ≠ [] → last.length < lineBufferLen → '\n' ∉ last →
      Char.ofNat 0 ∉ last →
      read_interval S valCol (chunks lineBufferLen last) ln false =
        (match parseLine S valCol (last ++ ['\n']) with
          | .skip => .eof (nextLineNumber ln) true
          | .record r => .record r [] (nextLineNumber ln) true
          | .problem p => .fatal (.problem p (reportedLine (nextLineNumber ln)))
          | .conversion e => .fatal (.conversion e)) ∧
      read_interval S valCol [] (nextLineNumber ln) true = .eof (nextLineNumber ln) true) := by
  constructor
  · intro c more hlen hnl hnul hmore
    have hne : c ≠ [] := by
      intro h
      rw [h] at hlen
      simp [lineBufferLen] at hlen
    have hme := nextMissingEol_open false c hne hnl hnul
    have hnext := read_interval_missing_eol S valCol (chunks lineBufferLen more)
      (chunks_ne_nil more hmore) (nextLineNumber ln)
    rw [chunks_full c more hlen hnl]
    constructor
    · intro hp
      rw [read_interval]
      simp only [Bool.false_eq_true, if_false, cstr_of_no_nul c hnul, hp, hme]
      exact hnext
    · intro r hp
      refine ⟨?_, hnext⟩
      rw [read_interval]
      simp only [Bool.false_eq_true, if_false, cstr_of_no_nul c hnul, hp, hme]
  · intro last hne hlen hnl hnul
    refine ⟨?_, rfl⟩
    have hme := nextMissingEol_open false last hne hnl hnul
    rw [chunks_last last hne hlen hnl, read_interval, parseLine_append_space S valCol '\n'
      (by decide) last]
    simp only [Bool.false_eq_true, if_false, cstr_of_no_nul last hnul, hme]
    cases parseLine S valCol last with
    | skip => rfl
    | record r => rfl
    | problem p => rfl
    | conversion e => rfl

set_option maxRecDepth 1000000 in
/-- The theorem `over_long_lines` at a comment line of 1000 characters, at a
line whose first 999 characters are a record, and at a last line without
newline. -/
theorem over_long_lines_witness :
    read_interval decScanf 3
        (chunks lineBufferLen (('#' :: List.replicate 998 'x') ++ "x\nchr1 1 2 3\n".data)) 0 false =
      .fatal (.problem .missing_eol (reportedLine (nextLineNumber (nextLineNumber 0)))) ∧
    read_interval decScanf 3
        (chunks lineBufferLen (("c 1 2 5".data ++ List.replicate 992 ' ') ++ " \n".data)) 0 false =
      .record ⟨"c", 1, 2, 5⟩ (chunks lineBufferLen " \n".data) (nextLineNumber 0) true ∧
    read_interval decScanf 3 (chunks lineBufferLen "chr1 1 2 3".data) 0 false =
      .record ⟨"chr1", 1, 2, 3⟩ [] (nextLineNumber 0) true :=
  ⟨((over_long_lines decScanf 3 0).1 ('#' :: List.replicate 998 'x') "x\nchr1 1 2 3\n".data
      rfl (by decide) (by decide) (by decide)).1 rfl,
   (((over_long_lines decScanf 3 0).1 ("c 1 2 5".data ++ List.replicate 992 ' ') " \n".data
      rfl (by decide) (by decide) (by decide)).2 ⟨"c", 1, 2, 5⟩ rfl).1,
   ((over_long_lines decScanf 3 0).2 "chr1 1 2 3".data (by decide) (by decide) (by decide)
      (by decide)).1⟩

set_option maxRecDepth 1000000 in
/-- C25, counterexample.  The line `chr1`, 1000 blanks, `1 2 3` does not fit
the buffer.  Its first 999 characters hold the chromosome and blanks only,
so the call that reads them ends at `no_start` ("line contains no interval
start"), not at `missing_eol`. -/
theorem long_line_other_failure :
    chunks lineBufferLen ("chr1".data ++ List.replicate 1000 ' ' ++ "1 2 3\n".data) =
      [("chr1".data ++ List.replicate 995 ' '), (List.replicate 5 ' ' ++ "1 2 3\n".data)] ∧
    read_interval decScanf 3
        (chunks lineBufferLen ("chr1".data ++ List.replicate 1000 ' ' ++ "1 2 3\n".data))
        0 false = .fatal (.problem .no_start 0) :=
  ⟨rfl, rfl⟩

/-! ## One record, read and reported -/

/-- The positions updated for a record that lies inside the window. -/
theorem covers_inside (cs : spec V) (o : Nat) (r : Interval V) (ho : o ≤ r.start)
    (hs : r.start < 2 ^ 32) (hse : r.start - o < r.endPos) (hw : cs.start ≤ r.start - o)
    (he : r.endPos ≤ cs.start + cs.length) (i : Nat) :
    covers cs o r i = decide (r.start - o - cs.start ≤ i ∧ i < r.endPos - cs.start) := by
  have hm : (r.start + 2 ^ 32 - o) % 2 ^ 32 = r.start - o := by omega
  unfold covers clipRange
  rw [hm]
  by_cases h0 : cs.start = 0
  · rw [if_pos h0, if_neg (by omega)]
    simp only [h0, Nat.sub_zero]
  · rw [if_neg h0, if_neg (by omega)]
    simp only
    rw [if_neg (by split_ifs <;> omega)]
    simp only [decide_eq_decide]
    split_ifs <;> omega

/-- One record inside the window of the only chromosome, with coordinates
below `2^31`, a name that is not empty and a value for which the arithmetic
is exact: the program prints exactly one line, with the coordinates and the
value of the record. -/
theorem single_record_round_trip (D : DoubleOps V) (originOne : Bool) (name : String)
    (ws length s e : Nat) (v : V) (hname : name ≠ "")
    (ho : (if originOne then 1 else 0) ≤ s)
    (hse : s - (if originOne then 1 else 0) < e)
    (hw : ws ≤ s - (if originOne then 1 else 0))
    (he : e ≤ ws + length) (he31 : e < 2 ^ 31)
    (hrefl : ∀ x, D.ne x x = false)
    (htr : ∀ p q r, D.ne p q = false → D.ne q r = false → D.ne p r = false)
    (hval : D.divCount (D.add D.zero v) 1 = v) :
    chrom_avg D originOne [⟨name, ws, length, [], [], 0⟩] [⟨name, s, e, v⟩] =
      .ok [⟨name, (s : Int), (e : Int), v⟩] := by
  generalize ho' : (if originOne then 1 else 0) = o at ho hse hw
  have ho1 : o ≤ 1 := by
    rw [← ho']
    split <;> omega
  have hlen0 : length ≠ 0 := by omega
  have hs32 : s < 2 ^ 32 := by omega
  have halloc : allocate D [(⟨name, ws, length, [], [], 0⟩ : spec V)] =
      .ok [⟨name, ws, length, List.replicate length 0, List.replicate length D.zero, 0⟩] := by
    simp [allocate, hlen0]
  have hnd : ([(⟨name, ws, length, [], [], 0⟩ : spec V)].map (fun cs => cs.chrom)).Nodup := by
    simp
  have hnm : (∀ r ∈ [(⟨name, s, e, v⟩ : Interval V)], r.chrom ≠ "") ∨
      (∀ cs ∈ [(⟨name, ws, length, [], [], 0⟩ : spec V)], cs.chrom ≠ "") :=
    Or.inl (by simpa using hname)
  obtain ⟨st, hrun⟩ := processAll_total D o [(⟨name, s, e, v⟩ : Interval V)]
    (mainInit [⟨name, ws, length, List.replicate length 0, List.replicate length D.zero, 0⟩])
    (cacheOK_mainInit _) (Or.inl (by simpa using hname))
    (by
      intro r hr cs hcs _ h0
      simp only [List.mem_singleton] at hr
      simp only [mainInit, List.mem_singleton] at hcs
      subst hr
      subst hcs
      simp only at h0 ⊢
      omega)
  unfold chrom_avg
  rw [halloc]
  simp only [ho', hrun]
  obtain ⟨hlen, hget⟩ := processAll_shape D o _ _ st hrun
  obtain ⟨cs', g1, g2, g3, g4, g5, g6⟩ := hget 0
    ⟨name, ws, length, List.replicate length 0, List.replicate length D.zero, 0⟩ rfl
  simp only at g2 g3 g4
  have hchroms : st.chroms = [cs'] := by
    simp only [mainInit, List.length_singleton] at hlen
    match hc : st.chroms, hlen with
    | [x], _ =>
      rw [hc] at g1
      simp only [List.getElem?_cons_zero, Option.some.injEq] at g1
      rw [g1]
  have hpoint : ∀ i, i < length →
      cs'.countVector.getD i 0 = (if s - o - ws ≤ i ∧ i < e - ws then 1 else 0) ∧
      cs'.sumVector.getD i D.zero =
        (if s - o - ws ≤ i ∧ i < e - ws then D.add D.zero v else D.zero) := by
    intro i hi
    obtain ⟨h1, h2⟩ := processAll_allocated D o [⟨name, ws, length, [], [], 0⟩] _
      [⟨name, s, e, v⟩] st halloc hnd hnm hrun 0
      ⟨name, ws, length, List.replicate length 0, List.replicate length D.zero, 0⟩ rfl i hi
    unfold countAt at h1
    unfold sumAt at h2
    rw [g1] at h1 h2
    simp only at h1 h2
    have hcov := covers_inside
      (⟨name, ws, length, List.replicate length 0, List.replicate length D.zero, 0⟩ : spec V)
      o ⟨name, s, e, v⟩ ho hs32 hse hw he i
    simp only at hcov
    have h1M : 1 ≤ maxCount := by decide
    by_cases hin : s - o - ws ≤ i ∧ i < e - ws
    · have hcr : coveringRecords
          (⟨name, ws, length, List.replicate length 0, List.replicate length D.zero, 0⟩ :
            spec V) o [⟨name, s, e, v⟩] i = [⟨name, s, e, v⟩] := by
        have hb := hcov.trans (decide_eq_true hin)
        simp [coveringRecords, hb]
      rw [hcr] at h1 h2
      rw [h1, h2, if_pos hin, if_pos hin]
      refine ⟨by simp [h1M], ?_⟩
      have ht : List.take maxCount [v] = [v] := List.take_of_length_le (by simpa using h1M)
      simp only [List.map_cons, List.map_nil, ht, sumValues, List.foldl_cons, List.foldl_nil]
    · have hcr : coveringRecords
          (⟨name, ws, length, List.replicate length 0, List.replicate length D.zero, 0⟩ :
            spec V) o [⟨name, s, e, v⟩] i = [] := by
        have hb := hcov.trans (decide_eq_false hin)
        simp [coveringRecords, hb]
      rw [hcr] at h1 h2
      rw [h1, h2, if_neg hin, if_neg hin]
      exact ⟨by simp, by simp [sumValues]⟩
  have henc : encode D cs' = [⟨s - o - ws, e - ws, v⟩] := by
    apply encode_single_run D cs' (s - o - ws) (e - ws) v (by omega) (by rw [g4]; omega)
    · intro j hj
      rw [g4] at hj
      rw [(hpoint j hj).1]
      by_cases h : s - o - ws ≤ j ∧ j < e - ws
      · rw [if_pos h]
        exact ⟨fun _ => h, fun _ => by decide⟩
      · rw [if_neg h]
        exact ⟨fun hh => absurd rfl hh, fun hh => absurd hh h⟩
    · intro j hj1 hj2
      have hj : j < length := by omega
      unfold avgAt
      rw [(hpoint j hj).1, (hpoint j hj).2, if_pos ⟨hj1, hj2⟩, if_pos ⟨hj1, hj2⟩]
      exact hval
    · exact hrefl v
    · exact htr
  rw [hchroms]
  simp only [reportAll, reportSpec, henc, List.map_cons, List.map_nil, List.append_nil,
    printRun, g2, g3]
  have e1 : (ws + (s - o - ws) + o) % 2 ^ 32 = s := by omega
  have e2 : (ws + (e - ws)) % 2 ^ 32 = e := by omega
  have p1 : printf_d s = (s : Int) := by
    unfold printf_d
    rw [if_pos (by omega), Nat.mod_eq_of_lt (by omega)]
  have p2 : printf_d e = (e : Int) := by
    unfold printf_d
    rw [if_pos (by omega), Nat.mod_eq_of_lt (by omega)]
  rw [e1, e2, p1, p2]

/-- C29, the failing input.  The command line `chr1:2147483648:2147483649`
registers `chr1` with window start `2^31` and length 1; the input line
`chr1 2147483648 2147483649 5` is a record inside that window (origin zero).
One position is updated and one run is found, but the report loop prints
its `u32` coordinates with `%d`: the line printed has the start
-2147483648 and the end -2147483647, not the coordinates of the record. -/
theorem single_record_high_coordinates :
    (∃ opts : Options ℚ, parse_options decScanf ["chr1:2147483648:2147483649"] = .ok opts ∧
      opts.originOne = false ∧
      opts.chromsOfInterest = [⟨"chr1", 2147483648, 1, [], [], 0⟩]) ∧
    readAll decScanf 3 (chunks lineBufferLen "chr1 2147483648 2147483649 5\n".data) 0 false =
      ([⟨"chr1", 2147483648, 2147483649, 5⟩], none) ∧
    chrom_avg ratOps false [⟨"chr1", 2147483648, 1, [], [], 0⟩]
        [⟨"chr1", 2147483648, 2147483649, 5⟩] =
      .ok [⟨"chr1", -2147483648, -2147483647, 5⟩] := by
  refine ⟨⟨_, rfl, rfl, rfl⟩, rfl, ?_⟩
  simp [chrom_avg, allocate, processAll, processInterval, resolveChrom, mainInit,
    find_chromosome_spec, bumpBatch, applyToSpec, clipRange, accumulate, accumulateAt,
    maxCount, reportAll, reportSpec, encode, encodeLoop, encodeStep, encodeFinish,
    encodeInit, ratOps, printRun, printf_d, List.range_succ, List.range']

/-! ## The character classes and the decimal conversions -/

theorem isdigit_iff (c : Char) : isdigit c = true ↔ 48 ≤ c.toNat ∧ c.toNat ≤ 57 := by
  simp only [isdigit, Bool.and_eq_true, decide_eq_true_eq, Char.le_def]
  rfl

theorem isupper_iff (c : Char) : isupper c = true ↔ 65 ≤ c.toNat ∧ c.toNat ≤ 90 := by
  simp only [isupper, Bool.and_eq_true, decide_eq_true_eq, Char.le_def]
  rfl

theorem islower_iff (c : Char) : islower c = true ↔ 97 ≤ c.toNat ∧ c.toNat ≤ 122 := by
  simp only [islower, Bool.and_eq_true, decide_eq_true_eq, Char.le_def]
  rfl

theorem toNat_ofNat_small (n : Nat) (h : n < 256) : (Char.ofNat n).toNat = n := by
  interval_cases n <;> rfl

theorem isdigit_false_iff (c : Char) : isdigit c = false ↔ ¬ (48 ≤ c.toNat ∧ c.toNat ≤ 57) := by
  rw [← isdigit_iff]; simp

theorem digitOf_digitChar (k : Nat) (h : k < 10) : digitOf (digitChar k) = k := by
  unfold digitOf digitChar
  rw [toNat_ofNat_small _ (by omega)]; omega

theorem isdigit_digitChar (k : Nat) (h : k < 10) : isdigit (digitChar k) = true := by
  rw [isdigit_iff]; unfold digitChar
  rw [toNat_ofNat_small _ (by omega)]; omega

theorem digitChar_digitOf (c : Char) (h : isdigit c = true) : digitChar (digitOf c) = c := by
  rw [isdigit_iff] at h
  unfold digitOf digitChar
  rw [show 48 + (c.toNat - 48) = c.toNat by omega]
  exact Char.ofNat_toNat c

theorem digitOf_lt (c : Char) (h : isdigit c = true) : digitOf c < 10 := by
  rw [isdigit_iff] at h
  unfold digitOf; omega

theorem isspace_toNat (c : Char) (h : isspace c = true) :
    c.toNat = 32 ∨ c.toNat = 9 ∨ c.toNat = 10 ∨ c.toNat = 11 ∨ c.toNat = 12 ∨ c.toNat = 13 := by
  simp only [isspace, Bool.or_eq_true, decide_eq_true_eq] at h
  rcases h with ((((h | h) | h) | h) | h) | h <;> subst h <;> decide

theorem isspace_not_digit (c : Char) (h : isspace c = true) : isdigit c = false := by
  rw [isdigit_false_iff]
  have := isspace_toNat c h
  omega

theorem parseNumber_stop (acc : Nat) (rest : List Char) (h : NoDigitAhead rest) :
    parseNumber acc rest = (acc, rest) := by
  cases rest with
  | nil => rfl
  | cons c t =>
    have := h c rfl
    simp [parseNumber, this]

theorem parseNumber_printf_u (n : Nat) (hn : n < 1000) (rest : List Char)
    (h : NoDigitAhead rest) : parseNumber 0 (printf_u n ++ rest) = (n, rest) := by
  unfold printf_u
  by_cases h1 : n < 10
  · simp only [if_pos h1, List.singleton_append, parseNumber, isdigit_digitChar n h1, if_true,
      digitOf_digitChar n h1]
    rw [parseNumber_stop _ _ h]; simp
  · by_cases h2 : n < 100
    · have a1 : n / 10 < 10 := by omega
      have a2 : n % 10 < 10 := by omega
      simp only [if_neg h1, if_pos h2, List.cons_append, List.nil_append, parseNumber,
        isdigit_digitChar _ a1, isdigit_digitChar _ a2, if_true, digitOf_digitChar _ a1,
        digitOf_digitChar _ a2]
      rw [parseNumber_stop _ _ h]
      congr 1; omega
    · have a1 : n / 100 < 10 := by omega
      have a2 : n / 10 % 10 < 10 := by omega
      have a3 : n % 10 < 10 := by omega
      simp only [if_neg h1, if_neg h2, if_pos hn, List.cons_append, List.nil_append, parseNumber,
        isdigit_digitChar _ a1, isdigit_digitChar _ a2, isdigit_digitChar _ a3, if_true,
        digitOf_digitChar _ a1, digitOf_digitChar _ a2, digitOf_digitChar _ a3]
      rw [parseNumber_stop _ _ h]
      congr 1; omega

/-! ## The decoder undoes the post-decimal code -/

theorem decodeFraction_two (c : Char) (hc : isdigit c = true) (rest : List Char) :
    decodeFraction ('0' :: c :: rest)
      = (decodeFraction rest).map (fun p => (c :: p.1, p.2)) := by
  have h0 : isdigit '0' = true := by decide
  have hd : digitOf '0' = 0 := by decide
  have hlt := digitOf_lt c hc
  rw [decodeFraction.eq_def]
  simp only [h0, hc, hd, Bool.not_true, Bool.false_eq_true, if_false, Nat.mul_zero, Nat.zero_add,
    if_pos hlt]
  have : printf_u (digitOf c) = [c] := by
    unfold printf_u; rw [if_pos hlt, digitChar_digitOf c hc]
  rw [this]; rfl

theorem decodeFraction_three (n : Nat) (h1 : 100 ≤ n) (h2 : n < 1000) (rest : List Char) :
    decodeFraction (printf_03d n ++ rest)
      = if n < 152 then (decodeFraction rest).map (fun p => (declet n :: p.1, p.2))
        else if n < 200 then none
        else if n < 456 then (decodeFraction rest).map (fun p => (Char.ofNat (n - 200) :: p.1, p.2))
        else none := by
  have a1 : n / 100 < 10 := by omega
  have a2 : n / 10 % 10 < 10 := by omega
  have a3 : n % 10 < 10 := by omega
  have e : 10 * (10 * (n / 100) + n / 10 % 10) + n % 10 = n := by omega
  have e2 : ¬ (10 * (n / 100) + n / 10 % 10 < 10) := by omega
  unfold printf_03d
  rw [if_pos h2]
  simp only [List.cons_append, List.nil_append]
  rw [decodeFraction.eq_def]
  simp only [isdigit_digitChar _ a1, isdigit_digitChar _ a2, isdigit_digitChar _ a3,
    digitOf_digitChar _ a1, digitOf_digitChar _ a2, digitOf_digitChar _ a3, Bool.not_true,
    Bool.false_eq_true, if_false, e, if_neg e2, if_neg (show ¬ n < 100 by omega)]

theorem decodeFraction_encodeChar (c : Char) (hc : c.toNat < 256) (rest : List Char) :
    decodeFraction (encodeChar c ++ rest)
      = (decodeFraction rest).map (fun p => (c :: p.1, p.2)) := by
  unfold encodeChar
  by_cases hd : isdigit c = true
  · rw [if_pos hd]; exact decodeFraction_two c hd rest
  · rw [if_neg hd]
    by_cases hu : isupper c = true
    · rw [if_pos hu]
      rw [isupper_iff] at hu
      rw [decodeFraction_three _ (by omega) (by omega), if_pos (by omega)]
      have : declet (100 + 2 * (c.toNat - 65)) = c := by
        unfold declet
        rw [if_pos (by omega), show 65 + (100 + 2 * (c.toNat - 65) - 100) / 2 = c.toNat by omega]
        exact Char.ofNat_toNat c
      rw [this]
    · rw [if_neg hu]
      by_cases hl : islower c = true
      · rw [if_pos hl]
        rw [islower_iff] at hl
        rw [decodeFraction_three _ (by omega) (by omega), if_pos (by omega)]
        have : declet (101 + 2 * (c.toNat - 97)) = c := by
          unfold declet
          rw [if_neg (by omega), show 97 + (101 + 2 * (c.toNat - 97) - 101) / 2 = c.toNat by omega]
          exact Char.ofNat_toNat c
        rw [this]
      · rw [if_neg hl]
        rw [decodeFraction_three _ (by omega) (by omega), if_neg (by omega), if_neg (by omega),
          if_pos (by omega), show 200 + c.toNat - 200 = c.toNat by omega, Char.ofNat_toNat]

theorem decodeFraction_stop (rest : List Char) (h : NoDigitAhead rest) :
    decodeFraction rest = some ([], rest) := by
  cases rest with
  | nil => rfl
  | cons c t =>
    have := h c rfl
    rw [decodeFraction.eq_def]; simp [this]

theorem decodeFraction_encode (w : List Char) (hw : ∀ c ∈ w, c.toNat < 256) (rest : List Char)
    (h : NoDigitAhead rest) :
    decodeFraction ((w.map encodeChar).flatten ++ rest) = some (w, rest) := by
  induction w with
  | nil => simpa using decodeFraction_stop rest h
  | cons c t ih =>
    have := ih (fun x hx => hw x (List.mem_cons_of_mem _ hx))
    simp only [List.map_cons, List.flatten_cons, List.append_assoc]
    rw [decodeFraction_encodeChar c (hw c (List.mem_cons_self _ _)), this]
    rfl

/-! ## One line of decodachrom on a number and what follows it -/

theorem spaceAhead_noDigit {rest : List Char} (h : SpaceAhead rest) : NoDigitAhead rest :=
  fun c hc => isspace_not_digit c (h c hc)

theorem spaceAhead_skip_darkspace (s : List Char) : SpaceAhead (skip_darkspace s) := by
  induction s with
  | nil => intro c hc; simp [skip_darkspace] at hc
  | cons x t ih =>
    by_cases hx : isspace x = true
    · intro c hc
      simp [skip_darkspace, List.dropWhile, hx] at hc
      rw [← hc]; exact hx
    · have : skip_darkspace (x :: t) = skip_darkspace t := by
        simp [skip_darkspace, List.dropWhile, hx]
      rw [this]; exact ih

theorem darkField_append_skip (s : List Char) : darkField s ++ skip_darkspace s = s :=
  List.takeWhile_append_dropWhile _ s

theorem digitChar_ne_hash (k : Nat) (h : k < 10) : digitChar k ≠ '#' := by
  intro e
  have := isdigit_digitChar k h
  rw [e] at this
  exact absurd this (by decide)

theorem printf_u_head (n : Nat) (hn : n < 1000) :
    ∃ d t, printf_u n = d :: t ∧ d ≠ '#' := by
  unfold printf_u
  by_cases h1 : n < 10
  · exact ⟨_, _, by rw [if_pos h1], digitChar_ne_hash _ h1⟩
  · by_cases h2 : n < 100
    · exact ⟨_, _, by rw [if_neg h1, if_pos h2], digitChar_ne_hash _ (by omega)⟩
    · exact ⟨_, _, by rw [if_neg h1, if_neg h2, if_pos hn], digitChar_ne_hash _ (by omega)⟩

theorem decodachrom_line_number (n : Nat) (hn : n < 1000) (pre : List Char)
    (hpre : chromPrefix n = some pre) (rest : List Char) (h : NoDigitAhead rest) :
    decodachrom_line (printf_u n ++ rest) =
      if rest ≠ [] ∧ isspace (rest.headD ' ') = false ∧ rest.head? ≠ some '.' then .failure
      else if rest.head? = some '.' then
        match decodeFraction rest.tail with
        | none => .failure
        | some (dec, s2) =>
          if s2 ≠ [] ∧ isspace (s2.headD ' ') = false then .failure
          else .printed (pre ++ dec ++ s2)
      else .printed (pre ++ rest) := by
  have hp := parseNumber_printf_u n hn rest h
  obtain ⟨d, t, hdt, hd⟩ := printf_u_head n hn
  rw [hdt] at hp ⊢
  rw [List.cons_append] at hp ⊢
  unfold decodachrom_line
  simp only [if_neg hd, hp, hpre]

theorem decodachrom_line_plain (n : Nat) (hn : n < 1000) (pre : List Char)
    (hpre : chromPrefix n = some pre) (rest : List Char) (h : SpaceAhead rest) :
    decodachrom_line (printf_u n ++ rest) = .printed (pre ++ rest) := by
  rw [decodachrom_line_number n hn pre hpre rest (spaceAhead_noDigit h)]
  cases rest with
  | nil => simp
  | cons c t =>
    have hc := h c rfl
    have hne : c ≠ '.' := by
      intro e; rw [e] at hc; exact absurd hc (by decide)
    simp [hc, hne]

theorem decodachrom_line_fraction (n : Nat) (hn : n < 1000) (pre : List Char)
    (hpre : chromPrefix n = some pre) (s : List Char) (hs : ∀ c ∈ s, c.toNat < 256) :
    decodachrom_line (printf_u n ++ fractional_part s) = .printed (pre ++ s) := by
  have hnd : NoDigitAhead (fractional_part s) := by
    intro c hc
    simp [fractional_part] at hc
    rw [← hc]; decide
  rw [decodachrom_line_number n hn pre hpre _ hnd]
  have hsp := spaceAhead_skip_darkspace s
  have hdec : decodeFraction (fractional_part s).tail = some (darkField s, skip_darkspace s) := by
    have := decodeFraction_encode (darkField s)
      (fun c hc => hs c ((List.takeWhile_sublist _).subset hc)) (skip_darkspace s)
      (spaceAhead_noDigit hsp)
    simpa [fractional_part] using this
  have hhead : (fractional_part s).head? = some '.' := by simp [fractional_part]
  have hne : fractional_part s ≠ [] := by simp [fractional_part]
  rw [if_neg (fun hh => hh.2.2 hhead), if_pos hhead, hdec]
  simp only
  have hok : ¬ (skip_darkspace s ≠ [] ∧ isspace ((skip_darkspace s).headD ' ') = false) := by
    rintro ⟨h1, h2⟩
    cases hsk : skip_darkspace s with
    | nil => exact h1 hsk
    | cons c t =>
      rw [hsk] at h2
      have := hsp c (by rw [hsk]; rfl)
      simp [this] at h2
  rw [if_neg hok, List.append_assoc, darkField_append_skip]

theorem decodachrom_line_remainder (n : Nat) (hn : n < 1000) (pre : List Char)
    (hpre : chromPrefix n = some pre) (t : List Char) (ht : ∀ c ∈ t, c.toNat < 256) :
    decodachrom_line (printf_u n ++ remainderPart t) = .printed (pre ++ t) := by
  cases t with
  | nil =>
    exact decodachrom_line_plain n hn pre hpre [] (fun c hc => by simp at hc)
  | cons c u =>
    by_cases hc : isspace c = true
    · have : remainderPart (c :: u) = c :: u := by simp [remainderPart, hc]
      rw [this]
      exact decodachrom_line_plain n hn pre hpre _ (fun x hx => by simp at hx; rw [← hx]; exact hc)
    · have : remainderPart (c :: u) = fractional_part (c :: u) := by simp [remainderPart, hc]
      rw [this]
      exact decodachrom_line_fraction n hn pre hpre _ ht

/-! ## The lax comparison with chr -/

theorem toNat_inj (a b : Char) (h : (a.toNat : Int) - (b.toNat : Int) = 0) : a = b := by
  have h2 : a.toNat = b.toNat := by omega
  rw [← Char.ofNat_toNat a, ← Char.ofNat_toNat b, h2]

theorem strncmplax_chr (s : List Char) :
    strncmplax s "chr".data 3 = 0 ↔
      ∃ c1 c2 c3 rest, s = c1 :: c2 :: c3 :: rest ∧
        tolower c1 = 'c' ∧ tolower c2 = 'h' ∧ tolower c3 = 'r' := by
  have hc : tolower 'c' = 'c' := by decide
  have hh : tolower 'h' = 'h' := by decide
  have hr : tolower 'r' = 'r' := by decide
  have h0 : tolower (Char.ofNat 0) = Char.ofNat 0 := by decide
  constructor
  · intro h
    match s, h with
    | [], h => exact absurd h (by decide)
    | [c1], h =>
      simp only [strncmplax, List.headD, List.tail, hc, hh, hr, h0] at h
      split at h
      · rename_i hx
        split at h
        · rename_i hy; exact absurd hy.1 (by decide)
        · exact absurd h (by decide)
      · rename_i hx
        have := toNat_inj _ _ h
        exact absurd ⟨this, by rw [this]; decide, by decide⟩ hx
    | [c1, c2], h =>
      simp only [strncmplax, List.headD, List.tail, hc, hh, hr, h0] at h
      split at h
      · split at h
        · exact absurd h (by decide)
        · rename_i hx hy
          have := toNat_inj _ _ h
          exact absurd ⟨this, by rw [this]; decide, by decide⟩ hy
      · rename_i hx
        have := toNat_inj _ _ h
        exact absurd ⟨this, by rw [this]; decide, by decide⟩ hx
    | c1 :: c2 :: c3 :: rest, h =>
      refine ⟨c1, c2, c3, rest, rfl, ?_⟩
      simp only [strncmplax, List.headD, List.tail, hc, hh, hr, h0] at h
      split at h
      · rename_i hx
        split at h
        · rename_i hy
          exact ⟨hx.1, hy.1, toNat_inj _ _ (by simpa using h)⟩
        · rename_i hy
          have := toNat_inj _ _ h
          exact absurd ⟨this, by rw [this]; decide, by decide⟩ hy
      · rename_i hx
        have := toNat_inj _ _ h
        exact absurd ⟨this, by rw [this]; decide, by decide⟩ hx
  · rintro ⟨c1, c2, c3, rest, rfl, h1, h2, h3⟩
    simp [strncmplax, h1, h2, h3, hc, hh, hr]

theorem skip_whitespace_self (c : Char) (t : List Char) (h : isspace c = false) :
    skip_whitespace (c :: t) = c :: t := by
  simp [skip_whitespace, List.dropWhile, h]

theorem chromPrefix_letter (c : Char) (h : isupper c = true) :
    chrNumberOfLetter c < 1000 ∧ chromPrefix (chrNumberOfLetter c) = some ("chr".data ++ [c]) := by
  rw [isupper_iff] at h
  obtain ⟨h1, h2⟩ := h
  have hc : c = Char.ofNat c.toNat := (Char.ofNat_toNat c).symm
  generalize c.toNat = k at h1 h2 hc
  subst hc
  interval_cases k <;> exact ⟨by decide, by decide⟩

theorem chromPrefix_digit (k : Nat) (h : k < 10) :
    chromPrefix (k + 1) = some ("chr".data ++ [digitChar k]) := by
  interval_cases k <;> decide

theorem chromPrefix_two_digits (k j : Nat) (hk : 0 < k) (hk2 : k < 10) (hj : j < 10) :
    chromPrefix (10 * k + j + 1) = some ("chr".data ++ [digitChar k, digitChar j]) := by
  interval_cases k <;> interval_cases j <;> decide

theorem toupper_of_not_lower (c : Char) (h : islower c = false) : toupper c = c := by
  simp [toupper, h]

theorem isupper_toupper (x : Char) (h : isalpha x = true) : isupper (toupper x) = true := by
  by_cases hl : islower x = true
  · have h2 := (islower_iff x).1 hl
    rw [toupper, if_pos hl, isupper_iff, toNat_ofNat_small _ (by omega)]
    omega
  · have hl2 : islower x = false := by simpa using hl
    rw [toupper_of_not_lower x hl2]
    simpa [isalpha, hl2] using h

theorem tolower_ne_hash (c : Char) (a : Char) (h : tolower c = a) (ha : islower a = true) :
    c ≠ '#' := by
  intro e
  subst e
  have : tolower '#' = '#' := by decide
  rw [this] at h
  subst h
  exact absurd ha (by decide)

theorem encodachrom_line_lax (line : List Char) (c1 c2 c3 : Char) (rest : List Char) :
    skip_whitespace line = c1 :: c2 :: c3 :: rest →
    tolower c1 = 'c' → tolower c2 = 'h' → tolower c3 = 'r' →
    encodachrom_line line =
      match rest with
      | [] => "200".data ++ fractional_part []
      | c :: t =>
        if !isdigit c && !isalpha c then "200".data ++ fractional_part (c :: t)
        else if isalpha c then printf_u (chrNumberOfLetter (toupper c)) ++ remainderPart t
        else
          match t with
          | [] => printf_u (digitOf c + 1) ++ remainderPart []
          | d :: u =>
            if isdigit d then printf_u (10 * digitOf c + digitOf d + 1) ++ remainderPart u
            else printf_u (digitOf c + 1) ++ remainderPart (d :: u) := by
  intro hs h1 h2 h3
  have hh : (c1 :: c2 :: c3 :: rest).head? ≠ some '#' := by
    simpa using tolower_ne_hash c1 _ h1 (by decide)
  have hc : strncmplax (c1 :: c2 :: c3 :: rest) "chr".data 3 = 0 :=
    (strncmplax_chr _).2 ⟨_, _, _, rest, rfl, h1, h2, h3⟩
  unfold encodachrom_line
  simp only [hs, if_neg hh, hc, ne_eq, not_true_eq_false, if_false, List.drop_succ_cons,
    List.drop_zero]

theorem takeWhile_digits (l rest : List Char) (hl : ∀ c ∈ l, isdigit c = true)
    (h : NoDigitAhead rest) : intPart (l ++ rest) = l := by
  induction l with
  | nil =>
    cases rest with
    | nil => rfl
    | cons c t => simp [intPart, List.takeWhile, h c rfl]
  | cons x t ih =>
    have hx := hl x (List.mem_cons_self _ _)
    have := ih (fun c hc => hl c (List.mem_cons_of_mem _ hc))
    simp only [intPart] at this ⊢
    simp [List.takeWhile, hx, this]

theorem printf_u_digits (n : Nat) (hn : n < 1000) : ∀ c ∈ printf_u n, isdigit c = true := by
  unfold printf_u
  intro c hc
  by_cases h1 : n < 10
  · rw [if_pos h1] at hc
    simp only [List.mem_singleton] at hc
    rw [hc]; exact isdigit_digitChar _ h1
  · by_cases h2 : n < 100
    · rw [if_neg h1, if_pos h2] at hc
      simp only [List.mem_cons, List.mem_singleton, List.not_mem_nil, or_false] at hc
      rcases hc with hc | hc <;> rw [hc] <;> exact isdigit_digitChar _ (by omega)
    · rw [if_neg h1, if_neg h2, if_pos hn] at hc
      simp only [List.mem_cons, List.mem_singleton, List.not_mem_nil, or_false] at hc
      rcases hc with hc | hc | hc <;> rw [hc] <;> exact isdigit_digitChar _ (by omega)

theorem intPart_printf_u (n : Nat) (hn : n < 1000) (rest : List Char) (h : NoDigitAhead rest) :
    intPart (printf_u n ++ rest) = printf_u n :=
  takeWhile_digits _ rest (printf_u_digits n hn) h

theorem noDigitAhead_fractional_part (s : List Char) : NoDigitAhead (fractional_part s) := by
  intro c hc
  simp [fractional_part] at hc
  rw [← hc]; decide

theorem noDigitAhead_remainderPart (t : List Char) : NoDigitAhead (remainderPart t) := by
  cases t with
  | nil => intro c hc; simp [remainderPart] at hc
  | cons x u =>
    by_cases hx : isspace x = true
    · have : remainderPart (x :: u) = x :: u := by simp [remainderPart, hx]
      rw [this]
      intro c hc
      simp at hc
      rw [← hc]; exact isspace_not_digit x hx
    · have : remainderPart (x :: u) = fractional_part (x :: u) := by simp [remainderPart, hx]
      rw [this]; exact noDigitAhead_fractional_part _

theorem codeTable_other (s : List Char) (h1 : s.head? ≠ some '#')
    (h2 : ¬ strncmplax s "chr".data 3 = 0) : codeTable s = 300 := by
  unfold codeTable
  rw [if_neg h1]
  rcases s with _ | ⟨c1, _ | ⟨c2, _ | ⟨c3, rest⟩⟩⟩
  · rfl
  · rfl
  · rfl
  · have : ¬ (tolower c1 = 'c' ∧ tolower c2 = 'h' ∧ tolower c3 = 'r') := fun hh =>
      h2 ((strncmplax_chr _).2 ⟨c1, c2, c3, rest, rfl, hh.1, hh.2.1, hh.2.2⟩)
    simp only [if_neg this]

/-! ## The code table of encodachrom -/

/-- C23 (code table).  The digits at the start of the text encodachrom prints
for a line are the decimal numeral of the entry of the table for the text of
the line after its leading whitespace: 0 for a comment, 300 when the text
does not start with `chr` (compared without regard to the case of the
letters), 200 when `chr` is followed by nothing or by a character that is
neither a letter nor a digit, the number made of the one or two digits after
`chr` plus one, and the code of the letter after `chr` taken in upper case.
For `chr` followed by the numeral of a number below 100 and no further digit
the entry is that number plus one; the letters X, Y, W, Z, M have the codes
101 to 105, the letters A to V without M the codes 106 to 127 in order with
118 left out, and no letter at all has the code 118. -/
theorem code_table (line : List Char) :
    intPart (encodachrom_line line) = printf_u (codeTable (skip_whitespace line)) ∧
    (∀ N, N < 100 → ∀ rest, NoDigitAhead rest →
      codeTable ("chr".data ++ printf_u N ++ rest) = N + 1) ∧
    "XYWZM".data.map letterCode = [101, 102, 103, 104, 105] ∧
    "ABCDEFGHIJKLNOPQRSTUV".data.map letterCode =
      [106, 107, 108, 109, 110, 111, 112, 113, 114, 115, 116, 117,
       119, 120, 121, 122, 123, 124, 125, 126, 127] ∧
    (∀ letter, letterCode letter ≠ 118) := by
  refine ⟨?_, ?_, by decide, by decide, ?_⟩
  · by_cases hhash : (skip_whitespace line).head? = some '#'
    · have e : encodachrom_line line = printf_u 0 ++ fractional_part (skip_whitespace line).tail := by
        unfold encodachrom_line; simp only [if_pos hhash]; rfl
      have e2 : codeTable (skip_whitespace line) = 0 := by
        unfold codeTable; rw [if_pos hhash]
      rw [e, e2]
      exact intPart_printf_u 0 (by decide) _ (noDigitAhead_fractional_part _)
    · by_cases hcmp : strncmplax (skip_whitespace line) "chr".data 3 = 0
      · obtain ⟨c1, c2, c3, rest, hl, e1, e2, e3⟩ := (strncmplax_chr _).1 hcmp
        rw [encodachrom_line_lax line c1 c2 c3 rest hl e1 e2 e3, hl]
        have hne : (c1 :: c2 :: c3 :: rest).head? ≠ some '#' := by rw [← hl]; exact hhash
        unfold codeTable
        rw [if_neg hne]
        simp only [e1, e2, e3, and_self, if_true]
        cases rest with
        | nil =>
          exact intPart_printf_u 200 (by decide) _ (noDigitAhead_fractional_part _)
        | cons x y =>
          simp only
          by_cases hd : isdigit x = true
          · have hna : isalpha x = false := by
              have h1 := (isdigit_iff x).1 hd
              have h2 : isupper x = false := by
                rw [Bool.eq_false_iff, ne_eq, isupper_iff]; omega
              have h3 : islower x = false := by
                rw [Bool.eq_false_iff, ne_eq, islower_iff]; omega
              simp [isalpha, h2, h3]
            have hk := digitOf_lt x hd
            rw [if_neg (by simp [hd]), if_neg (by simp [hna]), if_pos hd]
            cases y with
            | nil =>
              have : isdigit ' ' = false := by decide
              simp only [List.headD, this, Bool.false_eq_true, if_false]
              exact intPart_printf_u _ (by omega) _ (noDigitAhead_remainderPart _)
            | cons d u =>
              simp only [List.headD]
              by_cases hdd : isdigit d = true
              · have hj := digitOf_lt d hdd
                rw [if_pos hdd, if_pos hdd]
                exact intPart_printf_u _ (by omega) _ (noDigitAhead_remainderPart _)
              · rw [if_neg hdd, if_neg hdd]
                exact intPart_printf_u _ (by omega) _ (noDigitAhead_remainderPart _)
          · by_cases ha : isalpha x = true
            · rw [if_neg (by simp [ha]), if_pos ha, if_neg hd, if_pos ha]
              have hlt := (chromPrefix_letter _ (isupper_toupper x ha)).1
              have : letterCode (toupper x) = chrNumberOfLetter (toupper x) := rfl
              rw [this]
              exact intPart_printf_u _ hlt _ (noDigitAhead_remainderPart _)
            · rw [if_pos (by simp [hd, ha]), if_neg hd, if_neg ha]
              exact intPart_printf_u 200 (by decide) _ (noDigitAhead_fractional_part _)
      · have e : encodachrom_line line = printf_u 300 ++ fractional_part (skip_whitespace line) := by
          unfold encodachrom_line
          simp only [if_neg hhash, ne_eq, hcmp, not_false_eq_true, if_true]
          rfl
        have e2 := codeTable_other _ hhash hcmp
        rw [e, e2]
        exact intPart_printf_u 300 (by decide) _ (noDigitAhead_fractional_part _)
  · intro N hN rest hrest
    have hc : tolower 'c' = 'c' := by decide
    have hh : tolower 'h' = 'h' := by decide
    have hr : tolower 'r' = 'r' := by decide
    have hsp : isdigit ' ' = false := by decide
    have hhead : isdigit (rest.head?.getD ' ') = false := by
      cases rest with
      | nil => exact hsp
      | cons c t => exact hrest c rfl
    unfold printf_u
    by_cases h1 : N < 10
    · rw [if_pos h1]
      simp [codeTable, hc, hh, hr, isdigit_digitChar N h1, digitOf_digitChar N h1, hhead]
    · have a1 : N / 10 < 10 := by omega
      have a2 : N % 10 < 10 := by omega
      rw [if_neg h1, if_pos hN]
      simp only [codeTable, List.cons_append, List.nil_append, String.data, List.head?_cons,
        hc, hh, hr, and_self, if_true, isdigit_digitChar _ a1, isdigit_digitChar _ a2,
        digitOf_digitChar _ a1, digitOf_digitChar _ a2, List.headD]
      simp
      omega
  · intro letter h
    unfold letterCode at h
    split_ifs at h with _ _ _ _ hM
    all_goals first | omega | skip
    have hA : 'A'.toNat = 65 := rfl
    have h77 : letter.toNat = 77 := by omega
    apply hM
    rw [← Char.ofNat_toNat letter, h77]

/-- The theorem `code_table` at the line `chr12_random 5`, and its row of the
numbered chromosomes at `chr7` followed by a tab. -/
theorem code_table_witness :
    intPart (encodachrom_line "chr12_random 5".data) = "13".data ∧
    codeTable ("chr".data ++ printf_u 7 ++ "\t100".data) = 7 + 1 :=
  ⟨(code_table "chr12_random 5".data).1.trans (by decide),
   (code_table []).2.1 7 (by decide) "\t100".data
     (fun c hc => by cases hc; decide)⟩

/-- A line that starts with `Chr1`: the first three characters are not
`chr`, and the number printed is 2, the code of chromosome 1, not 300. -/
theorem capital_chr_code :
    "Chr1\t5".data.take 3 ≠ "chr".data ∧
    encodachrom_line "Chr1\t5".data = "2\t5".data ∧
    intPart (encodachrom_line "Chr1\t5".data) = "2".data := by
  decide

/-! ## The round trip through encodachrom and decodachrom -/

/-- C22 (round trip).  The line `Chr1`, tab, `100`, tab, `200` does not come
back: encodachrom prints `2`, tab, `100`, tab, `200` for it, and decodachrom
prints `chr1`, tab, `100`, tab, `200` for that text, with a lower-case `c`.
Leading whitespace is lost in the same way, and so are the lower case of the
letter after `chr` and a zero in front of a chromosome number. -/
theorem round_trip_not_exact :
    encodachrom_line "Chr1\t100\t200".data = "2\t100\t200".data ∧
    decodachrom_line "2\t100\t200".data = .printed "chr1\t100\t200".data ∧
    decodachrom_line (encodachrom_line "Chr1\t100\t200".data)
      ≠ .printed "Chr1\t100\t200".data ∧
    decodachrom_line (encodachrom_line " chr1\t5".data) = .printed "chr1\t5".data ∧
    decodachrom_line (encodachrom_line "chrx\t5".data) = .printed "chrX\t5".data ∧
    decodachrom_line (encodachrom_line "chr01\t5".data) = .printed "chr1\t5".data := by
  decide

/-- C31 (restricted round trip).  Let a line consist of 7-bit characters
other than NUL and not start with a whitespace character, and, when its
first three characters are `chr` in some case of the letters, let them be
`chr` in lower case, followed by no lower-case letter and by no `0` that has
a digit after it.  Then decodachrom, given the text encodachrom prints for
the line, prints the line itself: it neither discards the text nor goes to
`failure`. -/
theorem restricted_round_trip (line : List Char)
    (hascii : ∀ c ∈ line, c.toNat < 128)
    (_hnul : ∀ c ∈ line, c ≠ Char.ofNat 0)
    (hfirst : ∀ c, line.head? = some c → isspace c = false)
    (hchr : ∀ c1 c2 c3 rest, line = c1 :: c2 :: c3 :: rest →
      tolower c1 = 'c' → tolower c2 = 'h' → tolower c3 = 'r' →
      (c1 = 'c' ∧ c2 = 'h' ∧ c3 = 'r') ∧
      (∀ x, rest.head? = some x → islower x = false) ∧
      (∀ d, rest.head? = some '0' → rest.tail.head? = some d → isdigit d = false)) :
    decodachrom_line (encodachrom_line line) = .printed line := by
  have h256 : ∀ c ∈ line, c.toNat < 256 := fun c hc => Nat.lt_trans (hascii c hc) (by decide)
  cases line with
  | nil => decide
  | cons c t =>
    have hsp := hfirst c rfl
    have hs := skip_whitespace_self c t hsp
    by_cases hhash : c = '#'
    · subst hhash
      have e : encodachrom_line ('#' :: t) = printf_u 0 ++ fractional_part t := by
        unfold encodachrom_line; simp [hs]; rfl
      rw [e, decodachrom_line_fraction 0 (by decide) "#".data (by decide) t
        (fun x hx => h256 x (List.mem_cons_of_mem _ hx))]
      rfl
    · by_cases hcmp : strncmplax (c :: t) "chr".data 3 = 0
      · obtain ⟨c1, c2, c3, rest, hl, e1, e2, e3⟩ := (strncmplax_chr _).1 hcmp
        obtain ⟨⟨rfl, rfl, rfl⟩, hlow, hzero⟩ := hchr c1 c2 c3 rest hl e1 e2 e3
        rw [hl] at h256 ⊢
        have hr : ∀ x ∈ rest, x.toNat < 256 := fun x hx => h256 x (by simp [hx])
        rw [encodachrom_line_lax _ _ _ _ rest (skip_whitespace_self _ _ (by decide)) e1 e2 e3]
        cases rest with
        | nil => decide
        | cons x y =>
          have hy : ∀ z ∈ y, z.toNat < 256 := fun z hz => hr z (List.mem_cons_of_mem _ hz)
          have hxl := hlow x rfl
          simp only
          by_cases hd : isdigit x = true
          · have hna : isalpha x = false := by
              have h1 := (isdigit_iff x).1 hd
              have h2 : isupper x = false := by
                rw [Bool.eq_false_iff, ne_eq, isupper_iff]; omega
              simp [isalpha, h2, hxl]
            have hk := digitOf_lt x hd
            rw [if_neg (by simp [hd]), if_neg (by simp [hna])]
            cases y with
            | nil =>
              simp only
              rw [decodachrom_line_remainder _ (by omega) _ (chromPrefix_digit _ hk) [] (by simp),
                digitChar_digitOf x hd]
              rfl
            | cons d u =>
              simp only
              by_cases hdd : isdigit d = true
              · have hx0 : x ≠ '0' := by
                  intro e
                  subst e
                  have := hzero d rfl rfl
                  rw [hdd] at this; exact absurd this (by decide)
                have hpos : 0 < digitOf x := by
                  rcases Nat.eq_zero_or_pos (digitOf x) with h0 | h0
                  · exfalso; apply hx0
                    rw [← digitChar_digitOf x hd, h0]; rfl
                  · exact h0
                have hj := digitOf_lt d hdd
                rw [if_pos hdd, decodachrom_line_remainder _ (by omega) _
                  (chromPrefix_two_digits _ _ hpos hk hj) u
                  (fun z hz => hy z (List.mem_cons_of_mem _ hz)),
                  digitChar_digitOf x hd, digitChar_digitOf d hdd]
                rfl
              · rw [if_neg hdd, decodachrom_line_remainder _ (by omega) _
                  (chromPrefix_digit _ hk) (d :: u) hy, digitChar_digitOf x hd]
                rfl
          · by_cases ha : isalpha x = true
            · have hu : isupper x = true := by
                simpa [isalpha, hxl] using ha
              obtain ⟨hlt, hpre⟩ := chromPrefix_letter x hu
              rw [if_neg (by simp [ha]), if_pos ha, toupper_of_not_lower x hxl,
                decodachrom_line_remainder _ hlt _ hpre y hy]
              rfl
            · rw [if_pos (by simp [hd, ha])]
              have e : "200".data = printf_u 200 := by decide
              show decodachrom_line ("200".data ++ fractional_part (x :: y)) = _
              rw [e, decodachrom_line_fraction 200 (by decide) "chr".data (by decide) (x :: y) hr]
              rfl
      · have e : encodachrom_line (c :: t) = printf_u 300 ++ fractional_part (c :: t) := by
          unfold encodachrom_line
          simp only [hs, List.head?_cons, Option.some.injEq, if_neg hhash, ne_eq, hcmp,
            not_false_eq_true, if_true]
          rfl
        rw [e, decodachrom_line_fraction 300 (by decide) [] (by decide) (c :: t) h256]
        rfl

/-- The theorem `restricted_round_trip` at the line `chr12_random`, tab,
`100`, tab, `200`, tab, `3.5`. -/
theorem restricted_round_trip_witness :
    decodachrom_line (encodachrom_line "chr12_random\t100\t200\t3.5".data)
      = .printed "chr12_random\t100\t200\t3.5".data :=
  restricted_round_trip "chr12_random\t100\t200\t3.5".data (by decide) (by decide)
    (fun c hc => by cases hc; decide)
    (by
      intro c1 c2 c3 rest h _ _ _
      injection h with h1 h
      injection h with h2 h
      injection h with h3 h
      subst h1 h2 h3 h
      exact ⟨⟨rfl, rfl, rfl⟩, fun x hx => by cases hx; decide,
        fun d hd => by cases hd⟩)

/-! ## The first lookup and the empty chromosome name

The read loop is entered with `prevChrom` empty and `chromSpec` null (lines
382-383) and looks a chromosome up only when its name differs from
`prevChrom` (line 393).  A record with an empty chromosome field, which a
line starting with a tab yields, is therefore taken for a repetition of a
previous chromosome as long as no record with another name has been read. -/

/-- C6, the failing input.  The command line `:4` registers a chromosome
with the empty name and length 4; the input line tab, `0`, tab, `1`, tab,
`5` is read as the record with the empty name, start 0, end 1 and value 5.
That record names the chromosome and covers position 0, so the number of
covering records is 1; but the record is never looked up, the state of the
read loop stays as it was, the count at position 0 is 0, and nothing is
printed. -/
theorem empty_name_record_not_counted :
    (∃ opts : Options ℚ, parse_options decScanf [":4"] = .ok opts ∧
      opts.originOne = false ∧ opts.chromsOfInterest = [⟨"", 0, 4, [], [], 0⟩]) ∧
    readAll decScanf 3 (chunks lineBufferLen "\t0\t1\t5\n".data) 0 false =
      ([⟨"", 0, 1, 5⟩], none) ∧
    allocate ratOps [(⟨"", 0, 4, [], [], 0⟩ : spec ℚ)] =
      .ok [⟨"", 0, 4, [0, 0, 0, 0], [0, 0, 0, 0], 0⟩] ∧
    coveringRecords (⟨"", 0, 4, [0, 0, 0, 0], [0, 0, 0, 0], 0⟩ : spec ℚ) 0
      [⟨"", 0, 1, 5⟩] 0 = [⟨"", 0, 1, 5⟩] ∧
    processAll ratOps 0 (mainInit [⟨"", 0, 4, [0, 0, 0, 0], [0, 0, 0, 0], 0⟩])
      [⟨"", 0, 1, 5⟩] = .ok (mainInit [⟨"", 0, 4, [0, 0, 0, 0], [0, 0, 0, 0], 0⟩]) ∧
    countAt (mainInit [(⟨"", 0, 4, [0, 0, 0, 0], [0, 0, 0, 0], 0⟩ : spec ℚ)]) 0 0 = 0 ∧
    chrom_avg ratOps false [⟨"", 0, 4, [], [], 0⟩] [⟨"", 0, 1, 5⟩] = .ok [] := by
  refine ⟨⟨_, rfl, rfl, rfl⟩, rfl, rfl, ?_, rfl, rfl, ?_⟩
  · simp [coveringRecords, covers, clipRange]
  · simp [chrom_avg, allocate, processAll, processInterval, resolveChrom, mainInit,
      reportAll, reportSpec, encode, encodeLoop, encodeStep, encodeFinish,
      encodeInit, ratOps, List.range_succ, List.range']

/-- C7, the failing input.  With the chromosome of the empty name and length
4 registered, let the input consist of `n` records with the empty name,
start 0, end 1 and value 5, for any `n`, in particular for `n = 2^32`, which
is more than `maxCount`.  All `n` records name the chromosome and cover
position 0, but none is looked up: the state of the read loop stays as it
was, the count at position 0 is 0 and not `maxCount`, and nothing is
printed. -/
theorem empty_name_records_never_saturate (n : Nat) :
    maxCount < 2 ^ 32 ∧
    (coveringRecords (⟨"", 0, 4, [0, 0, 0, 0], [0, 0, 0, 0], 0⟩ : spec ℚ) 0
      (List.replicate n ⟨"", 0, 1, 5⟩) 0).length = n ∧
    processAll ratOps 0 (mainInit [⟨"", 0, 4, [0, 0, 0, 0], [0, 0, 0, 0], 0⟩])
      (List.replicate n ⟨"", 0, 1, 5⟩) =
        .ok (mainInit [⟨"", 0, 4, [0, 0, 0, 0], [0, 0, 0, 0], 0⟩]) ∧
    countAt (mainInit [(⟨"", 0, 4, [0, 0, 0, 0], [0, 0, 0, 0], 0⟩ : spec ℚ)]) 0 0 = 0 ∧
    chrom_avg ratOps false [⟨"", 0, 4, [], [], 0⟩] (List.replicate n ⟨"", 0, 1, 5⟩) =
      .ok [] := by
  have hrun : processAll ratOps 0 (mainInit [⟨"", 0, 4, [0, 0, 0, 0], [0, 0, 0, 0], 0⟩])
      (List.replicate n ⟨"", 0, 1, 5⟩) =
        .ok (mainInit [⟨"", 0, 4, [0, 0, 0, 0], [0, 0, 0, 0], 0⟩]) := by
    induction n with
    | zero => rfl
    | succ m ih =>
      have hstep : processInterval ratOps 0
          (mainInit [⟨"", 0, 4, [0, 0, 0, 0], [0, 0, 0, 0], 0⟩]) ⟨"", 0, 1, 5⟩ =
            .ok (mainInit [⟨"", 0, 4, [0, 0, 0, 0], [0, 0, 0, 0], 0⟩]) := rfl
      rw [List.replicate_succ, processAll, hstep]
      exact ih
  have hcov : (coveringRecords (⟨"", 0, 4, [0, 0, 0, 0], [0, 0, 0, 0], 0⟩ : spec ℚ) 0
      (List.replicate n ⟨"", 0, 1, 5⟩) 0).length = n := by
    rw [coveringRecords, List.filter_eq_self.mpr, List.length_replicate]
    intro r hr
    rw [(List.mem_replicate.mp hr).2]
    simp [covers, clipRange]
  refine ⟨by decide, hcov, hrun, rfl, ?_⟩
  have halloc : allocate ratOps [(⟨"", 0, 4, [], [], 0⟩ : spec ℚ)] =
      .ok [⟨"", 0, 4, [0, 0, 0, 0], [0, 0, 0, 0], 0⟩] := rfl
  unfold chrom_avg
  rw [halloc]
  simp only [Bool.false_eq_true, if_false]
  rw [hrun]
  simp [mainInit, reportAll, reportSpec, encode, encodeLoop, encodeStep, encodeFinish,
    encodeInit, ratOps, List.range_succ, List.range']

/-- C28, the failing input.  With the chromosome of the empty name and
length 4 registered, take the line tab, `0`, tab, `1`, tab, `5` and the line
`chr9`, tab, `0`, tab, `1`, tab, `1`.  Neither record is fatal.  With the
tab line first, it is not looked up and the count at position 0 stays 0;
with the `chr9` line first, the tab line is looked up and the count at
position 0 becomes 1.  The program prints nothing for the first order and
one interval for the second. -/
theorem empty_name_order_dependence :
    readAll decScanf 3 (chunks lineBufferLen "\t0\t1\t5\nchr9\t0\t1\t1\n".data) 0 false =
      ([⟨"", 0, 1, 5⟩, ⟨"chr9", 0, 1, 1⟩], none) ∧
    readAll decScanf 3 (chunks lineBufferLen "chr9\t0\t1\t1\n\t0\t1\t5\n".data) 0 false =
      ([⟨"chr9", 0, 1, 1⟩, ⟨"", 0, 1, 5⟩], none) ∧
    (∃ st, processAll ratOps 0 (mainInit [⟨"", 0, 4, [0, 0, 0, 0], [0, 0, 0, 0], 0⟩])
      [⟨"", 0, 1, 5⟩, ⟨"chr9", 0, 1, 1⟩] = .ok st ∧ countAt st 0 0 = 0) ∧
    (∃ st, processAll ratOps 0 (mainInit [⟨"", 0, 4, [0, 0, 0, 0], [0, 0, 0, 0], 0⟩])
      [⟨"chr9", 0, 1, 1⟩, ⟨"", 0, 1, 5⟩] = .ok st ∧ countAt st 0 0 = 1) ∧
    chrom_avg ratOps false [⟨"", 0, 4, [], [], 0⟩] [⟨"", 0, 1, 5⟩, ⟨"chr9", 0, 1, 1⟩] =
      .ok [] ∧
    chrom_avg ratOps false [⟨"", 0, 4, [], [], 0⟩] [⟨"chr9", 0, 1, 1⟩, ⟨"", 0, 1, 5⟩] =
      .ok [⟨"", 0, 1, 5⟩] := by
  refine ⟨rfl, rfl, ⟨_, rfl, rfl⟩, ⟨_, rfl, rfl⟩, ?_, ?_⟩
  · simp [chrom_avg, allocate, processAll, processInterval, resolveChrom, mainInit,
      find_chromosome_spec, bumpBatch, reportAll, reportSpec, encode, encodeLoop, encodeStep,
      encodeFinish, encodeInit, ratOps, List.range_succ, List.range']
  · simp [chrom_avg, allocate, processAll, processInterval, resolveChrom, mainInit,
      find_chromosome_spec, bumpBatch, applyToSpec, clipRange, accumulate, accumulateAt,
      maxCount, reportAll, reportSpec, encode, encodeLoop, encodeStep, encodeFinish,
      encodeInit, ratOps, printRun, printf_d, List.range_succ, List.range']

end ChromAvg
